import Mathlib

/-!
cpp_cmdline: a shallow embedding of `cmdline.h`.

The header declares a small command-line parser: a value caster
(`LexicalCast`, `CastFromString`, `CastToString`), a choice validator
(`ChoiceCaster`), the argument classes (`BasicArgument`, `ChoiceArgument`) and
the registry (`Parser`).  Functions of the header are embedded as Lean functions
of the same name.  A `std::string` is a list of characters; a method that
mutates its object returns the object after the call next to the outcome of the
call, so that the state left behind by a thrown error can be inspected.
-/

namespace cmd

/-- A `std::string`. -/
abbrev Str := List Char

namespace Str

/-- Search of `pat` in `s`, the cursor standing at index `i` with `s` the text
from there on: the lowest index at which `pat` occurs, if any. -/
def findFrom (pat : Str) : Str → Nat → Option Nat
  | [], i => if pat.isPrefixOf [] then some i else none
  | c :: cs, i => if pat.isPrefixOf (c :: cs) then some i else findFrom pat cs (i + 1)

/-- The call `s.find(pat, pos)` of `std::string`; `none` is `npos`. -/
def find (s pat : Str) (pos : Nat) : Option Nat :=
  if pos ≤ s.length then findFrom pat (s.drop pos) pos else none

/-- The call `s.substr(pos, n)` of `std::string` (for `pos` within the string). -/
def substr (s : Str) (pos n : Nat) : Str := (s.drop pos).take n

end Str

namespace detail

/-- The `for` loop of `StringSplit`.  `fuel` bounds the number of iterations;
`none` stands for a loop that did not finish within the bound.  Indices are
`size_t`; the subtraction `pos + pattern.size() - 1` can only wrap for an empty
pattern, which no caller passes. -/
def StringSplit.loop (str pattern : Str) (size : Nat) :
    Nat → Nat → List Str → Option (List Str)
  | 0, _, _ => none
  | fuel + 1, i, ret =>
    if i < size then
      match Str.find str pattern i with
      | some pos =>
        if pos < size then
          let s := Str.substr str i (pos - i)
          let i := pos + pattern.length - 1
          StringSplit.loop str pattern size fuel (i + 1) (ret ++ [s])
        else StringSplit.loop str pattern size fuel (i + 1) ret
      | none => StringSplit.loop str pattern size fuel (i + 1) ret
    else some ret

/-- The function `StringSplit(src, pattern)`: the pieces of `src` between
occurrences of `pattern`; `none` when the loop does not terminate. -/
def StringSplit (src pattern : Str) : Option (List Str) :=
  if src.isEmpty then some []
  else
    let str := src ++ pattern
    let size := str.length
    StringSplit.loop str pattern size (size + 1) 0 []

/-! ## The scalar types and their values -/

/-- The integer types of 16 bits and more the caster is instantiated with; the
integer types of 8 bits are character types for a stream, see `CharKind`. -/
inductive IntKind
  | short | int | long | longlong
  deriving DecidableEq, Repr

/-- Width in bits of an integer type (LP64). -/
def IntKind.bits : IntKind → Nat
  | .short => 16
  | .int => 32
  | .long => 64
  | .longlong => 64

/-- The character types, which are the integer types of 8 bits: `int8_t` is
`signed char` and `uint8_t` is `unsigned char`. -/
inductive CharKind
  | char | schar | uchar
  deriving DecidableEq, Repr

/-- The floating-point types the caster is instantiated with. -/
inductive FloatKind
  | float | double
  deriving DecidableEq, Repr

/-- Number of significand bits of a floating-point type. -/
def FloatKind.prec : FloatKind → Nat
  | .float => 24
  | .double => 53

/-- Largest binary exponent of a floating-point type. -/
def FloatKind.emax : FloatKind → Int
  | .float => 127
  | .double => 1023

/-- The template argument `T`: a scalar type. -/
inductive Ty
  | bool
  | sint (k : IntKind)
  | uint (k : IntKind)
  | flt (k : FloatKind)
  | string
  | chr (k : CharKind)
  deriving DecidableEq, Repr

/-- A floating-point datum: `finite neg m e` is `(-1)^neg * m * 2^e`. -/
inductive Flt
  | finite (neg : Bool) (m : Nat) (e : Int)
  | inf (neg : Bool)
  | nan (neg : Bool)
  deriving DecidableEq, Repr

/-- A value of one of the scalar types, with its type. -/
inductive Value
  | bool (b : Bool)
  | sint (k : IntKind) (i : Int)
  | uint (k : IntKind) (n : Nat)
  | flt (k : FloatKind) (x : Flt)
  | string (s : Str)
  | chr (k : CharKind) (c : Int)
  deriving DecidableEq, Repr

/-- The static type of a value. -/
def Value.ty : Value → Ty
  | .bool _ => .bool
  | .sint k _ => .sint k
  | .uint k _ => .uint k
  | .flt k _ => .flt k
  | .string _ => .string
  | .chr k _ => .chr k

/-- The value-initialised `T{}`. -/
def Ty.zero : Ty → Value
  | .bool => .bool false
  | .sint k => .sint k 0
  | .uint k => .uint k 0
  | .flt k => .flt k (.finite false 0 0)
  | .string => .string []
  | .chr k => .chr k 0

namespace Flt

/-- The comparison `a == b` of floating-point data. -/
def eq : Flt → Flt → Bool
  | finite n₁ m₁ e₁, finite n₂ m₂ e₂ =>
    let lo := min e₁ e₂
    (m₁ = 0 ∧ m₂ = 0) ∨
      (n₁ = n₂ ∧ m₁ * 2 ^ (e₁ - lo).toNat = m₂ * 2 ^ (e₂ - lo).toNat)
  | inf n₁, inf n₂ => n₁ = n₂
  | _, _ => false

/-- The contextual conversion to `bool`, that is `x != 0`. -/
def toBool : Flt → Bool
  | finite _ m _ => m ≠ 0
  | _ => true

/-- Quotient `n / d` rounded to the nearest integer, ties to even. -/
def roundDiv (n d : Nat) : Nat :=
  let q := n / d
  let r := n % d
  if 2 * r < d then q else if d < 2 * r then q + 1 else if q % 2 = 0 then q else q + 1

/-- Number of halvings that bring a number below 2, at most `fuel` of them. -/
def log2Fuel : Nat → Nat → Nat
  | 0, _ => 0
  | fuel + 1, n => if n < 2 then 0 else log2Fuel fuel (n / 2) + 1

/-- The binary logarithm of a positive number, rounded down. -/
def log2 (n : Nat) : Nat := log2Fuel n n

/-- Number of times `d` can be multiplied by ten while staying at most `n`. -/
def log10Up : Nat → Nat → Nat → Nat
  | 0, _, _ => 0
  | fuel + 1, n, d => if 10 * d ≤ n then log10Up fuel n (10 * d) + 1 else 0

/-- Number of times `n` must be multiplied by ten to reach `d`. -/
def log10Down : Nat → Nat → Nat → Nat
  | 0, _, _ => 0
  | fuel + 1, n, d => if n < d then log10Down fuel (10 * n) d + 1 else 0

/-- The decimal exponent of the positive fraction `n / d`: the `X` with
`10^X ≤ n / d < 10^(X+1)`. -/
def decimalExponent (n d : Nat) : Int :=
  if d ≤ n then (log10Up (log2 n + 1) n d : Int) else -(log10Down (log2 d + 1) n d : Int)

/-- The fraction `n / d` scaled by `10^(-x)` and rounded to an integer. -/
def scaledRound (n d : Nat) (x : Int) : Nat :=
  roundDiv (n * 10 ^ (-x).toNat) (d * 10 ^ x.toNat)

/-- Removal of trailing zeros. -/
def stripZeros (ds : Str) : Str := (ds.reverse.dropWhile (· = '0')).reverse

/-- A digit string with its fractional part, the point omitted when the
fractional part is empty. -/
def withFraction (ip fp : Str) : Str := if fp.isEmpty then ip else ip ++ '.' :: fp

/-- The exponent suffix of the `%e` style: sign and at least two digits. -/
def exponentSuffix (x : Int) : Str :=
  let ds := Nat.toDigits 10 x.natAbs
  'e' :: (if x < 0 then '-' else '+') :: (if ds.length < 2 then '0' :: ds else ds)

/-- The `%g` conversion with precision 6 of the positive fraction `n / d`. -/
def formatPositive (n d : Nat) : Str :=
  let x₀ := decimalExponent n d
  let d₀ := scaledRound n d (x₀ - 5)
  let x := if d₀ = 1000000 then x₀ + 1 else x₀
  let ds := Nat.toDigits 10 (if d₀ = 1000000 then 100000 else d₀)
  if x < -4 ∨ 6 ≤ x then
    withFraction (ds.take 1) (stripZeros (ds.drop 1)) ++ exponentSuffix x
  else if 0 ≤ x then
    withFraction (ds.take (x.toNat + 1)) (stripZeros (ds.drop (x.toNat + 1)))
  else
    withFraction ['0'] (stripZeros (List.replicate ((-x).toNat - 1) '0' ++ ds))

/-- Insertion `ss << x` of a floating-point datum into a fresh stream: the
default format, precision 6. -/
def format : Flt → Str
  | finite neg m e =>
    (if neg then ['-'] else []) ++
      (if m = 0 then ['0'] else formatPositive (m * 2 ^ e.toNat) (2 ^ (-e).toNat))
  | inf neg => (if neg then ['-'] else []) ++ ['i', 'n', 'f']
  | nan neg => (if neg then ['-'] else []) ++ ['n', 'a', 'n']

/-- The positive fraction `n / d` rounded to the nearest datum of the format
`k` (ties to even, gradual underflow); `none` on overflow. -/
def round (k : FloatKind) (neg : Bool) (n d : Nat) : Option Flt :=
  let p : Int := k.prec
  let l : Int := (log2 n : Int) - (log2 d : Int)
  let fl : Int := if d * 2 ^ l.toNat ≤ n * 2 ^ (-l).toNat then l else l - 1
  let e₀ : Int := max (fl - (p - 1)) (1 - k.emax - (p - 1))
  let m₀ := roundDiv (n * 2 ^ (-e₀).toNat) (d * 2 ^ e₀.toNat)
  let m := if m₀ = 2 ^ k.prec then 2 ^ (k.prec - 1) else m₀
  let e := if m₀ = 2 ^ k.prec then e₀ + 1 else e₀
  if k.emax - (p - 1) < e then none else some (finite neg m e)

/-- Whether a datum is a value of the format `k`. -/
def representable (k : FloatKind) : Flt → Bool
  | finite neg m e =>
    m == 0 || (match round k neg (m * 2 ^ e.toNat) (2 ^ (-e).toNat) with
      | some y => eq y (finite neg m e)
      | none => false)
  | _ => true

end Flt

/-! ## Formatted input and output of `std::stringstream`

The header converts through a `std::stringstream` in its default state: the
classic locale, decimal base, whitespace skipping on, precision 6.  What the
stream operators do is described here as far as the header observes it: the
value extracted and the `fail` and `eof` bits. -/

/-- The stream after `ss >> ret`: `result` is the extracted value, `none` when
the fail bit is set; `eof` is the end-of-file bit. -/
structure Extracted (α : Type) where
  result : Option α
  eof : Bool
  deriving DecidableEq, Repr

/-- The whitespace of the classic locale. -/
def isSpace (c : Char) : Bool :=
  c = ' ' ∨ c = '\t' ∨ c = '\n' ∨ c = '\x0b' ∨ c = '\x0c' ∨ c = '\r'

/-- The decimal digits. -/
def isDigit (c : Char) : Bool := '0' ≤ c ∧ c ≤ '9'

/-- Value of a string of decimal digits. -/
def decimalValue (ds : Str) : Nat := ds.foldl (fun acc c => 10 * acc + (c.toNat - 48)) 0

/-- An optional sign in front of a text: whether it is a minus, and the text
after it. -/
def takeSign : Str → Bool × Str
  | '-' :: cs => (true, cs)
  | '+' :: cs => (false, cs)
  | cs => (false, cs)

/-- Extraction `ss >> ret` of an integer of `bits` bits from a stream holding
`s`: whitespace is skipped, an optional sign and the longest run of digits are
read; no digit, or a magnitude out of range, sets the fail bit; the end-of-file
bit is set when the end of the text was reached.  A negative numeral read
into an unsigned type is negated modulo `2^bits`. -/
def extractInteger (signed : Bool) (bits : Nat) (s : Str) : Extracted Int :=
  let s₁ := s.dropWhile isSpace
  if s₁.isEmpty then ⟨none, true⟩
  else
    let neg := (takeSign s₁).1
    let s₂ := (takeSign s₁).2
    let ds := s₂.takeWhile isDigit
    let eof := (s₂.dropWhile isDigit).isEmpty
    let n := decimalValue ds
    let max : Nat :=
      if signed then (if neg then 2 ^ (bits - 1) else 2 ^ (bits - 1) - 1) else 2 ^ bits - 1
    if ds.isEmpty ∨ max < n then ⟨none, eof⟩
    else if neg then
      ⟨some (if signed then -(n : Int) else ((2 ^ bits - n) % 2 ^ bits : Nat)), eof⟩
    else ⟨some n, eof⟩

/-- Extraction `ss >> ret` of a `bool` without `boolalpha`: a `long` is read,
and anything but 0 and 1 sets the fail bit. -/
def extractBool (s : Str) : Extracted Bool :=
  let r := extractInteger true 64 s
  match r.result with
  | some 0 => ⟨some false, r.eof⟩
  | some 1 => ⟨some true, r.eof⟩
  | _ => ⟨none, r.eof⟩

/-- Extraction `ss >> std::boolalpha >> ret` of a `bool`: after the
whitespace the text must start with `true` or with `false`. -/
def extractBoolAlpha (s : Str) : Extracted Bool :=
  let s₁ := s.dropWhile isSpace
  if ['t', 'r', 'u', 'e'].isPrefixOf s₁ then ⟨some true, s₁.length ≤ 4⟩
  else if ['f', 'a', 'l', 's', 'e'].isPrefixOf s₁ then ⟨some false, s₁.length ≤ 5⟩
  else ⟨none, s₁.isEmpty⟩

/-- The characters of a floating-point field after sign and leading zeros, as
the stream accumulates them: digits, one decimal point before the exponent, one
exponent letter after a digit, and a sign right after the exponent letter
(`sgn` tells that the exponent letter was the character before).  The result is
the accumulated field (reversed in `acc`) and the text left in the stream. -/
def scanFloat : Str → Bool → Bool → Bool → Bool → Str → Str × Str
  | [], _, _, _, _, acc => (acc.reverse, [])
  | c :: cs, mant, dec, sci, sgn, acc =>
    if sgn ∧ (c = '+' ∨ c = '-') then scanFloat cs mant dec sci false (c :: acc)
    else if isDigit c then scanFloat cs true dec sci false (c :: acc)
    else if c = '.' ∧ !dec ∧ !sci then scanFloat cs mant true sci false ('.' :: acc)
    else if (c = 'e' ∨ c = 'E') ∧ !sci ∧ mant then scanFloat cs mant dec true true ('e' :: acc)
    else (acc.reverse, c :: cs)

/-- The conversion `strtod` applied to an accumulated field without its sign:
digits, point, digits, and an exponent.  The field must be used up entirely and
hold a digit; `none` otherwise, and on overflow. -/
def convertField (k : FloatKind) (neg : Bool) (field : Str) : Option Flt :=
  let ip := field.takeWhile isDigit
  let r₁ := field.dropWhile isDigit
  let r₂ := match r₁ with
    | '.' :: r => r
    | r => r
  let fp := r₂.takeWhile isDigit
  let r₃ := r₂.dropWhile isDigit
  let ex : Option Int := match r₃ with
    | [] => some 0
    | 'e' :: r =>
      let ds := (takeSign r).2
      if ds.isEmpty ∨ !ds.all isDigit then none
      else some (if (takeSign r).1 then -(decimalValue ds : Int) else decimalValue ds)
    | _ => none
  match ex with
  | none => none
  | some x =>
    if (ip ++ fp).isEmpty then none
    else
      let n := decimalValue (ip ++ fp)
      let x := x - fp.length
      if n = 0 then some (.finite neg 0 0)
      else Flt.round k neg (n * 10 ^ x.toNat) (10 ^ (-x).toNat)

/-- Extraction `ss >> ret` of a floating-point number of the format `k`. -/
def extractFloat (k : FloatKind) (s : Str) : Extracted Flt :=
  let s₁ := s.dropWhile isSpace
  if s₁.isEmpty then ⟨none, true⟩
  else
    let neg := (takeSign s₁).1
    let s₂ := (takeSign s₁).2
    let zeros := s₂.takeWhile (· = '0')
    let s₃ := s₂.dropWhile (· = '0')
    let scanned := scanFloat s₃ (!zeros.isEmpty) false false false (if zeros.isEmpty then [] else ['0'])
    ⟨convertField k neg scanned.1, scanned.2.isEmpty⟩

/-- The value of a character read into a character type: the byte itself for
`unsigned char`, the byte as a number from -128 to 127 for `signed char` and
for `char`, which is a signed type on x86-64. -/
def charValue (k : CharKind) (c : Char) : Int :=
  let b := c.toNat % 256
  match k with
  | .uchar => b
  | _ => if b < 128 then b else (b : Int) - 256

/-- Extraction `ss >> ret` of a `char`, `signed char` or `unsigned char`:
whitespace is skipped and ONE character is read, which is the value; the
end-of-file bit is set only when there was no character to read, together with
the fail bit. -/
def extractChar (k : CharKind) (s : Str) : Extracted Int :=
  match s.dropWhile isSpace with
  | [] => ⟨none, true⟩
  | c :: _ => ⟨some (charValue k c), false⟩

/-- Insertion `ss << c` of a `char`, `signed char` or `unsigned char`: the one
character with that code. -/
def formatChar (c : Int) : Str := [Char.ofNat (c % 256).toNat]

/-- Insertion `ss << n` of an integer. -/
def formatInteger (i : Int) : Str :=
  (if i < 0 then ['-'] else []) ++ Nat.toDigits 10 i.natAbs

/-- Insertion `ss << std::boolalpha << b` of a `bool`. -/
def formatBool (b : Bool) : Str :=
  if b then ['t', 'r', 'u', 'e'] else ['f', 'a', 'l', 's', 'e']

/-! ## Errors and outcomes -/

/-- The exception `CMDError`, one constructor for each `throw` of the header;
`what` gives the message text. -/
inductive CMDError
  /-- `"Bad cast from std::string " + src + " to " + type`, in `LexicalCast`. -/
  | TypeCastFailure (src : Str) (target : Ty)
  /-- `"Unsupported cast from " + source + " to " + target`, in `LexicalCast`. -/
  | UnsupportedCast (source target : Ty)
  /-- `"Argument: " + name + " should be in " + desc + ", got " + str + " indeed"`,
  in `ChoiceCaster`. -/
  | ChoiceViolation (name desc str : Str)
  /-- `"Argument: " + fullName + " is not required, but has no default value yet"`,
  in `IsGood`. -/
  | MissingDefaultError (fullName : Str)
  /-- `"Argument should be in the form of ... , got " + str + " indeed"`, in `Parse`. -/
  | MalformedToken (str : Str)
  /-- `"Not exist argument: " + name`, in `Parse`, `Get`, `GetWithFullName` and
  `ReadWithFullName`. -/
  | UnknownArgument (name : Str)
  /-- `"Required argument: " + name + " is not setted"`, in `Parse`. -/
  | MissingRequiredArgument (name : Str)
  /-- `"Argument " + fullName + " has been setted"`, in `ReadWithFullName`. -/
  | DuplicateAssignment (fullName : Str)
  /-- `"Multiple definition for " + name`, in `CheckExist`. -/
  | DuplicateDefinition (name : Str)
  deriving DecidableEq, Repr

/-- How a call ends: it returns, it throws, it ends the process with `exit`
(the text written to standard output before), it has undefined behaviour (an
index out of bounds, a cast to a type the object does not have), or it does
not terminate. -/
inductive Outcome (α : Type)
  | returned (a : α)
  | thrown (e : CMDError)
  | exited (status : Nat) (out : Str)
  | undefined
  | diverged
  deriving DecidableEq, Repr

/-- The function `RealTypeName<T>()`: the demangled name of the type. -/
def RealTypeName : Ty → Str
  | .bool => "bool".toList
  | .sint .short => "short".toList
  | .sint .int => "int".toList
  | .sint .long => "long".toList
  | .sint .longlong => "long long".toList
  | .uint .short => "unsigned short".toList
  | .uint .int => "unsigned int".toList
  | .uint .long => "unsigned long".toList
  | .uint .longlong => "unsigned long long".toList
  | .flt .float => "float".toList
  | .flt .double => "double".toList
  | .string => "std::string".toList
  | .chr .char => "char".toList
  | .chr .schar => "signed char".toList
  | .chr .uchar => "unsigned char".toList

/-- The message of an error, `what()`. -/
def CMDError.what : CMDError → Str
  | .TypeCastFailure src target =>
    "CmdLine Error: ".toList ++ "Bad cast from std::string ".toList ++ src ++ " to ".toList ++
      RealTypeName target
  | .UnsupportedCast source target =>
    "CmdLine Error: ".toList ++ "Unsupported cast from ".toList ++ RealTypeName source ++
      " to ".toList ++ RealTypeName target
  | .ChoiceViolation name desc str =>
    "CmdLine Error: ".toList ++ "Argument: ".toList ++ name ++ " should be in ".toList ++ desc ++
      ", got ".toList ++ str ++ " indeed".toList
  | .MissingDefaultError fullName =>
    "CmdLine Error: ".toList ++ "Argument: ".toList ++ fullName ++
      " is not required, but has no default value yet".toList
  | .MalformedToken str =>
    "CmdLine Error: ".toList ++ ("Argument should be in the form of ".toList ++
      "'--fullName=value' or '-shorName=value', got ".toList) ++ str ++ " indeed".toList
  | .UnknownArgument name => "CmdLine Error: ".toList ++ "Not exist argument: ".toList ++ name
  | .MissingRequiredArgument name =>
    "CmdLine Error: ".toList ++ "Required argument: ".toList ++ name ++ " is not setted".toList
  | .DuplicateAssignment fullName =>
    "CmdLine Error: ".toList ++ "Argument ".toList ++ fullName ++ " has been setted".toList
  | .DuplicateDefinition name =>
    "CmdLine Error: ".toList ++ "Multiple definition for ".toList ++ name

/-! ## The value caster -/

deriving instance DecidableEq for Except

/-- Insertion `ss << std::boolalpha << src` of a value into a fresh stream. -/
def Value.format : Value → Str
  | .bool b => formatBool b
  | .sint _ i => formatInteger i
  | .uint _ n => formatInteger n
  | .flt _ x => Flt.format x
  | .string s => s
  | .chr _ c => formatChar c

/-- Extraction `ss >> ret` of a value of type `T` from a stream holding `s`. -/
def extract (T : Ty) (s : Str) : Extracted Value :=
  match T with
  | .bool => let r := extractBool s; ⟨r.result.map Value.bool, r.eof⟩
  | .sint k => let r := extractInteger true k.bits s; ⟨r.result.map (Value.sint k), r.eof⟩
  | .uint k =>
    let r := extractInteger false k.bits s
    ⟨r.result.map (fun i => Value.uint k i.toNat), r.eof⟩
  | .flt k => let r := extractFloat k s; ⟨r.result.map (Value.flt k), r.eof⟩
  | .string =>
    let s₁ := s.dropWhile isSpace
    let w := s₁.takeWhile (fun c => !isSpace c)
    ⟨if w.isEmpty then none else some (Value.string w), (s₁.dropWhile (fun c => !isSpace c)).isEmpty⟩
  | .chr k => let r := extractChar k s; ⟨r.result.map (Value.chr k), r.eof⟩

/-- The function `LexicalCast<Target, Source>(src)`; the source type is the
type of `src`. -/
def LexicalCast (Target : Ty) (src : Value) : Except CMDError Value :=
  if Target = src.ty then .ok src
  else if Target = Ty.string then .ok (.string src.format)
  else
    match src with
    | .string src =>
      if Target = Ty.bool ∧ (src = ['t', 'r', 'u', 'e'] ∨ src = ['f', 'a', 'l', 's', 'e']) then
        match (extractBoolAlpha src).result with
        | none => .error (.TypeCastFailure src Ty.bool)
        | some ret => .ok (.bool ret)
      else
        let ss := extract Target src
        match ss.result with
        | none => .error (.TypeCastFailure src Target)
        | some ret => if !ss.eof then .error (.TypeCastFailure src Target) else .ok ret
    | src => .error (.UnsupportedCast src.ty Target)

/-- The function `CastFromString<T>(str)`. -/
def CastFromString (T : Ty) (str : Str) : Except CMDError Value :=
  LexicalCast T (.string str)

/-- The function `CastToString(str)`: `LexicalCast<std::string>` always
produces a string. -/
def CastToString (v : Value) : Str :=
  match LexicalCast Ty.string v with
  | .ok (.string s) => s
  | _ => []

/-- The comparison `a == b` of two values of one type, as `std::unordered_set`
applies it. -/
def Value.eq : Value → Value → Bool
  | .flt k₁ x, .flt k₂ y => k₁ = k₂ ∧ Flt.eq x y
  | a, b => a = b

/-- The conversion of a default value to `bool` in `if (defaultValue)`. -/
def Value.toBool : Value → Bool
  | .bool b => b
  | .sint _ i => i ≠ 0
  | .uint _ n => n ≠ 0
  | .flt _ x => x.toBool
  | .string s => 0 < s.length
  | .chr _ c => c ≠ 0

/-- Whether a value lies in the range of its type. -/
def Value.inRange : Value → Bool
  | .bool _ => true
  | .sint k i => -(2 ^ (k.bits - 1) : Int) ≤ i ∧ i < (2 ^ (k.bits - 1) : Int)
  | .uint k n => n < 2 ^ k.bits
  | .flt k x => x.representable k
  | .string _ => true
  | .chr .uchar c => 0 ≤ c ∧ c < 256
  | .chr _ c => -128 ≤ c ∧ c < 128

/-- The members `fullName` and `description` of `TypeCaster<T>`. -/
structure TypeCaster where
  fullName : Str
  description : Str
  deriving DecidableEq, Repr

/-- The call `stringCaster(str)` of a `StringCaster<T>`. -/
def StringCaster.call (T : Ty) (str : Str) : Except CMDError Value :=
  CastFromString T str

/-- The class `ChoiceCaster<T>`; the `std::unordered_set` is a list, tested
with `==`. -/
structure ChoiceCaster extends TypeCaster where
  choiceList : List Value
  deriving DecidableEq, Repr

/-- The call `choiceList.count(v)` of the `std::unordered_set`. -/
def ChoiceCaster.count (choiceList : List Value) (v : Value) : Nat :=
  if choiceList.any (fun x => Value.eq x v) then 1 else 0

/-- The call `choiceList.emplace(v)`: nothing is added when an equal member is
there. -/
def ChoiceCaster.emplace (choiceList : List Value) (v : Value) : List Value :=
  if ChoiceCaster.count choiceList v = 0 then choiceList ++ [v] else choiceList

/-- What the loop of the constructor writes into the stream: the members
through `CastToString`, with `", "` between them. -/
def ChoiceCaster.render : List Value → Str
  | [] => []
  | [v] => CastToString v
  | v :: vs => CastToString v ++ [',', ' '] ++ ChoiceCaster.render vs

/-- The constructor `ChoiceCaster(list)`. -/
def ChoiceCaster.new (list : List Value) : ChoiceCaster :=
  { fullName := []
    description := ['['] ++ ChoiceCaster.render list ++ [']']
    choiceList := list.foldl ChoiceCaster.emplace [] }

/-- The call `choiceCaster(str)` of a `ChoiceCaster<T>`. -/
def ChoiceCaster.call (c : ChoiceCaster) (T : Ty) (str : Str) : Except CMDError Value :=
  match CastFromString T str with
  | .error e => .error e
  | .ok ret =>
    if ChoiceCaster.count c.choiceList ret = 0 then
      .error (.ChoiceViolation c.fullName c.description str)
    else .ok ret

/-! ## Arguments -/

/-- The class `BasicArgument<T>`; `T` is kept as a member. -/
structure BasicArgument where
  T : Ty
  fullName_ : Str
  shortName_ : Str
  description_ : Str
  usage_ : Str
  required_ : Bool
  setted_ : Bool
  hasDefault_ : Bool
  defaultValue_ : Value
  actualValue_ : Value
  deriving DecidableEq, Repr

/-- The constructor of `BasicArgument<T>`.  A default value that converts to
`true` (for a string: that is not empty) becomes the actual value and marks
the argument as having a default. -/
def BasicArgument.new (T : Ty) (fullName shortName description : Str) (required : Bool)
    (defaultValue : Value) : BasicArgument :=
  let ss : Str :=
    "\tfullName: ".toList ++ fullName ++ ",\n".toList ++
    "\tshortName: ".toList ++ shortName ++ ",\n".toList ++
    "\tdescription: ".toList ++ description ++ ",\n".toList ++
    "\trequired: ".toList ++ formatBool required ++ ",\n".toList
  if defaultValue.toBool then
    { T := T, fullName_ := fullName, shortName_ := shortName, description_ := description
      usage_ := ss ++ "\tdefaultValue: ".toList ++ defaultValue.format ++ ",\n".toList
      required_ := required, setted_ := false, hasDefault_ := true
      defaultValue_ := defaultValue, actualValue_ := defaultValue }
  else
    { T := T, fullName_ := fullName, shortName_ := shortName, description_ := description
      usage_ := ss
      required_ := required, setted_ := false, hasDefault_ := false
      defaultValue_ := defaultValue, actualValue_ := T.zero }

/-- The method `BasicArgument<T>::IsGood`. -/
def BasicArgument.IsGood (a : BasicArgument) : Outcome Bool :=
  if a.setted_ ∨ a.hasDefault_ ∨ (!a.required_ ∧ a.hasDefault_) then .returned true
  else .thrown (.MissingDefaultError a.fullName_)

/-- The method `BasicArgument<T>::Read`: the argument after the call and the
outcome of the call. -/
def BasicArgument.Read (a : BasicArgument) (str : Str) : BasicArgument × Outcome Unit :=
  match StringCaster.call a.T str with
  | .error e => (a, .thrown e)
  | .ok v => ({ a with actualValue_ := v, setted_ := true }, .returned ())

/-- The class `ChoiceArgument<T>`, derived from `BasicArgument<T>`. -/
structure ChoiceArgument extends BasicArgument where
  choiceCaster : ChoiceCaster
  deriving DecidableEq, Repr

/-- The constructor of `ChoiceArgument<T>`. -/
def ChoiceArgument.new (T : Ty) (fullName shortName description : Str) (required : Bool)
    (defaultValue : Value) (list : List Value) : ChoiceArgument :=
  let base := BasicArgument.new T fullName shortName description required defaultValue
  let choiceCaster := { ChoiceCaster.new list with fullName := fullName }
  { base with
    usage_ := base.usage_ ++ "\tchoice from: ".toList ++ choiceCaster.description ++ "\n".toList
    choiceCaster := choiceCaster }

/-- The method `ChoiceArgument<T>::Read`. -/
def ChoiceArgument.Read (a : ChoiceArgument) (str : Str) : ChoiceArgument × Outcome Unit :=
  match a.choiceCaster.call a.T str with
  | .error e => (a, .thrown e)
  | .ok v => ({ a with actualValue_ := v, setted_ := true }, .returned ())

/-- An object behind a pointer to the abstract class `Argument`. -/
inductive Argument
  | basic (a : BasicArgument)
  | choice (a : ChoiceArgument)
  deriving DecidableEq, Repr

namespace Argument

/-- The `BasicArgument<T>` part of the object. -/
def base : Argument → BasicArgument
  | basic a => a
  | choice a => a.toBasicArgument

/-- The virtual method `FullName`. -/
def FullName (a : Argument) : Str := a.base.fullName_

/-- The virtual method `ShortName`. -/
def ShortName (a : Argument) : Str := a.base.shortName_

/-- The virtual method `Description`. -/
def Description (a : Argument) : Str := a.base.description_

/-- The virtual method `Usage`. -/
def Usage (a : Argument) : Str := a.base.usage_

/-- The virtual method `Required`. -/
def Required (a : Argument) : Bool := a.base.required_

/-- The virtual method `IsGood`, not overridden by `ChoiceArgument`. -/
def IsGood (a : Argument) : Outcome Bool := a.base.IsGood

/-- The virtual method `Setted`. -/
def Setted (a : Argument) : Bool := a.base.setted_

/-- The virtual method `Read`. -/
def Read : Argument → Str → Argument × Outcome Unit
  | basic a, str => ((a.Read str).1 |> basic, (a.Read str).2)
  | choice a, str => ((a.Read str).1 |> choice, (a.Read str).2)

/-- The method `ActualValue` of the `BasicArgument<T>` part. -/
def ActualValue (a : Argument) : Value := a.base.actualValue_

end Argument

end detail

open detail

/-! ## The registry -/

/-- A `std::unordered_map` with string keys: the entries, in the order of a
traversal (modelled as the order of insertion). -/
abbrev Map (β : Type) := List (Str × β)

namespace Map

/-- The call `m.find(k)`: the mapped value, `none` for `end()`. -/
def find {β : Type} : Map β → Str → Option β
  | [], _ => none
  | (k', v) :: m, k => if k' = k then some v else find m k

/-- The call `m.count(k)`. -/
def count {β : Type} (m : Map β) (k : Str) : Nat := if (m.find k).isSome then 1 else 0

/-- The call `m.insert(std::make_pair(k, v))`: no effect when the key is there. -/
def insert {β : Type} (m : Map β) (k : Str) (v : β) : Map β :=
  if (m.find k).isSome then m else m ++ [(k, v)]

/-- A write through the iterator returned by `m.find(k)`: the mapped object is
replaced by `v`. -/
def assign {β : Type} : Map β → Str → β → Map β
  | [], _, _ => []
  | (k', v') :: m, k, v => if k' = k then (k', v) :: m else (k', v') :: assign m k v

end Map

/-- The class `Parser`. -/
structure Parser where
  fullArguments : Map Argument
  shortToFull : Map Str
  progName : Str
  deriving DecidableEq, Repr

namespace Parser

/-- The default constructor `Parser()`. -/
def new : Parser := { fullArguments := [], shortToFull := [], progName := [] }

/-- The method `CheckExist`. -/
def CheckExist (p : Parser) (fullName shortName : Str) : Outcome Unit :=
  if p.fullArguments.count fullName ≠ 0 then .thrown (.DuplicateDefinition fullName)
  else if 0 < shortName.length ∧ p.shortToFull.count shortName ≠ 0 then
    .thrown (.DuplicateDefinition shortName)
  else .returned ()

/-- The method `AddArgument`. -/
def AddArgument (p : Parser) (fullName shortName : Str) (ptr : Argument) : Parser :=
  let p := { p with fullArguments := p.fullArguments.insert fullName ptr }
  if 0 < shortName.length then { p with shortToFull := p.shortToFull.insert shortName fullName }
  else p

/-- The method `Add<T>`: the registry after the call and the outcome. -/
def Add (p : Parser) (T : Ty) (fullName shortName description : Str) (required : Bool)
    (defaultValue : Value) (list : List Value) : Parser × Outcome Unit :=
  match p.CheckExist fullName shortName with
  | .returned () =>
    let arg : Argument :=
      if list.length = 0 then
        .basic (BasicArgument.new T fullName shortName description required defaultValue)
      else
        .choice (ChoiceArgument.new T fullName shortName description required defaultValue list)
    (p.AddArgument fullName shortName arg, .returned ())
  | o => (p, o)

/-- The method `Usage`. -/
def Usage (p : Parser) : Str :=
  "Usage: ".toList ++ p.progName ++ " ".toList ++
    (p.fullArguments.map (fun it => if it.2.Required then it.1 ++ " ".toList else [])).flatten ++
    "\n[options]...".toList ++ "\n".toList ++
    (p.fullArguments.map (fun it => it.2.Usage ++ "\n".toList)).flatten

/-- The method `ReadWithFullName`. -/
def ReadWithFullName (p : Parser) (fullName val : Str) : Parser × Outcome Unit :=
  match p.fullArguments.find fullName with
  | none => (p, .thrown (.UnknownArgument fullName))
  | some arg =>
    if arg.Setted then (p, .thrown (.DuplicateAssignment fullName))
    else
      ({ p with fullArguments := p.fullArguments.assign fullName (arg.Read val).1 },
        (arg.Read val).2)

/-- The body of the first loop of `Parse`, for the token `str`. -/
def Parse.token (p : Parser) (str : Str) : Parser × Outcome Unit :=
  if Str.find str ['='] 0 = none then (p, .thrown (.MalformedToken str))
  else
    match StringSplit str ['='] with
    | none => (p, .diverged)
    | some splited =>
      match splited.get? 0, splited.get? 1 with
      | some name, some value =>
        if Str.find name ['-', '-'] 0 ≠ none then p.ReadWithFullName name value
        else if Str.find name ['-'] 0 ≠ none then
          match p.shortToFull.find name with
          | none => (p, .thrown (.UnknownArgument name))
          | some full => p.ReadWithFullName full value
        else (p, .thrown (.MalformedToken str))
      | _, _ => (p, .undefined)

/-- The first loop of `Parse`, over the tokens `argv[1]`, `argv[2]`, ...: it
stops at the first token that does not return. -/
def Parse.tokens : Parser → List Str → Parser × Outcome Unit
  | p, [] => (p, .returned ())
  | p, str :: rest =>
    match Parse.token p str with
    | (p', .returned ()) => Parse.tokens p' rest
    | r => r

/-- The second loop of `Parse`, over the registered arguments. -/
def Parse.check : Map Argument → Outcome Unit
  | [] => .returned ()
  | it :: rest =>
    match it.2.IsGood with
    | .returned true => Parse.check rest
    | .returned false => .thrown (.MissingRequiredArgument it.1)
    | .thrown e => .thrown e
    | .exited st out => .exited st out
    | .undefined => .undefined
    | .diverged => .diverged

/-- The method `Parse(argc, argv)`, with `argc` the length of `argv`. -/
def Parse (p : Parser) (argv : List Str) : Parser × Outcome Unit :=
  match argv with
  | [] => (p, .undefined)
  | prog :: rest =>
    let p := { p with progName := prog }
    if argv.length < 2 then (p, .exited 1 (p.Usage ++ "\n".toList))
    else
      match Parse.tokens p rest with
      | (p', .returned ()) => (p', Parse.check p'.fullArguments)
      | r => r

/-- The method `GetWithFullName<T>`: the `reinterpret_cast` is defined when
`T` is the type the argument was registered with. -/
def GetWithFullName (p : Parser) (T : Ty) (fullName : Str) : Outcome Value :=
  match p.fullArguments.find fullName with
  | none => .thrown (.UnknownArgument fullName)
  | some arg => if arg.base.T = T then .returned arg.ActualValue else .undefined

/-- The method `Get<T>`. -/
def Get (p : Parser) (T : Ty) (name : Str) : Outcome Value :=
  if Str.find name ['-', '-'] 0 ≠ none then p.GetWithFullName T name
  else if Str.find name ['-'] 0 ≠ none then
    match p.shortToFull.find name with
    | none => .thrown (.UnknownArgument name)
    | some full => p.GetWithFullName T full
  else .thrown (.UnknownArgument name)

end Parser

/-! ## Notions used to state the properties -/

/-- The pieces of a text between its `=` characters. -/
def pieces : Str → List Str
  | [] => [[]]
  | c :: cs =>
    if c = '=' then [] :: pieces cs
    else
      match pieces cs with
      | p :: ps => (c :: p) :: ps
      | [] => [[c]]

/-- The text of a token before its first `=`. -/
def namePart (tok : Str) : Str := tok.takeWhile (· ≠ '=')

/-- The text of a token after its first `=`. -/
def afterFirst (tok : Str) : Str := (tok.dropWhile (· ≠ '=')).drop 1

/-- The text of a token between its first `=` and the next `=`, or the end. -/
def valuePart (tok : Str) : Str := (afterFirst tok).takeWhile (· ≠ '=')

/-- The argument after a successful `Read` that converted the text to `v`. -/
def detail.Argument.store : Argument → Value → Argument
  | .basic a, v => .basic { a with actualValue_ := v, setted_ := true }
  | .choice a, v => .choice { a with actualValue_ := v, setted_ := true }

/-- The conversion an argument applies in `Read`: the string caster of a
basic argument, the choice caster of a choice argument. -/
def detail.Argument.convert : Argument → Str → Except CMDError Value
  | .basic a, str => StringCaster.call a.T str
  | .choice a, str => a.choiceCaster.call a.T str

/-- The token `tok` names the argument registered under the full name `f`: its
name part either holds `--` and is `f`, or holds no `--` but a `-` and is a
short name registered for `f`. -/
def Parser.Names (p : Parser) (tok f : Str) : Prop :=
  '=' ∈ tok ∧
    ((['-', '-'] <:+: namePart tok ∧ namePart tok = f) ∨
      (¬ ['-', '-'] <:+: namePart tok ∧ '-' ∈ namePart tok ∧
        p.shortToFull.find (namePart tok) = some f))

/-- The registries that calls of `Add` build from the empty registry. -/
inductive Parser.Reachable : Parser → Prop
  | new : Parser.Reachable Parser.new
  | add (p : Parser) (T : Ty) (fullName shortName description : Str) (required : Bool)
      (defaultValue : Value) (list : List Value) :
      Parser.Reachable p →
      Parser.Reachable (p.Add T fullName shortName description required defaultValue list).1

/-- The token `tok` carries the full name of the argument, or its short name,
in front of its first `=`. -/
def detail.Argument.NamedBy (a : Argument) (tok : Str) : Prop :=
  namePart tok = a.FullName ∨ (a.ShortName ≠ [] ∧ namePart tok = a.ShortName)

/-- The registries built by successful calls of `Add` in which every full name
is written with the prefix `--` and every short name, when there is one, with
the prefix `-` (and not `--`). -/
inductive Parser.Built : Parser → Prop
  | new : Parser.Built Parser.new
  | add (p : Parser) (T : Ty) (fullName shortName description : Str) (required : Bool)
      (defaultValue : Value) (list : List Value) :
      Parser.Built p →
      ['-', '-'] <+: fullName →
      (shortName = [] ∨ (['-'] <+: shortName ∧ ¬ ['-', '-'] <+: shortName)) →
      (p.Add T fullName shortName description required defaultValue list).2 = .returned () →
      Parser.Built (p.Add T fullName shortName description required defaultValue list).1

/-- What holds of a registry that calls of `Add` have built. -/
structure Parser.WF (p : Parser) : Prop where
  keys : p.fullArguments.Pairwise (fun x y => x.1 ≠ y.1)
  found : ∀ it ∈ p.fullArguments, p.fullArguments.find it.1 = some it.2
  entry : ∀ it ∈ p.fullArguments, it.2.FullName = it.1 ∧ it.2.Setted = false ∧
    (it.2.base.hasDefault_ = true → it.2.ActualValue = it.2.base.defaultValue_) ∧
    (it.2.ShortName ≠ [] → p.shortToFull.find it.2.ShortName = some it.1)
  short : ∀ s f, p.shortToFull.find s = some f →
    s ≠ [] ∧ ∃ a, p.fullArguments.find f = some a ∧ a.ShortName = s

/-- The float `0.1f`. -/
def float_0_1 : Value := .flt .float (.finite false 13421773 (-27))

/-- The float `0.01f`. -/
def float_0_01 : Value := .flt .float (.finite false 10737418 (-30))

/-- The float `0.001f`. -/
def float_0_001 : Value := .flt .float (.finite false 8589935 (-33))

/-- The registry that `main` of `test.cpp` builds before it calls `Parse`. -/
def testParser : Parser :=
  let p := Parser.new
  let p := (p.Add .string "--stringArg".toList "-s".toList
    "this is a string argument".toList true (Ty.zero .string) []).1
  let p := (p.Add (.sint .int) "--intArg".toList "-i".toList
    "this is a int argument with default value 1".toList true (.sint .int 1) []).1
  let p := (p.Add (.flt .float) "--floatArg".toList "-f".toList
    ("this is a float argument with default value 0.1, and should be ".toList ++
      "in [0.1, 0.01, 0.001]".toList)
    false float_0_1 [float_0_1, float_0_01, float_0_001]).1
  (p.Add .bool "--boolArg".toList [] "this is a bool argument with default value true".toList
    false (.bool true) []).1

instance (p : Parser) (tok f : Str) : Decidable (p.Names tok f) := by
  unfold Parser.Names
  infer_instance

instance (a : Argument) (tok : Str) : Decidable (a.NamedBy tok) := by
  unfold detail.Argument.NamedBy
  infer_instance

/-- The command line of the first scenario: all four arguments are given. -/
def argvAll : List Str :=
  ["prog".toList, "--stringArg=a".toList, "-i=5".toList, "-f=0.01".toList,
    "--boolArg=false".toList]

/-- The argument object that `main` of `test.cpp` registers for `--intArg`. -/
def intArg : Argument :=
  .basic (BasicArgument.new (.sint .int) "--intArg".toList "-i".toList
    "this is a int argument with default value 1".toList true (.sint .int 1))

/-- A text that the stream reads to its end as the integer 0 or 1: whitespace,
an optional sign, and digits of value 0 (for `false`) or of value 1 without a
minus sign (for `true`). -/
def detail.IsBoolNumeral (s : Str) (b : Bool) : Prop :=
  ∃ ws sgn ds : Str, s = ws ++ sgn ++ ds ∧ (∀ c ∈ ws, isSpace c = true) ∧
    (sgn = [] ∨ sgn = ['+'] ∨ sgn = ['-']) ∧ ds ≠ [] ∧ (∀ c ∈ ds, isDigit c = true) ∧
    ((decimalValue ds = 0 ∧ b = false) ∨ (decimalValue ds = 1 ∧ sgn ≠ ['-'] ∧ b = true))

/-- A registry with one text argument, `Add<std::string>("--name")`. -/
def nameParser : Parser :=
  (Parser.new.Add .string "--name".toList [] [] false (Ty.zero .string) []).1

/-- A registry with one text argument whose full name is written without a
prefix, `Add<std::string>("name", "-n")`. -/
def bareParser : Parser :=
  (Parser.new.Add .string "name".toList "-n".toList [] false (Ty.zero .string) []).1

/-- A registry with one argument whose short name holds a `-` after its first
character, `Add<int>("--count", "x-y", "", false, 1)`. -/
def dashParser : Parser :=
  (Parser.new.Add (.sint .int) "--count".toList "x-y".toList [] false (.sint .int 1) []).1

/-- A registry with one text argument whose short name is written without a
prefix, `Add<std::string>("--name", "n")`. -/
def shortParser : Parser :=
  (Parser.new.Add .string "--name".toList "n".toList [] false (Ty.zero .string) []).1

/-- A registry whose arguments have the explicit defaults 0 and `false`:
`Add<int>("--zero", "", "", false, 0)`, `Add<bool>("--flag", "", "", false, false)`
and `Add<std::string>("--name")`. -/
def zeroParser : Parser :=
  let p := (Parser.new.Add (.sint .int) "--zero".toList [] [] false (.sint .int 0) []).1
  let p := (p.Add .bool "--flag".toList [] [] false (.bool false) []).1
  (p.Add .string "--name".toList [] [] false (Ty.zero .string) []).1

/-- The signed or the unsigned integer type of a width. -/
def detail.intTy (signed : Bool) (k : IntKind) : Ty := if signed then .sint k else .uint k

/-- An integer as a value of the signed or the unsigned type of a width. -/
def detail.intValue (signed : Bool) (k : IntKind) (i : Int) : Value :=
  if signed then .sint k i else .uint k i.toNat

/-- The integer that a sign and a string of digits denote. -/
def detail.numeralValue (sgn ds : Str) : Int :=
  if sgn = ['-'] then -(decimalValue ds : Int) else decimalValue ds

/-- An argument without what the required flag decides: the flag itself and
the usage text that prints it. -/
def detail.Argument.forget : Argument → Argument
  | .basic a => .basic { a with required_ := false, usage_ := [] }
  | .choice a => .choice { a with required_ := false, usage_ := [] }

/-- A registry without the required flags of its arguments. -/
def Parser.forget (p : Parser) : Parser :=
  { p with fullArguments := p.fullArguments.map (fun it => (it.1, it.2.forget)) }

/-- Two registries built by the same calls of `Add` but for the values of the
required flags. -/
inductive Parser.SameButRequired : Parser → Parser → Prop
  | new : Parser.SameButRequired Parser.new Parser.new
  | add (p q : Parser) (T : Ty) (fullName shortName description : Str) (r₁ r₂ : Bool)
      (defaultValue : Value) (list : List Value) :
      Parser.SameButRequired p q →
      Parser.SameButRequired
        (p.Add T fullName shortName description r₁ defaultValue list).1
        (q.Add T fullName shortName description r₂ defaultValue list).1

/-- The registry of `test.cpp` with every required flag turned around. -/
def testParserFlipped : Parser :=
  let p := Parser.new
  let p := (p.Add .string "--stringArg".toList "-s".toList
    "this is a string argument".toList false (Ty.zero .string) []).1
  let p := (p.Add (.sint .int) "--intArg".toList "-i".toList
    "this is a int argument with default value 1".toList false (.sint .int 1) []).1
  let p := (p.Add (.flt .float) "--floatArg".toList "-f".toList
    ("this is a float argument with default value 0.1, and should be ".toList ++
      "in [0.1, 0.01, 0.001]".toList)
    true float_0_1 [float_0_1, float_0_01, float_0_001]).1
  (p.Add .bool "--boolArg".toList [] "this is a bool argument with default value true".toList
    true (.bool true) []).1

/-- A registry with a text argument and a choice argument whose default is
not among its choices: `Add<std::string>("--name")` and
`Add<int>("--level", "-l", "", false, 5, {1, 2, 3})`. -/
def levelParser : Parser :=
  let p := (Parser.new.Add .string "--name".toList [] [] false (Ty.zero .string) []).1
  (p.Add (.sint .int) "--level".toList "-l".toList [] false (.sint .int 5)
    [.sint .int 1, .sint .int 2, .sint .int 3]).1

/-- The exponent part of a numeral: nothing, or the letter `e`, a sign and
digits; `x` is the exponent it denotes. -/
def detail.IsExponentPart (ex : Str) (x : Int) : Prop :=
  (ex = [] ∧ x = 0) ∨
    ∃ (s : Char) (eds : Str), ex = 'e' :: s :: eds ∧ (s = '+' ∨ s = '-') ∧ eds ≠ [] ∧
      (∀ c ∈ eds, isDigit c = true) ∧
      x = if s = '-' then -(decimalValue eds : Int) else decimalValue eds

/-- The six significant decimal digits of the positive fraction `n / d`, as
the `%g` conversion with precision 6 writes them, and their decimal exponent:
`(D, X)` stands for the decimal `D * 10^(X - 5)`. -/
def detail.Flt.sixDigits (n d : Nat) : Nat × Int :=
  let x₀ := Flt.decimalExponent n d
  let d₀ := Flt.scaledRound n d (x₀ - 5)
  if d₀ = 1000000 then (100000, x₀ + 1) else (d₀, x₀)

/-- The datum of the format `k` nearest to the decimal `D * 10^x`, `none` on
overflow. -/
def detail.Flt.ofDecimal (k : FloatKind) (neg : Bool) (D : Nat) (x : Int) : Option Flt :=
  Flt.round k neg (D * 10 ^ x.toNat) (10 ^ (-x).toNat)

/-- What a datum becomes when it is rounded to six significant decimal digits
and the decimal is rounded to the nearest datum of the format `k`: a zero stays
a zero of its sign; an infinity and a not-a-number have no decimal. -/
def detail.Flt.reread (k : FloatKind) : Flt → Option Flt
  | .finite neg m e =>
    if m = 0 then some (.finite neg 0 0)
    else
      Flt.ofDecimal k neg (Flt.sixDigits (m * 2 ^ e.toNat) (2 ^ (-e).toNat)).1
        ((Flt.sixDigits (m * 2 ^ e.toNat) (2 ^ (-e).toNat)).2 - 5)
  | _ => none

/-- The double `0.1`. -/
def double_0_1 : Value := .flt .double (.finite false 7205759403792794 (-56))

/-- The binary exponent of the positive fraction `n / d` as `Flt.round`
computes it: the `f` with `2^f ≤ n / d < 2^(f+1)`. -/
def detail.Flt.floorLog2 (n d : Nat) : Int :=
  if d * 2 ^ ((Flt.log2 n : Int) - (Flt.log2 d : Int)).toNat
      ≤ n * 2 ^ (-((Flt.log2 n : Int) - (Flt.log2 d : Int))).toNat
  then (Flt.log2 n : Int) - (Flt.log2 d : Int) else (Flt.log2 n : Int) - (Flt.log2 d : Int) - 1

/-! ## The string functions -/

theorem Str.findFrom_single_of_not_mem (c : Char) :
    ∀ (s : Str) (i : Nat), c ∉ s → Str.findFrom [c] s i = none
  | [], i, _ => by simp [Str.findFrom, List.isPrefixOf]
  | x :: xs, i, h => by
    have hx : ¬ c = x := fun e => h (e ▸ List.mem_cons_self _ _)
    have hxs : c ∉ xs := fun e => h (List.mem_cons_of_mem _ e)
    simp [Str.findFrom, List.isPrefixOf, hx, Str.findFrom_single_of_not_mem c xs (i + 1) hxs]

theorem Str.findFrom_single_append (c : Char) :
    ∀ (a b : Str) (i : Nat), c ∉ a → Str.findFrom [c] (a ++ c :: b) i = some (i + a.length)
  | [], b, i, _ => by simp [Str.findFrom, List.isPrefixOf]
  | x :: xs, b, i, h => by
    have hx : ¬ c = x := fun e => h (e ▸ List.mem_cons_self _ _)
    have hxs : c ∉ xs := fun e => h (List.mem_cons_of_mem _ e)
    simp [Str.findFrom, List.isPrefixOf, hx, Str.findFrom_single_append c xs b (i + 1) hxs]
    omega

theorem Str.split_first (c : Char) :
    ∀ s : Str, c ∉ s ∨ ∃ a b, s = a ++ c :: b ∧ c ∉ a
  | [] => Or.inl (by simp)
  | x :: xs => by
    by_cases hx : x = c
    · exact Or.inr ⟨[], xs, by simp [hx], by simp⟩
    · rcases Str.split_first c xs with h | ⟨a, b, rfl, ha⟩
      · exact Or.inl (by simp [h, Ne.symm hx])
      · exact Or.inr ⟨x :: a, b, by simp, by simp [ha, Ne.symm hx]⟩

theorem Str.find_single_eq_none_iff (s : Str) (c : Char) :
    Str.find s [c] 0 = none ↔ c ∉ s := by
  constructor
  · intro h hc
    rcases Str.split_first c s with h' | ⟨a, b, rfl, ha⟩
    · exact h' hc
    · simp [Str.find, Str.findFrom_single_append c a b 0 ha] at h
  · intro h
    simp [Str.find, Str.findFrom_single_of_not_mem c s 0 h]

theorem takeWhile_ne_of_not_mem (c : Char) :
    ∀ s : Str, c ∉ s → s.takeWhile (· ≠ c) = s
  | [], _ => rfl
  | x :: xs, h => by
    have hx : ¬ x = c := fun e => h (e ▸ List.mem_cons_self _ _)
    have hxs : c ∉ xs := fun e => h (List.mem_cons_of_mem _ e)
    have ih := takeWhile_ne_of_not_mem c xs hxs
    simp only [List.takeWhile, ne_eq, hx, not_false_eq_true, decide_True]
    rw [List.cons.injEq]
    exact ⟨rfl, ih⟩

theorem takeWhile_ne_append (c : Char) :
    ∀ (a b : Str), c ∉ a → (a ++ c :: b).takeWhile (· ≠ c) = a
  | [], b, _ => by simp [List.takeWhile]
  | x :: xs, b, h => by
    have hx : ¬ x = c := fun e => h (e ▸ List.mem_cons_self _ _)
    have hxs : c ∉ xs := fun e => h (List.mem_cons_of_mem _ e)
    have ih := takeWhile_ne_append c xs b hxs
    simp only [List.cons_append, List.takeWhile, ne_eq, hx, not_false_eq_true, decide_True]
    rw [List.cons.injEq]
    exact ⟨rfl, ih⟩

theorem dropWhile_ne_append (c : Char) :
    ∀ (a b : Str), c ∉ a → (a ++ c :: b).dropWhile (· ≠ c) = c :: b
  | [], b, _ => by simp [List.dropWhile]
  | x :: xs, b, h => by
    have hx : ¬ x = c := fun e => h (e ▸ List.mem_cons_self _ _)
    have hxs : c ∉ xs := fun e => h (List.mem_cons_of_mem _ e)
    have ih := dropWhile_ne_append c xs b hxs
    simp only [List.cons_append, List.dropWhile, ne_eq, hx, not_false_eq_true, decide_True]
    exact ih

theorem pieces_of_not_mem : ∀ s : Str, '=' ∉ s → pieces s = [s]
  | [], _ => rfl
  | x :: xs, h => by
    have hx : ¬ x = '=' := fun e => h (e ▸ List.mem_cons_self _ _)
    have hxs : '=' ∉ xs := fun e => h (List.mem_cons_of_mem _ e)
    simp [pieces, hx, pieces_of_not_mem xs hxs]

theorem pieces_append : ∀ (a b : Str), '=' ∉ a → pieces (a ++ '=' :: b) = a :: pieces b
  | [], b, _ => by simp [pieces]
  | x :: xs, b, h => by
    have hx : ¬ x = '=' := fun e => h (e ▸ List.mem_cons_self _ _)
    have hxs : '=' ∉ xs := fun e => h (List.mem_cons_of_mem _ e)
    simp [pieces, hx, pieces_append xs b hxs]

theorem pieces_head (s : Str) : ∃ ps, pieces s = s.takeWhile (· ≠ '=') :: ps := by
  rcases Str.split_first '=' s with h | ⟨a, b, rfl, ha⟩
  · exact ⟨[], by rw [pieces_of_not_mem s h, takeWhile_ne_of_not_mem _ s h]⟩
  · exact ⟨pieces b, by rw [pieces_append a b ha, takeWhile_ne_append _ a b ha]⟩

theorem pieces_length : ∀ s : Str, (pieces s).length = s.count '=' + 1
  | [] => rfl
  | x :: xs => by
    have ih := pieces_length xs
    by_cases hx : x = '='
    · simp [pieces, hx, ih]
    · have hne : (x == '=') = false := by simpa using hx
      cases hp : pieces xs with
      | nil => simp [hp] at ih
      | cons q qs =>
        simp only [pieces, hx, if_false, hp, List.length_cons, List.count_cons, hne] at ih ⊢
        simpa using ih

namespace detail

theorem StringSplit.loop_eq (src : Str) :
    ∀ (fuel : Nat) (pre r : Str) (ret : List Str), src = pre ++ r → r.length + 2 ≤ fuel →
      StringSplit.loop (src ++ ['=']) ['='] (src ++ ['=']).length fuel pre.length ret
        = some (ret ++ pieces r)
  | 0, _, _, _, _, h => by omega
  | fuel + 1, pre, r, ret, hsrc, hfuel => by
    have hlt : pre.length < (src ++ ['=']).length := by simp [hsrc]
    rcases Str.split_first '=' r with h | ⟨a, b, rfl, ha⟩
    · have hfind : Str.find (src ++ ['=']) ['='] pre.length = some (pre.length + r.length) := by
        have : pre.length ≤ (src ++ ['=']).length := Nat.le_of_lt hlt
        simp only [Str.find, this, if_true]
        rw [hsrc, List.append_assoc, List.drop_left]
        exact Str.findFrom_single_append '=' r [] _ h
      have hpos : pre.length + r.length < (src ++ ['=']).length := by simp [hsrc]
      have hsub : Str.substr (src ++ ['=']) pre.length (pre.length + r.length - pre.length) = r := by
        simp [Str.substr, hsrc]
      have hnext : ¬ (pre.length + r.length + [('=' : Char)].length - 1 + 1
          < (src ++ ['=']).length) := by simp [hsrc]; omega
      cases fuel with
      | zero => omega
      | succ fuel =>
        rw [StringSplit.loop]
        simp only [hlt, if_true, hfind, hpos, hsub]
        rw [StringSplit.loop]
        simp only [hnext, if_false, pieces_of_not_mem r h]
    · have hfind : Str.find (src ++ ['=']) ['='] pre.length = some (pre.length + a.length) := by
        have : pre.length ≤ (src ++ ['=']).length := Nat.le_of_lt hlt
        simp only [Str.find, this, if_true]
        rw [hsrc, List.append_assoc, List.drop_left, List.append_assoc, List.cons_append]
        exact Str.findFrom_single_append '=' a _ _ ha
      have hpos : pre.length + a.length < (src ++ ['=']).length := by
        simp [hsrc]
      have hsub : Str.substr (src ++ ['=']) pre.length (pre.length + a.length - pre.length) = a := by
        simp [Str.substr, hsrc]
      have hidx : pre.length + a.length + [('=' : Char)].length - 1 + 1
          = (pre ++ a ++ ['=']).length := by simp; omega
      rw [StringSplit.loop]
      simp only [hlt, if_true, hfind, hpos, hsub, hidx]
      rw [StringSplit.loop_eq src fuel (pre ++ a ++ ['=']) b (ret ++ [a]) (by simp [hsrc])
        (by simp at hfuel; omega), pieces_append a b ha]
      simp

/-- On a text that is not empty, `StringSplit` with the pattern `=` returns
the pieces between the `=` characters. -/
theorem StringSplit_eq (src : Str) (h : src ≠ []) : StringSplit src ['='] = some (pieces src) := by
  have hne : src.isEmpty = false := by cases src <;> simp_all
  have := StringSplit.loop_eq src ((src ++ ['=']).length + 1) [] src [] rfl (by simp)
  simpa [StringSplit, hne] using this

end detail

/-! ## The maps of the registry -/

namespace Map

theorem find_append_of_isSome {β : Type} (k : Str) (m' : Map β) :
    ∀ m : Map β, (m.find k).isSome → (m ++ m').find k = m.find k
  | [], h => by simp [find] at h
  | (k', v) :: m, h => by
    by_cases hk : k' = k
    · simp [find, hk]
    · simp only [find, hk, if_false, List.cons_append] at h ⊢
      exact find_append_of_isSome k m' m h

theorem find_append_of_none {β : Type} (k : Str) (m' : Map β) :
    ∀ m : Map β, m.find k = none → (m ++ m').find k = m'.find k
  | [], _ => rfl
  | (k', v) :: m, h => by
    by_cases hk : k' = k
    · simp [find, hk] at h
    · simp only [find, hk, if_false, List.cons_append] at h ⊢
      exact find_append_of_none k m' m h

theorem mem_of_find {β : Type} (k : Str) (v : β) :
    ∀ m : Map β, m.find k = some v → (k, v) ∈ m
  | [], h => by simp [find] at h
  | (k', v') :: m, h => by
    by_cases hk : k' = k
    · simp only [find, hk, if_true, Option.some.injEq] at h
      simp [hk, h]
    · simp only [find, hk, if_false] at h
      exact List.mem_cons_of_mem _ (mem_of_find k v m h)

theorem find_eq_none_iff {β : Type} (k : Str) :
    ∀ m : Map β, m.find k = none ↔ ∀ e ∈ m, e.1 ≠ k
  | [] => by
    constructor
    · intro _ e he
      cases he
    · intro _
      rfl
  | (k', v') :: m => by
    have ih := find_eq_none_iff k m
    by_cases hk : k' = k
    · constructor
      · intro h
        simp only [find, hk, if_true] at h
        cases h
      · intro h
        exact absurd hk (h (k', v') (List.mem_cons_self _ _))
    · simp only [find, hk, if_false]
      rw [ih]
      constructor
      · intro h e he
        rcases List.mem_cons.1 he with rfl | he
        · exact hk
        · exact h e he
      · intro h e he
        exact h e (List.mem_cons_of_mem _ he)

theorem find_assign {β : Type} (k k' : Str) (v : β) :
    ∀ m : Map β, (m.assign k v).find k' =
      if k' = k then (m.find k).map (fun _ => v) else m.find k'
  | [] => by simp [assign, find]
  | (k₀, v₀) :: m => by
    have ih := find_assign k k' v m
    by_cases h₀ : k₀ = k
    · by_cases h₁ : k' = k
      · simp [assign, find, h₀, h₁]
      · have : ¬ k = k' := fun e => h₁ e.symm
        simp [assign, find, h₀, h₁, this]
    · by_cases h₁ : k' = k
      · have : ¬ k₀ = k' := fun e => h₀ (e.trans h₁)
        simp only [assign, h₀, if_false, find, this, ih, h₁, if_true]
        simp [h₁] at ih
        exact ih
      · simp only [assign, h₀, if_false, find, ih, h₁]

theorem assign_of_find {β : Type} (k : Str) (v : β) :
    ∀ m : Map β, m.find k = some v → m.assign k v = m
  | [], _ => rfl
  | (k₀, v₀) :: m, h => by
    by_cases h₀ : k₀ = k
    · simp only [find, h₀, if_true, Option.some.injEq] at h
      simp [assign, h₀, h]
    · simp only [find, h₀, if_false] at h
      simp [assign, h₀, assign_of_find k v m h]

theorem keys_assign {β : Type} (k : Str) (v : β) :
    ∀ m : Map β, (m.assign k v).map Prod.fst = m.map Prod.fst
  | [] => rfl
  | (k₀, v₀) :: m => by
    by_cases h₀ : k₀ = k
    · simp [assign, h₀]
    · simp [assign, h₀, keys_assign k v m]

theorem mem_assign {β : Type} (k : Str) (v : β) (e : Str × β) :
    ∀ m : Map β, e ∈ m.assign k v → e ∈ m ∨ e = (k, v)
  | [], h => by simp [assign] at h
  | (k₀, v₀) :: m, h => by
    by_cases h₀ : k₀ = k
    · simp only [assign, h₀, if_true, List.mem_cons] at h
      rcases h with h | h
      · exact Or.inr h
      · exact Or.inl (List.mem_cons_of_mem _ h)
    · simp only [assign, h₀, if_false, List.mem_cons] at h
      rcases h with h | h
      · exact Or.inl (h ▸ List.mem_cons_self _ _)
      · rcases mem_assign k v e m h with h | h
        · exact Or.inl (List.mem_cons_of_mem _ h)
        · exact Or.inr h

end Map

/-! ## Reading one token -/

theorem Str.findFrom_ne_none_iff (pat : Str) :
    ∀ (s : Str) (i : Nat), Str.findFrom pat s i ≠ none ↔ pat <:+: s
  | [], i => by
    cases pat with
    | nil => simp [Str.findFrom]
    | cons c cs => simp [Str.findFrom]
  | c :: cs, i => by
    have ih := Str.findFrom_ne_none_iff pat cs (i + 1)
    by_cases hp : pat.isPrefixOf (c :: cs) = true
    · have hpre : pat <+: c :: cs := List.isPrefixOf_iff_prefix.1 hp
      simp only [Str.findFrom, hp, if_true, ne_eq, not_false_eq_true, true_iff]
      simp
      exact hpre.isInfix
    · have hpre : ¬ pat <+: c :: cs := fun h => hp (List.isPrefixOf_iff_prefix.2 h)
      simp only [Str.findFrom, hp]
      rw [List.infix_cons_iff]
      constructor
      · intro h
        exact Or.inr (ih.1 h)
      · rintro (h | h)
        · exact absurd h hpre
        · exact ih.2 h

theorem Str.find_ne_none_iff (s pat : Str) : Str.find s pat 0 ≠ none ↔ pat <:+: s := by
  simp only [Str.find, Nat.zero_le, if_true, List.drop_zero]
  exact Str.findFrom_ne_none_iff pat s 0

theorem Str.find_single_ne_none_iff (s : Str) (c : Char) : Str.find s [c] 0 ≠ none ↔ c ∈ s := by
  rw [ne_eq, Str.find_single_eq_none_iff]
  exact not_not

namespace detail

theorem Argument.Read_eq (a : Argument) (str : Str) :
    a.Read str = match a.convert str with
      | .ok v => (a.store v, .returned ())
      | .error e => (a, .thrown e) := by
  cases a with
  | basic b =>
    simp only [Argument.Read, Argument.convert, BasicArgument.Read, Argument.store]
    cases StringCaster.call b.T str <;> rfl
  | choice c =>
    simp only [Argument.Read, Argument.convert, ChoiceArgument.Read, Argument.store]
    cases c.choiceCaster.call c.T str <;> rfl

theorem Argument.store_setted (a : Argument) (v : Value) : (a.store v).Setted = true := by
  cases a <;> rfl

theorem Argument.store_value (a : Argument) (v : Value) : (a.store v).ActualValue = v := by
  cases a <;> rfl

theorem Argument.store_T (a : Argument) (v : Value) : (a.store v).base.T = a.base.T := by
  cases a <;> rfl

theorem Argument.store_hasDefault (a : Argument) (v : Value) :
    (a.store v).base.hasDefault_ = a.base.hasDefault_ := by
  cases a <;> rfl

end detail

namespace Parser

/-- What `ReadWithFullName` does, by cases on the registry. -/
theorem ReadWithFullName_eq (p : Parser) (f val : Str) :
    p.ReadWithFullName f val =
      match p.fullArguments.find f with
      | none => (p, .thrown (.UnknownArgument f))
      | some arg =>
        if arg.Setted then (p, .thrown (.DuplicateAssignment f))
        else
          match arg.convert val with
          | .ok v =>
            ({ p with fullArguments := p.fullArguments.assign f (arg.store v) }, .returned ())
          | .error e => (p, .thrown e) := by
  unfold ReadWithFullName
  cases hfind : p.fullArguments.find f with
  | none => rfl
  | some arg =>
    by_cases hs : arg.Setted = true
    · simp [hs]
    · simp only [hs, if_false, Argument.Read_eq]
      cases arg.convert val with
      | ok v => rfl
      | error e =>
        simp only [Map.assign_of_find f arg p.fullArguments hfind]

/-- What the loop body of `Parse` does with a token that holds a `=`. -/
theorem Parse.token_eq (p : Parser) (tok : Str) (h : '=' ∈ tok) :
    Parse.token p tok =
      if ['-', '-'] <:+: namePart tok then p.ReadWithFullName (namePart tok) (valuePart tok)
      else if '-' ∈ namePart tok then
        match p.shortToFull.find (namePart tok) with
        | none => (p, .thrown (.UnknownArgument (namePart tok)))
        | some full => p.ReadWithFullName full (valuePart tok)
      else (p, .thrown (.MalformedToken tok)) := by
  have hne : tok ≠ [] := by
    rintro rfl
    cases h
  have hfind : ¬ Str.find tok ['='] 0 = none := (Str.find_single_ne_none_iff tok '=').2 h
  rcases Str.split_first '=' tok with h' | ⟨a, b, rfl, ha⟩
  · exact absurd h h'
  · obtain ⟨ps, hps⟩ := pieces_head b
    have hname : namePart (a ++ '=' :: b) = a := takeWhile_ne_append '=' a b ha
    have hvalue : valuePart (a ++ '=' :: b) = b.takeWhile (· ≠ '=') := by
      simp only [valuePart, afterFirst, dropWhile_ne_append '=' a b ha, List.drop_succ_cons,
        List.drop_zero]
    have hs : ['-'] <:+: a ↔ '-' ∈ a := by
      rw [← Str.find_ne_none_iff, Str.find_single_ne_none_iff]
    simp only [Parse.token, hfind, if_false, StringSplit_eq _ hne, pieces_append a b ha, hps,
      hname, hvalue, List.get?_cons_zero, List.get?_cons_succ, Str.find_ne_none_iff, hs]

/-- What the loop body of `Parse` does with a token that holds no `=`. -/
theorem Parse.token_of_not_mem (p : Parser) (tok : Str) (h : '=' ∉ tok) :
    Parse.token p tok = (p, .thrown (.MalformedToken tok)) := by
  simp [Parse.token, (Str.find_single_eq_none_iff tok '=').2 h]

theorem Names_congr {p p' : Parser} (h : p'.shortToFull = p.shortToFull) (tok f : Str) :
    p'.Names tok f ↔ p.Names tok f := by
  simp only [Names, h]

theorem Names_unique {p : Parser} {tok f g : Str} (hf : p.Names tok f) (hg : p.Names tok g) :
    f = g := by
  rcases hf with ⟨_, ⟨h₁, rfl⟩ | ⟨h₁, _, h₂⟩⟩ <;> rcases hg with ⟨_, ⟨h₃, rfl⟩ | ⟨h₃, _, h₄⟩⟩
  · rfl
  · exact absurd h₁ h₃
  · exact absurd h₃ h₁
  · rw [h₂] at h₄
    exact Option.some.inj h₄

theorem Parse.token_of_names {p : Parser} {tok f : Str} (h : p.Names tok f) :
    Parse.token p tok = p.ReadWithFullName f (valuePart tok) := by
  rcases h with ⟨he, ⟨h₁, rfl⟩ | ⟨h₁, h₂, h₃⟩⟩
  · rw [Parse.token_eq p tok he, if_pos h₁]
  · rw [Parse.token_eq p tok he, if_neg h₁, if_pos h₂, h₃]

theorem Parse.token_of_not_names {p : Parser} {tok : Str} (h : ∀ f, ¬ p.Names tok f) :
    Parse.token p tok = (p, .thrown (.MalformedToken tok)) ∨
      Parse.token p tok = (p, .thrown (.UnknownArgument (namePart tok))) := by
  by_cases he : '=' ∈ tok
  · rw [Parse.token_eq p tok he]
    by_cases h₁ : ['-', '-'] <:+: namePart tok
    · exact absurd ⟨he, Or.inl ⟨h₁, rfl⟩⟩ (h _)
    · by_cases h₂ : '-' ∈ namePart tok
      · cases h₃ : p.shortToFull.find (namePart tok) with
        | none => simp [h₁, h₂]
        | some full => exact absurd ⟨he, Or.inr ⟨h₁, h₂, h₃⟩⟩ (h _)
      · simp [h₁, h₂]
  · exact Or.inl (Parse.token_of_not_mem p tok he)

theorem ReadWithFullName_returned {p p' : Parser} {f val : Str}
    (h : p.ReadWithFullName f val = (p', .returned ())) :
    ∃ arg v, p.fullArguments.find f = some arg ∧ arg.Setted = false ∧ arg.convert val = .ok v ∧
      p' = { p with fullArguments := p.fullArguments.assign f (arg.store v) } := by
  rw [ReadWithFullName_eq] at h
  cases hfind : p.fullArguments.find f with
  | none => simp [hfind] at h
  | some arg =>
    simp only [hfind] at h
    by_cases hs : arg.Setted = true
    · simp [hs] at h
    · rw [if_neg hs] at h
      cases hc : arg.convert val with
      | error e => simp [hc] at h
      | ok v =>
        simp only [hc, Prod.mk.injEq, and_true] at h
        exact ⟨arg, v, rfl, by simpa using hs, hc, h.symm⟩

theorem ReadWithFullName_outcome (p : Parser) (f val : Str) :
    (p.ReadWithFullName f val).2 = .returned () ∨
      ∃ e, p.ReadWithFullName f val = (p, .thrown e) := by
  rw [ReadWithFullName_eq]
  cases p.fullArguments.find f with
  | none => exact Or.inr ⟨_, rfl⟩
  | some arg =>
    by_cases hs : arg.Setted = true
    · exact Or.inr ⟨.DuplicateAssignment f, by simp [hs]⟩
    · cases hc : arg.convert val with
      | error e => exact Or.inr ⟨e, by simp [hs, hc]⟩
      | ok v => exact Or.inl (by simp [hs, hc])

theorem Parse.token_returned {p p' : Parser} {tok : Str}
    (h : Parse.token p tok = (p', .returned ())) :
    ∃ f arg v, p.Names tok f ∧ p.fullArguments.find f = some arg ∧ arg.Setted = false ∧
      arg.convert (valuePart tok) = .ok v ∧
      p' = { p with fullArguments := p.fullArguments.assign f (arg.store v) } := by
  by_cases hn : ∃ f, p.Names tok f
  · obtain ⟨f, hf⟩ := hn
    rw [Parse.token_of_names hf] at h
    obtain ⟨arg, v, h₁, h₂, h₃, h₄⟩ := ReadWithFullName_returned h
    exact ⟨f, arg, v, hf, h₁, h₂, h₃, h₄⟩
  · rcases Parse.token_of_not_names (fun f hf => hn ⟨f, hf⟩) with h' | h' <;>
      · rw [h'] at h
        simp at h

theorem Parse.token_outcome (p : Parser) (tok : Str) :
    (Parse.token p tok).2 = .returned () ∨ ∃ e, Parse.token p tok = (p, .thrown e) := by
  by_cases hn : ∃ f, p.Names tok f
  · obtain ⟨f, hf⟩ := hn
    rw [Parse.token_of_names hf]
    exact ReadWithFullName_outcome p f _
  · rcases Parse.token_of_not_names (fun f hf => hn ⟨f, hf⟩) with h' | h'
    · exact Or.inr ⟨_, h'⟩
    · exact Or.inr ⟨_, h'⟩

theorem Parse.tokens_cons_returned {p p₁ : Parser} {tok : Str} {rest : List Str}
    (h : Parse.token p tok = (p₁, .returned ())) :
    Parse.tokens p (tok :: rest) = Parse.tokens p₁ rest := by
  simp only [Parse.tokens, h]

theorem Parse.tokens_cons_thrown {p : Parser} {tok : Str} {rest : List Str} {e : CMDError}
    (h : Parse.token p tok = (p, .thrown e)) :
    Parse.tokens p (tok :: rest) = (p, .thrown e) := by
  simp only [Parse.tokens, h]

/-- A successful pass over `tok :: rest` is a successful step on `tok` followed
by a successful pass over `rest`. -/
theorem Parse.tokens_cons_inv {p p' : Parser} {tok : Str} {rest : List Str}
    (h : Parse.tokens p (tok :: rest) = (p', .returned ())) :
    ∃ p₁, Parse.token p tok = (p₁, .returned ()) ∧ Parse.tokens p₁ rest = (p', .returned ()) := by
  rcases Parse.token_outcome p tok with h₁ | ⟨e, h₁⟩
  · have h₂ : Parse.token p tok = ((Parse.token p tok).1, .returned ()) := by
      rw [← h₁]
    rw [Parse.tokens_cons_returned h₂] at h
    exact ⟨_, h₂, h⟩
  · rw [Parse.tokens_cons_thrown h₁] at h
    simp at h

theorem Parse.tokens_outcome :
    ∀ (toks : List Str) (p : Parser),
      (Parse.tokens p toks).2 = .returned () ∨ ∃ e, (Parse.tokens p toks).2 = .thrown e
  | [], _ => Or.inl rfl
  | tok :: rest, p => by
    rcases Parse.token_outcome p tok with h₁ | ⟨e, h₁⟩
    · have h₂ : Parse.token p tok = ((Parse.token p tok).1, .returned ()) := by
        rw [← h₁]
      rw [Parse.tokens_cons_returned h₂]
      exact Parse.tokens_outcome rest _
    · rw [Parse.tokens_cons_thrown h₁]
      exact Or.inr ⟨e, rfl⟩

theorem Parse.tokens_append :
    ∀ (pre : List Str) (p p₁ : Parser) (post : List Str),
      Parse.tokens p pre = (p₁, .returned ()) →
      Parse.tokens p (pre ++ post) = Parse.tokens p₁ post
  | [], p, p₁, post, h => by
    simp only [Parse.tokens, Prod.mk.injEq, and_true] at h
    simp [h]
  | tok :: rest, p, p₁, post, h => by
    obtain ⟨p₂, h₁, h₂⟩ := Parse.tokens_cons_inv h
    rw [List.cons_append, Parse.tokens_cons_returned h₁]
    exact Parse.tokens_append rest p₂ p₁ post h₂

theorem Parse.tokens_shortToFull :
    ∀ (toks : List Str) (p p' : Parser), Parse.tokens p toks = (p', .returned ()) →
      p'.shortToFull = p.shortToFull ∧ p'.progName = p.progName
  | [], p, p', h => by
    simp only [Parse.tokens, Prod.mk.injEq, and_true] at h
    simp [h]
  | tok :: rest, p, p', h => by
    obtain ⟨p₁, h₁, h₂⟩ := Parse.tokens_cons_inv h
    obtain ⟨f, arg, v, -, -, -, -, rfl⟩ := Parse.token_returned h₁
    have ih := Parse.tokens_shortToFull rest _ p' h₂
    exact ih

/-- Arguments that are set stay as they are, and no later token names them,
in a successful pass over the tokens. -/
theorem Parse.tokens_of_setted :
    ∀ (toks : List Str) (p p' : Parser), Parse.tokens p toks = (p', .returned ()) →
      ∀ f a, p.fullArguments.find f = some a → a.Setted = true →
        p'.fullArguments.find f = some a ∧ ∀ tok ∈ toks, ¬ p.Names tok f
  | [], p, p', h, f, a, hf, _ => by
    simp only [Parse.tokens, Prod.mk.injEq, and_true] at h
    subst h
    exact ⟨hf, fun _ h => by cases h⟩
  | tok :: rest, p, p', h, f, a, hf, hs => by
    obtain ⟨p₁, h₁, h₂⟩ := Parse.tokens_cons_inv h
    obtain ⟨g, arg, v, hn, hg, hgs, -, rfl⟩ := Parse.token_returned h₁
    have hne : f ≠ g := by
      rintro rfl
      rw [hf] at hg
      cases hg
      rw [hs] at hgs
      cases hgs
    have hf₁ : (p.fullArguments.assign g (arg.store v)).find f = some a := by
      rw [Map.find_assign, if_neg hne, hf]
    obtain ⟨ih₁, ih₂⟩ := Parse.tokens_of_setted rest _ p' h₂ f a hf₁ hs
    refine ⟨ih₁, fun t ht hnt => ?_⟩
    rcases List.mem_cons.1 ht with rfl | ht
    · exact hne (Names_unique hnt hn)
    · exact ih₂ t ht ((Names_congr rfl t f).2 hnt)

/-- An argument that no token names is left as it is by a successful pass. -/
theorem Parse.tokens_of_not_named :
    ∀ (toks : List Str) (p p' : Parser), Parse.tokens p toks = (p', .returned ()) →
      ∀ f, (∀ tok ∈ toks, ¬ p.Names tok f) → p'.fullArguments.find f = p.fullArguments.find f
  | [], p, p', h, f, _ => by
    simp only [Parse.tokens, Prod.mk.injEq, and_true] at h
    subst h
    rfl
  | tok :: rest, p, p', h, f, hn => by
    obtain ⟨p₁, h₁, h₂⟩ := Parse.tokens_cons_inv h
    obtain ⟨g, arg, v, hg, -, -, -, rfl⟩ := Parse.token_returned h₁
    have hne : f ≠ g := by
      rintro rfl
      exact hn tok (List.mem_cons_self _ _) hg
    rw [Parse.tokens_of_not_named rest _ p' h₂ f
      (fun t ht hnt => hn t (List.mem_cons_of_mem _ ht) ((Names_congr rfl t f).1 hnt))]
    simp only [Map.find_assign, if_neg hne]

/-- An argument that a token names holds, after a successful pass, the value
converted from the value part of that token. -/
theorem Parse.tokens_of_named :
    ∀ (toks : List Str) (p p' : Parser), Parse.tokens p toks = (p', .returned ()) →
      ∀ f tok, tok ∈ toks → p.Names tok f →
        ∃ a v, p.fullArguments.find f = some a ∧ a.Setted = false ∧
          a.convert (valuePart tok) = .ok v ∧ p'.fullArguments.find f = some (a.store v)
  | [], _, _, _, _, _, ht, _ => by cases ht
  | t :: rest, p, p', h, f, tok, ht, hn => by
    obtain ⟨p₁, h₁, h₂⟩ := Parse.tokens_cons_inv h
    obtain ⟨g, arg, v, hg, hfind, hgs, hconv, rfl⟩ := Parse.token_returned h₁
    have hstored : (p.fullArguments.assign g (arg.store v)).find g = some (arg.store v) := by
      rw [Map.find_assign, if_pos rfl, hfind]
      rfl
    rcases List.mem_cons.1 ht with rfl | ht
    · cases Names_unique hn hg
      obtain ⟨ih₁, -⟩ := Parse.tokens_of_setted rest _ p' h₂ f (arg.store v) hstored
        (Argument.store_setted arg v)
      exact ⟨arg, v, hfind, hgs, hconv, ih₁⟩
    · by_cases hfg : f = g
      · subst hfg
        obtain ⟨-, ih₂⟩ := Parse.tokens_of_setted rest _ p' h₂ f (arg.store v) hstored
          (Argument.store_setted arg v)
        exact absurd ((Names_congr rfl tok f).2 hn) (ih₂ tok ht)
      · obtain ⟨a, w, ha, has, hc, hfin⟩ := Parse.tokens_of_named rest _ p' h₂ f tok ht
          ((Names_congr rfl tok f).2 hn)
        rw [Map.find_assign, if_neg hfg] at ha
        exact ⟨a, w, ha, has, hc, hfin⟩

/-- A token that was read in a successful pass names a registered argument. -/
theorem Parse.tokens_all_named :
    ∀ (toks : List Str) (p p' : Parser), Parse.tokens p toks = (p', .returned ()) →
      ∀ tok ∈ toks, ∃ g, p.Names tok g ∧ p.fullArguments.find g ≠ none
  | [], _, _, _, _, ht => by cases ht
  | t :: rest, p, p', h, tok, ht => by
    obtain ⟨p₁, h₁, h₂⟩ := Parse.tokens_cons_inv h
    obtain ⟨g, arg, v, hg, hfind, -, -, rfl⟩ := Parse.token_returned h₁
    rcases List.mem_cons.1 ht with rfl | ht
    · exact ⟨g, hg, by simp [hfind]⟩
    · obtain ⟨g', hg', hfind'⟩ := Parse.tokens_all_named rest _ p' h₂ tok ht
      refine ⟨g', (Names_congr rfl tok g').1 hg', ?_⟩
      rw [Map.find_assign] at hfind'
      by_cases hgg : g' = g
      · rw [hgg, hfind]
        simp
      · rwa [if_neg hgg] at hfind'

/-! ## The whole of `Parse` -/

theorem Parse.check_outcome :
    ∀ m : Map Argument, Parse.check m = .returned () ∨ ∃ e, Parse.check m = .thrown e
  | [] => Or.inl rfl
  | it :: rest => by
    by_cases hg : it.2.base.setted_ = true ∨ it.2.base.hasDefault_ = true ∨
        ((!it.2.base.required_) = true ∧ it.2.base.hasDefault_ = true)
    · simp only [Parse.check, Argument.IsGood, BasicArgument.IsGood, hg, if_true]
      exact Parse.check_outcome rest
    · exact Or.inr ⟨.MissingDefaultError it.2.base.fullName_, by
        simp only [Parse.check, Argument.IsGood, BasicArgument.IsGood, hg, if_false]⟩

theorem Parse.check_returned :
    ∀ m : Map Argument, Parse.check m = .returned () →
      ∀ it ∈ m, it.2.Setted = true ∨ it.2.base.hasDefault_ = true
  | [], _, _, hit => by cases hit
  | it :: rest, h, it', hit => by
    by_cases hg : it.2.base.setted_ = true ∨ it.2.base.hasDefault_ = true ∨
        ((!it.2.base.required_) = true ∧ it.2.base.hasDefault_ = true)
    · simp only [Parse.check, Argument.IsGood, BasicArgument.IsGood, hg, if_true] at h
      rcases List.mem_cons.1 hit with rfl | hit
      · rcases hg with hg | hg | ⟨-, hg⟩
        · exact Or.inl hg
        · exact Or.inr hg
        · exact Or.inr hg
      · exact Parse.check_returned rest h it' hit
    · simp only [Parse.check, Argument.IsGood, BasicArgument.IsGood, hg, if_false] at h
      cases h

theorem Parse_of_tokens_returned {p p' : Parser} {prog tok : Str} {rest : List Str}
    (h : Parse.tokens { p with progName := prog } (tok :: rest) = (p', .returned ())) :
    p.Parse (prog :: tok :: rest) = (p', Parse.check p'.fullArguments) := by
  simp [Parse, h]

theorem Parse_of_tokens_thrown {p p' : Parser} {prog tok : Str} {rest : List Str} {e : CMDError}
    (h : Parse.tokens { p with progName := prog } (tok :: rest) = (p', .thrown e)) :
    p.Parse (prog :: tok :: rest) = (p', .thrown e) := by
  simp [Parse, h]

/-- A call of `Parse` that returns has passed both loops. -/
theorem Parse_returned {p p' : Parser} {argv : List Str} (h : p.Parse argv = (p', .returned ())) :
    ∃ prog toks, argv = prog :: toks ∧
      Parse.tokens { p with progName := prog } toks = (p', .returned ()) ∧
      Parse.check p'.fullArguments = .returned () := by
  match argv, h with
  | [], h => simp [Parse] at h
  | [prog], h => simp [Parse] at h
  | prog :: tok :: rest, h =>
    rcases Parse.tokens_outcome (tok :: rest) { p with progName := prog } with h₁ | ⟨e, h₁⟩
    · have h₂ : Parse.tokens { p with progName := prog } (tok :: rest)
          = ((Parse.tokens { p with progName := prog } (tok :: rest)).1, .returned ()) := by
        rw [← h₁]
      rw [Parse_of_tokens_returned h₂] at h
      simp only [Prod.mk.injEq] at h
      obtain ⟨h₃, h₄⟩ := h
      rw [h₃] at h₂ h₄
      exact ⟨prog, tok :: rest, rfl, h₂, h₄⟩
    · have h₂ : Parse.tokens { p with progName := prog } (tok :: rest)
          = ((Parse.tokens { p with progName := prog } (tok :: rest)).1, .thrown e) := by
        rw [← h₁]
      rw [Parse_of_tokens_thrown h₂] at h
      simp at h

/-- C2 (completeness).  If `Parse` returns, every registered argument is set
or has a default; and if an argument of the registry is not set, has no
default and is named by no token, `Parse` does not return: it throws as soon as
there is a token at all. -/
theorem C2_completeness (p : Parser) (argv : List Str) :
    (∀ p', p.Parse argv = (p', .returned ()) →
      ∀ it ∈ p'.fullArguments, it.2.Setted = true ∨ it.2.base.hasDefault_ = true) ∧
    (∀ f a, p.fullArguments.find f = some a → a.Setted = false → a.base.hasDefault_ = false →
      (∀ tok ∈ argv.tail, ¬ p.Names tok f) →
      (p.Parse argv).2 ≠ .returned () ∧ (2 ≤ argv.length → ∃ e, (p.Parse argv).2 = .thrown e)) := by
  refine ⟨fun p' h => ?_, fun f a hf hs hd hn => ?_⟩
  · obtain ⟨prog, toks, -, -, hc⟩ := Parse_returned h
    exact Parse.check_returned _ hc
  · have hnot : (p.Parse argv).2 ≠ .returned () := by
      intro hret
      have h : p.Parse argv = ((p.Parse argv).1, .returned ()) := by
        rw [← hret]
      obtain ⟨prog, toks, rfl, ht, hc⟩ := Parse_returned h
      have hfind := Parse.tokens_of_not_named toks _ _ ht f
        (fun t ht' hnt => hn t ht' ((Names_congr rfl t f).1 hnt))
      have hmem := Map.mem_of_find f a _ (hfind.trans hf)
      rcases Parse.check_returned _ hc _ hmem with h' | h'
      · rw [hs] at h'
        cases h'
      · rw [hd] at h'
        cases h'
    refine ⟨hnot, fun hlen => ?_⟩
    match argv, hlen, hnot with
    | prog :: tok :: rest, _, hnot =>
      rcases Parse.tokens_outcome (tok :: rest) { p with progName := prog } with h₁ | ⟨e, h₁⟩
      · have h₂ : Parse.tokens { p with progName := prog } (tok :: rest)
            = ((Parse.tokens { p with progName := prog } (tok :: rest)).1, .returned ()) := by
          rw [← h₁]
        rw [Parse_of_tokens_returned h₂] at hnot ⊢
        rcases Parse.check_outcome
            (Parse.tokens { p with progName := prog } (tok :: rest)).1.fullArguments with h₃ | h₃
        · exact absurd h₃ hnot
        · exact h₃
      · have h₂ : Parse.tokens { p with progName := prog } (tok :: rest)
            = ((Parse.tokens { p with progName := prog } (tok :: rest)).1, .thrown e) := by
          rw [← h₁]
        rw [Parse_of_tokens_thrown h₂]
        exact ⟨e, rfl⟩

/-- When `Parse` resolves a token `t₂` to the argument that it resolved a
token `t₁` before it to, and the tokens before `t₂` were accepted, `Parse`
throws `DuplicateAssignment` at `t₂`: the registry is left as the tokens before
`t₂` made it, with the value converted from `t₁` stored. -/
theorem Parse_duplicate_of_names (p p₁ : Parser) (prog : Str) (pre post : List Str)
    (t₁ t₂ f : Str) (h₁ : t₁ ∈ pre) (hn₁ : p.Names t₁ f) (hn₂ : p.Names t₂ f)
    (hacc : Parse.tokens { p with progName := prog } pre = (p₁, .returned ())) :
    p.Parse (prog :: (pre ++ t₂ :: post)) = (p₁, .thrown (.DuplicateAssignment f)) ∧
      ∃ a v, p.fullArguments.find f = some a ∧ a.convert (valuePart t₁) = .ok v ∧
        p₁.fullArguments.find f = some (a.store v) := by
  obtain ⟨a, v, ha, -, hc, hfin⟩ := Parse.tokens_of_named pre _ p₁ hacc f t₁ h₁
    ((Names_congr rfl t₁ f).2 hn₁)
  have hshort := (Parse.tokens_shortToFull pre _ p₁ hacc).1
  have hn₂' : p₁.Names t₂ f := (Names_congr hshort t₂ f).2 ((Names_congr rfl t₂ f).2 hn₂)
  have htok : Parse.token p₁ t₂ = (p₁, .thrown (.DuplicateAssignment f)) := by
    rw [Parse.token_of_names hn₂', ReadWithFullName_eq, hfin]
    simp [Argument.store_setted]
  have hall : Parse.tokens { p with progName := prog } (pre ++ t₂ :: post)
      = (p₁, .thrown (.DuplicateAssignment f)) := by
    rw [Parse.tokens_append pre _ p₁ _ hacc, Parse.tokens_cons_thrown htok]
  refine ⟨?_, a, v, ha, hc, hfin⟩
  cases pre with
  | nil => cases h₁
  | cons t ts => exact Parse_of_tokens_thrown hall

/-! ## Registration -/

/-- The argument object that `Add` creates. -/
theorem Add_eq (p : Parser) (T : Ty) (f s d : Str) (r : Bool) (dv : Value) (l : List Value) :
    p.Add T f s d r dv l =
      if p.fullArguments.find f ≠ none then (p, .thrown (.DuplicateDefinition f))
      else if s ≠ [] ∧ p.shortToFull.find s ≠ none then (p, .thrown (.DuplicateDefinition s))
      else
        ({ p with
            fullArguments := p.fullArguments ++
              [(f, if l.length = 0 then .basic (BasicArgument.new T f s d r dv)
                else .choice (ChoiceArgument.new T f s d r dv l))]
            shortToFull := if s ≠ [] then p.shortToFull ++ [(s, f)] else p.shortToFull },
          .returned ()) := by
  cases hf : p.fullArguments.find f with
  | some a => simp [Add, CheckExist, Map.count, hf]
  | none =>
    by_cases hs : s = []
    · simp [Add, CheckExist, Map.count, hf, hs, AddArgument, Map.insert]
    · have hlen : 0 < s.length := List.length_pos.2 hs
      cases hsf : p.shortToFull.find s with
      | some g => simp [Add, CheckExist, Map.count, hf, hs, hsf, hlen]
      | none => simp [Add, CheckExist, Map.count, hf, hs, hsf, hlen, AddArgument, Map.insert]

theorem BasicArgument.new_props (T : Ty) (f s d : Str) (r : Bool) (dv : Value) :
    (BasicArgument.new T f s d r dv).fullName_ = f ∧
    (BasicArgument.new T f s d r dv).shortName_ = s ∧
    (BasicArgument.new T f s d r dv).setted_ = false ∧
    (BasicArgument.new T f s d r dv).T = T ∧
    (BasicArgument.new T f s d r dv).defaultValue_ = dv ∧
    (BasicArgument.new T f s d r dv).hasDefault_ = dv.toBool ∧
    ((BasicArgument.new T f s d r dv).hasDefault_ = true →
      (BasicArgument.new T f s d r dv).actualValue_ = dv) := by
  unfold BasicArgument.new
  by_cases h : dv.toBool = true
  · simp [h]
  · simp [h]

/-- The members of the argument object that `Add` creates. -/
theorem newArgument_props (T : Ty) (f s d : Str) (r : Bool) (dv : Value) (l : List Value)
    (a : Argument)
    (ha : a = if l.length = 0 then .basic (BasicArgument.new T f s d r dv)
      else .choice (ChoiceArgument.new T f s d r dv l)) :
    a.FullName = f ∧ a.ShortName = s ∧ a.Setted = false ∧ a.base.T = T ∧
      a.base.defaultValue_ = dv ∧ a.base.hasDefault_ = dv.toBool ∧
      (a.base.hasDefault_ = true → a.ActualValue = dv) := by
  have h := BasicArgument.new_props T f s d r dv
  by_cases hl : l.length = 0
  · rw [if_pos hl] at ha
    subst ha
    exact h
  · rw [if_neg hl] at ha
    subst ha
    exact h

theorem WF_new : Parser.new.WF where
  keys := List.Pairwise.nil
  found := fun _ h => by cases h
  entry := fun _ h => by cases h
  short := fun _ _ h => by simp [Parser.new, Map.find] at h

theorem WF_Add {p : Parser} (h : p.WF) (T : Ty) (f s d : Str) (r : Bool) (dv : Value)
    (l : List Value) : (p.Add T f s d r dv l).1.WF := by
  rw [Add_eq]
  cases hf : p.fullArguments.find f with
  | some a => simpa using h
  | none =>
    by_cases hs : s ≠ [] ∧ p.shortToFull.find s ≠ none
    · simpa [hs] using h
    · simp only [ne_eq, not_true_eq_false, if_false, hs]
      obtain ⟨a, ha⟩ : ∃ a : Argument, a = if l.length = 0 then
          .basic (BasicArgument.new T f s d r dv)
          else .choice (ChoiceArgument.new T f s d r dv l) := ⟨_, rfl⟩
      rw [← ha]
      obtain ⟨hp₁, hp₂, hp₃, -, hp₅, -, hp₇⟩ := newArgument_props T f s d r dv l a ha
      have hfresh : ∀ e ∈ p.fullArguments, e.1 ≠ f := (Map.find_eq_none_iff f _).1 hf
      have hshort : ∀ s' g, p.shortToFull.find s' = some g →
          (if ¬ s = [] then p.shortToFull ++ [(s, f)] else p.shortToFull).find s' = some g := by
        intro s' g hg
        by_cases hs' : s = []
        · simpa [hs'] using hg
        · simp only [hs', not_false_eq_true, if_true]
          rw [Map.find_append_of_isSome _ _ _ (by simp [hg]), hg]
      refine ⟨?_, ?_, ?_, ?_⟩
      · exact List.pairwise_append.2 ⟨h.keys, List.pairwise_singleton _ _,
          fun x hx y hy => by
            rw [List.mem_singleton.1 hy]
            exact hfresh x hx⟩
      · intro it hit
        rcases List.mem_append.1 hit with hit | hit
        · show (p.fullArguments ++ [(f, a)]).find it.1 = some it.2
          rw [Map.find_append_of_isSome _ _ _ (by simp [h.found it hit]), h.found it hit]
        · rw [List.mem_singleton.1 hit]
          show (p.fullArguments ++ [(f, a)]).find f = some a
          rw [Map.find_append_of_none _ _ _ hf]
          simp [Map.find]
      · intro it hit
        rcases List.mem_append.1 hit with hit | hit
        · obtain ⟨h₁, h₂, h₃, h₄⟩ := h.entry it hit
          exact ⟨h₁, h₂, h₃, fun hne => hshort _ _ (h₄ hne)⟩
        · rw [List.mem_singleton.1 hit]
          refine ⟨hp₁, hp₃, fun hd => (hp₇ hd).trans hp₅.symm, fun hne => ?_⟩
          rw [hp₂] at hne ⊢
          have hnone : p.shortToFull.find s = none := by
            by_contra hcon
            exact hs ⟨hne, hcon⟩
          simp only [hne, not_false_eq_true, if_true]
          rw [Map.find_append_of_none _ _ _ hnone]
          simp [Map.find]
      · intro s' g hg
        have key : ∀ g', p.fullArguments.find g' ≠ none ∨ g' = f →
            ∃ a', (p.fullArguments ++ [(f, a)]).find g' = some a' ∧
              (p.fullArguments.find g' = some a' ∨ (g' = f ∧ a' = a)) := by
          intro g' hg'
          cases hfg : p.fullArguments.find g' with
          | some a' =>
            exact ⟨a', by rw [Map.find_append_of_isSome _ _ _ (by simp [hfg]), hfg], Or.inl rfl⟩
          | none =>
            rcases hg' with hg' | hg'
            · exact absurd hfg hg'
            · subst hg'
              exact ⟨a, by rw [Map.find_append_of_none _ _ _ hfg]; simp [Map.find],
                Or.inr ⟨rfl, rfl⟩⟩
        cases hold : p.shortToFull.find s' with
        | some g₀ =>
          have := hshort s' g₀ hold
          simp only [this.symm.trans hg |> Option.some.inj] at *
          obtain ⟨hne, a₀, ha₀, hsn⟩ := h.short s' g hold
          exact ⟨hne, a₀, by
            show (p.fullArguments ++ [(f, a)]).find g = some a₀
            rw [Map.find_append_of_isSome _ _ _ (by simp [ha₀]), ha₀], hsn⟩
        | none =>
          by_cases hs' : s = []
          · simp only [hs', not_true_eq_false, if_false] at hg
            rw [hold] at hg
            cases hg
          · simp only [hs', not_false_eq_true, if_true] at hg
            rw [Map.find_append_of_none _ _ _ hold] at hg
            by_cases hss : s = s'
            · subst hss
              simp only [Map.find, if_true, Option.some.injEq] at hg
              subst hg
              refine ⟨hs', a, ?_, hp₂⟩
              show (p.fullArguments ++ [(f, a)]).find f = some a
              rw [Map.find_append_of_none _ _ _ hf]
              simp [Map.find]
            · simp [Map.find, hss] at hg

theorem Reachable.wf {p : Parser} (h : p.Reachable) : p.WF := by
  induction h with
  | new => exact WF_new
  | add p T f s d r dv l _ ih => exact WF_Add ih T f s d r dv l

/-- C3 (uniqueness).  In a registry built by calls of `Add`, a further `Add`
whose full name is the full name of a registered argument throws
`DuplicateDefinition` for that name, and one whose short name is not empty and
is the short name of a registered argument throws `DuplicateDefinition` (for
the full name when that is registered too, for the short name otherwise),
whatever the types and the other parameters; the registry is left as it was.
Hence no two registered arguments share a full name, and no two share a short
name that is not empty. -/
theorem C3_uniqueness (p : Parser) (hp : p.Reachable) (T : Ty) (f s d : Str) (r : Bool)
    (dv : Value) (l : List Value) :
    ((∃ it ∈ p.fullArguments, it.2.FullName = f) →
      p.Add T f s d r dv l = (p, .thrown (.DuplicateDefinition f))) ∧
    (s ≠ [] → (∃ it ∈ p.fullArguments, it.2.ShortName = s) →
      p.Add T f s d r dv l = (p, .thrown (.DuplicateDefinition f)) ∨
        p.Add T f s d r dv l = (p, .thrown (.DuplicateDefinition s))) ∧
    p.fullArguments.Pairwise (fun x y =>
      x.2.FullName ≠ y.2.FullName ∧ (x.2.ShortName ≠ [] → x.2.ShortName ≠ y.2.ShortName)) := by
  have hwf := hp.wf
  refine ⟨?_, ?_, ?_⟩
  · rintro ⟨it, hit, rfl⟩
    have hfind : p.fullArguments.find it.2.FullName ≠ none := by
      rw [(hwf.entry it hit).1, hwf.found it hit]
      simp
    rw [Add_eq, if_pos hfind]
  · rintro hs ⟨it, hit, rfl⟩
    have hfind : p.shortToFull.find it.2.ShortName ≠ none := by
      rw [(hwf.entry it hit).2.2.2 hs]
      simp
    rw [Add_eq]
    by_cases hf : p.fullArguments.find f ≠ none
    · exact Or.inl (by rw [if_pos hf])
    · exact Or.inr (by rw [if_neg hf, if_pos ⟨hs, hfind⟩])
  · refine hwf.keys.imp_of_mem ?_
    intro x y hx hy hxy
    obtain ⟨hx₁, -, -, hx₄⟩ := hwf.entry x hx
    obtain ⟨hy₁, -, -, hy₄⟩ := hwf.entry y hy
    refine ⟨by rw [hx₁, hy₁]; exact hxy, fun hne heq => ?_⟩
    have h₁ := hx₄ hne
    have h₂ := hy₄ (heq ▸ hne)
    rw [heq, h₂] at h₁
    exact hxy (Option.some.inj h₁).symm

theorem Built.reachable {p : Parser} (h : p.Built) : p.Reachable := by
  induction h with
  | new => exact Reachable.new
  | add p T f s d r dv l _ _ _ _ ih => exact Reachable.add p T f s d r dv l ih

/-- In a registry built with the prefixes, the keys start with `--` and the
short names that are not empty start with `-` and not with `--`. -/
theorem Built.prefixes {p : Parser} (h : p.Built) :
    ∀ it ∈ p.fullArguments, ['-', '-'] <+: it.1 ∧
      (it.2.ShortName = [] ∨ (['-'] <+: it.2.ShortName ∧ ¬ ['-', '-'] <+: it.2.ShortName)) := by
  induction h with
  | new =>
    intro it hit
    cases hit
  | add p T f s d r dv l _ hf hs hret ih =>
    rw [Add_eq] at hret ⊢
    by_cases h₁ : p.fullArguments.find f ≠ none
    · rw [if_pos h₁] at hret
      cases hret
    · rw [if_neg h₁] at hret ⊢
      by_cases h₂ : s ≠ [] ∧ p.shortToFull.find s ≠ none
      · rw [if_pos h₂] at hret
        cases hret
      · rw [if_neg h₂]
        intro it hit
        rcases List.mem_append.1 hit with hit | hit
        · exact ih it hit
        · rw [List.mem_singleton.1 hit]
          refine ⟨hf, ?_⟩
          rw [(newArgument_props T f s d r dv l _ rfl).2.1]
          exact hs

theorem Argument.convert_ok {a : Argument} {str : Str} {v : Value} (h : a.convert str = .ok v) :
    CastFromString a.base.T str = .ok v := by
  cases a with
  | basic b => exact h
  | choice c =>
    simp only [Argument.convert, ChoiceCaster.call] at h
    show CastFromString c.T str = .ok v
    cases hc : CastFromString c.T str with
    | error e => simp [hc] at h
    | ok w =>
      simp only [hc] at h
      by_cases hcount : ChoiceCaster.count c.choiceCaster.choiceList w = 0
      · simp [hcount] at h
      · simp only [hcount, if_false] at h
        exact h

/-- In a registry built with the prefixes, a token of a successful pass carries
the name of an argument exactly when it names the argument. -/
theorem names_iff_namedBy {p p' : Parser} (hwf : p.WF)
    (hpre : ∀ it ∈ p.fullArguments, ['-', '-'] <+: it.1 ∧
      (it.2.ShortName = [] ∨ (['-'] <+: it.2.ShortName ∧ ¬ ['-', '-'] <+: it.2.ShortName)))
    {toks : List Str} (ht : Parse.tokens p toks = (p', .returned ()))
    {f : Str} {a : Argument} (ha : (f, a) ∈ p.fullArguments) {tok : Str} (htok : tok ∈ toks) :
    a.NamedBy tok ↔ p.Names tok f := by
  obtain ⟨g, hg, hgf⟩ := Parse.tokens_all_named toks p p' ht tok htok
  obtain ⟨hfull, -, -, hshort⟩ := hwf.entry (f, a) ha
  constructor
  · rintro (hn | ⟨hne, hn⟩)
    · refine ⟨hg.1, Or.inl ⟨?_, hn.trans hfull⟩⟩
      rw [hn, hfull]
      exact (hpre (f, a) ha).1.isInfix
    · rcases hg with ⟨he, ⟨h₁, h₂⟩ | ⟨h₁, h₂, h₃⟩⟩
      · exfalso
        obtain ⟨b, hb⟩ := Option.ne_none_iff_exists'.1 hgf
        have hmem := Map.mem_of_find g b _ hb
        have hg₂ := (hpre (g, b) hmem).1
        rcases (hpre (f, a) ha).2 with h₄ | ⟨-, h₄⟩
        · exact hne h₄
        · rw [← h₂, hn] at hg₂
          exact h₄ hg₂
      · refine ⟨he, Or.inr ⟨h₁, h₂, ?_⟩⟩
        rw [hn]
        exact hshort hne
  · rintro ⟨-, ⟨-, h₂⟩ | ⟨-, -, h₃⟩⟩
    · exact Or.inl (h₂.trans hfull.symm)
    · obtain ⟨hne, a', ha', hsn⟩ := hwf.short _ _ h₃
      have := hwf.found (f, a) ha
      rw [ha'] at this
      cases this
      exact Or.inr ⟨hsn ▸ hne, hsn.symm⟩

/-- C1 (values after a successful parse).  In a registry built by successful
calls of `Add` with the prefixes `--` and `-`, after a call of `Parse` that
returned, `Get` by the full name of a registered argument returns the value
converted from the value part of the token that carries the argument's full or
short name, and, when no token does, the default value the argument was
registered with. -/
theorem C1_get_after_parse (p : Parser) (hb : p.Built) (argv : List Str) (p' : Parser)
    (h : p.Parse argv = (p', .returned ())) (f : Str) (a : Argument)
    (ha : (f, a) ∈ p.fullArguments) :
    (∀ tok ∈ argv.tail, a.NamedBy tok →
      ∃ v, CastFromString a.base.T (valuePart tok) = .ok v ∧
        p'.Get a.base.T f = .returned v) ∧
    ((∀ tok ∈ argv.tail, ¬ a.NamedBy tok) →
      a.base.hasDefault_ = true ∧ p'.Get a.base.T f = .returned a.base.defaultValue_) := by
  have hwf := hb.reachable.wf
  have hpre := hb.prefixes
  obtain ⟨prog, toks, rfl, ht, hc⟩ := Parse_returned h
  have hwf₀ : ({ p with progName := prog } : Parser).WF := ⟨hwf.keys, hwf.found, hwf.entry, hwf.short⟩
  have hlong : Str.find f ['-', '-'] 0 ≠ none :=
    (Str.find_ne_none_iff f _).2 (hpre (f, a) ha).1.isInfix
  have hfind : p.fullArguments.find f = some a := hwf.found (f, a) ha
  have hget : ∀ b, p'.fullArguments.find f = some b → b.base.T = a.base.T →
      p'.Get a.base.T f = .returned b.ActualValue := by
    intro b hb₁ hb₂
    simp only [Get, GetWithFullName, hb₁, hb₂]
    rw [if_pos hlong]
    simp
  refine ⟨fun tok htok hn => ?_, fun hn => ?_⟩
  · have hnames := (names_iff_namedBy hwf₀ hpre ht ha htok).1 hn
    obtain ⟨a₀, v, ha₀, -, hconv, hfin⟩ := Parse.tokens_of_named toks _ p' ht f tok htok hnames
    have : a₀ = a := Option.some.inj (ha₀.symm.trans hfind)
    subst this
    refine ⟨v, Argument.convert_ok hconv, ?_⟩
    rw [hget _ hfin (Argument.store_T a₀ v), Argument.store_value]
  · have hfin := Parse.tokens_of_not_named toks _ p' ht f
      (fun t ht' hnt => hn t ht' ((names_iff_namedBy hwf₀ hpre ht ha ht').2 hnt))
    have hfin' : p'.fullArguments.find f = some a := hfin.trans hfind
    obtain ⟨-, hs, hd, -⟩ := hwf.entry (f, a) ha
    have hdef : a.base.hasDefault_ = true := by
      rcases Parse.check_returned _ hc _ (Map.mem_of_find f a _ hfin') with h' | h'
      · rw [hs] at h'
        cases h'
      · exact h'
    exact ⟨hdef, by rw [hget a hfin' rfl, hd hdef]⟩

/-! ## The registry of `test.cpp` -/

theorem testParser_built : testParser.Built := by
  unfold testParser
  refine Built.add _ _ _ _ _ _ _ _ (Built.add _ _ _ _ _ _ _ _ (Built.add _ _ _ _ _ _ _ _
    (Built.add _ _ _ _ _ _ _ _ Built.new ?_ ?_ ?_) ?_ ?_ ?_) ?_ ?_ ?_) ?_ ?_ ?_ <;> decide

theorem argvAll_returned : (testParser.Parse argvAll).2 = .returned () := by decide

/-- With all four arguments on the command line, `Get` for `--intArg` returns
the value converted from the token `-i=5`. -/
theorem C1_get_after_parse_witness :
    ∃ v, CastFromString (.sint .int) ['5'] = .ok v ∧
      (testParser.Parse argvAll).1.Get (.sint .int) "--intArg".toList = .returned v :=
  (C1_get_after_parse testParser testParser_built argvAll _ (Prod.ext rfl argvAll_returned)
    "--intArg".toList intArg (by decide)).1 "-i=5".toList (by decide) (by decide)

/-- After the first scenario every argument is set or has a default; with the
token `-i=5` alone `Parse` throws, `--stringArg` having no default. -/
theorem C2_completeness_witness :
    (∀ it ∈ (testParser.Parse argvAll).1.fullArguments,
      it.2.Setted = true ∨ it.2.base.hasDefault_ = true) ∧
    ∃ e, (testParser.Parse ["prog".toList, "-i=5".toList]).2 = .thrown e :=
  ⟨(C2_completeness testParser argvAll).1 _ (Prod.ext rfl argvAll_returned),
    ((C2_completeness testParser ["prog".toList, "-i=5".toList]).2 "--stringArg".toList
      (.basic (BasicArgument.new .string "--stringArg".toList "-s".toList
        "this is a string argument".toList true (Ty.zero .string)))
      (by decide) (by decide) (by decide) (by decide)).2 (by decide)⟩

/-- In the registry of `test.cpp`, a further `Add` of `--intArg`, and one with
the short name `-s`, throw `DuplicateDefinition`. -/
theorem C3_uniqueness_witness :
    testParser.Add .bool "--intArg".toList [] [] false (.bool false) []
      = (testParser, .thrown (.DuplicateDefinition "--intArg".toList)) ∧
    (testParser.Add .bool "--other".toList "-s".toList [] false (.bool false) []
        = (testParser, .thrown (.DuplicateDefinition "--other".toList)) ∨
      testParser.Add .bool "--other".toList "-s".toList [] false (.bool false) []
        = (testParser, .thrown (.DuplicateDefinition "-s".toList))) :=
  ⟨(C3_uniqueness testParser testParser_built.reachable .bool "--intArg".toList [] [] false
      (.bool false) []).1 ⟨("--intArg".toList, intArg), by decide, by decide⟩,
    (C3_uniqueness testParser testParser_built.reachable .bool "--other".toList "-s".toList []
      false (.bool false) []).2.1 (by decide)
      ⟨("--stringArg".toList, .basic (BasicArgument.new .string "--stringArg".toList "-s".toList
        "this is a string argument".toList true (Ty.zero .string))), by decide, by decide⟩⟩

end Parser

end cmd

/-! ## The choice validator -/

namespace cmd

namespace detail

theorem Flt.scaled_eq_iff (m₁ m₂ : Nat) (e₁ e₂ : Int) :
    m₁ * 2 ^ (e₁ - min e₁ e₂).toNat = m₂ * 2 ^ (e₂ - min e₁ e₂).toNat ↔
      (m₁ : ℚ) * 2 ^ e₁ = (m₂ : ℚ) * 2 ^ e₂ := by
  have h₁ : e₁ = min e₁ e₂ + ((e₁ - min e₁ e₂).toNat : Int) := by
    rw [Int.toNat_of_nonneg (by have := min_le_left e₁ e₂; omega)]
    ring
  have h₂ : e₂ = min e₁ e₂ + ((e₂ - min e₁ e₂).toNat : Int) := by
    rw [Int.toNat_of_nonneg (by have := min_le_right e₁ e₂; omega)]
    ring
  generalize (e₁ - min e₁ e₂).toNat = k₁ at h₁ ⊢
  generalize (e₂ - min e₁ e₂).toNat = k₂ at h₂ ⊢
  generalize min e₁ e₂ = lo at h₁ h₂
  subst h₁ h₂
  have h2 : (2 : ℚ) ≠ 0 := by norm_num
  rw [zpow_add₀ h2, zpow_add₀ h2, zpow_natCast, zpow_natCast]
  have hlo : (2 : ℚ) ^ lo ≠ 0 := zpow_ne_zero _ h2
  constructor
  · intro h
    have : ((m₁ * 2 ^ k₁ : Nat) : ℚ) = ((m₂ * 2 ^ k₂ : Nat) : ℚ) := by rw [h]
    push_cast at this
    calc (m₁ : ℚ) * (2 ^ lo * 2 ^ k₁) = 2 ^ lo * ((m₁ : ℚ) * 2 ^ k₁) := by ring
      _ = 2 ^ lo * ((m₂ : ℚ) * 2 ^ k₂) := by rw [this]
      _ = (m₂ : ℚ) * (2 ^ lo * 2 ^ k₂) := by ring
  · intro h
    have h' : (2 : ℚ) ^ lo * ((m₁ : ℚ) * 2 ^ k₁) = 2 ^ lo * ((m₂ : ℚ) * 2 ^ k₂) := by
      calc (2 : ℚ) ^ lo * ((m₁ : ℚ) * 2 ^ k₁) = (m₁ : ℚ) * (2 ^ lo * 2 ^ k₁) := by ring
        _ = (m₂ : ℚ) * (2 ^ lo * 2 ^ k₂) := h
        _ = 2 ^ lo * ((m₂ : ℚ) * 2 ^ k₂) := by ring
    have := mul_left_cancel₀ hlo h'
    exact_mod_cast this

theorem Flt.eq_finite_iff (n₁ n₂ : Bool) (m₁ m₂ : Nat) (e₁ e₂ : Int) :
    Flt.eq (.finite n₁ m₁ e₁) (.finite n₂ m₂ e₂) = true ↔
      (m₁ = 0 ∧ m₂ = 0) ∨ (n₁ = n₂ ∧ (m₁ : ℚ) * 2 ^ e₁ = (m₂ : ℚ) * 2 ^ e₂) := by
  simp only [Flt.eq, decide_eq_true_eq, Flt.scaled_eq_iff]

theorem Flt.eq_transitive {a b c : Flt} (hab : Flt.eq a b = true) (hbc : Flt.eq b c = true) :
    Flt.eq a c = true := by
  cases a with
  | nan _ => simp [Flt.eq] at hab
  | inf n₁ =>
    cases b with
    | inf n₂ =>
      cases c with
      | inf n₃ =>
        simp only [Flt.eq, decide_eq_true_eq] at hab hbc ⊢
        exact hab.trans hbc
      | _ => simp [Flt.eq] at hbc
    | _ => simp [Flt.eq] at hab
  | finite n₁ m₁ e₁ =>
    cases b with
    | finite n₂ m₂ e₂ =>
      cases c with
      | finite n₃ m₃ e₃ =>
        rw [Flt.eq_finite_iff] at hab hbc ⊢
        have h2 : ∀ e : Int, (2 : ℚ) ^ e ≠ 0 := fun e => zpow_ne_zero _ (by norm_num)
        rcases hab with ⟨h₁, h₂⟩ | ⟨h₁, h₂⟩ <;> rcases hbc with ⟨h₃, h₄⟩ | ⟨h₃, h₄⟩
        · exact Or.inl ⟨h₁, h₄⟩
        · refine Or.inl ⟨h₁, ?_⟩
          rw [h₂] at h₄
          simp only [Nat.cast_zero, zero_mul] at h₄
          have := (mul_eq_zero.1 h₄.symm).resolve_right (h2 e₃)
          exact_mod_cast this
        · refine Or.inl ⟨?_, h₄⟩
          rw [h₃] at h₂
          simp only [Nat.cast_zero, zero_mul] at h₂
          have := (mul_eq_zero.1 h₂).resolve_right (h2 e₁)
          exact_mod_cast this
        · exact Or.inr ⟨h₁.trans h₃, h₂.trans h₄⟩
      | _ => simp [Flt.eq] at hbc
    | _ => simp [Flt.eq] at hab

theorem Value.eq_trans {a b c : Value} (hab : Value.eq a b = true) (hbc : Value.eq b c = true) :
    Value.eq a c = true := by
  cases a with
  | flt k₁ x =>
    cases b with
    | flt k₂ y =>
      cases c with
      | flt k₃ z =>
        simp only [Value.eq, Bool.decide_and, Bool.decide_eq_true, Bool.and_eq_true,
          decide_eq_true_eq] at hab hbc ⊢
        exact ⟨hab.1.trans hbc.1, Flt.eq_transitive hab.2 hbc.2⟩
      | _ => simp [Value.eq] at hbc
    | _ => simp [Value.eq] at hab
  | _ =>
    simp only [Value.eq, decide_eq_true_eq] at hab
    subst hab
    exact hbc

end detail

end cmd

namespace cmd

namespace detail

theorem ChoiceCaster.count_eq_zero_iff (cl : List Value) (v : Value) :
    ChoiceCaster.count cl v = 0 ↔ ∀ x ∈ cl, Value.eq x v = false := by
  unfold ChoiceCaster.count
  by_cases h : cl.any (fun x => Value.eq x v) = true
  · simp only [h, if_true, one_ne_zero, false_iff]
    intro hall
    obtain ⟨x, hx, hxv⟩ := List.any_eq_true.1 h
    rw [hall x hx] at hxv
    cases hxv
  · have h' : cl.any (fun x => Value.eq x v) = false := by simpa using h
    rw [h']
    refine ⟨fun _ x hx => ?_, fun _ => rfl⟩
    by_contra hcon
    exact h (List.any_eq_true.2 ⟨x, hx, by simpa using hcon⟩)

theorem ChoiceCaster.mem_emplace (cl : List Value) (x y : Value) :
    y ∈ ChoiceCaster.emplace cl x ↔ y ∈ cl ∨ (y = x ∧ ChoiceCaster.count cl x = 0) := by
  unfold ChoiceCaster.emplace
  by_cases h : ChoiceCaster.count cl x = 0
  · simp [h]
  · simp [h]

/-- A value equals a member of the set built by `emplace` exactly when it
equals a member of the list the set was built from. -/
theorem ChoiceCaster.exists_foldl_emplace (v : Value) :
    ∀ (L acc : List Value),
      (∃ y ∈ L.foldl ChoiceCaster.emplace acc, Value.eq y v = true) ↔
        (∃ y ∈ acc, Value.eq y v = true) ∨ ∃ x ∈ L, Value.eq x v = true
  | [], acc => by simp
  | x :: L, acc => by
    rw [List.foldl_cons, ChoiceCaster.exists_foldl_emplace v L]
    constructor
    · rintro (⟨y, hy, hyv⟩ | ⟨y, hy, hyv⟩)
      · rcases (ChoiceCaster.mem_emplace acc x y).1 hy with hy | ⟨rfl, -⟩
        · exact Or.inl ⟨y, hy, hyv⟩
        · exact Or.inr ⟨y, List.mem_cons_self _ _, hyv⟩
      · exact Or.inr ⟨y, List.mem_cons_of_mem _ hy, hyv⟩
    · rintro (⟨y, hy, hyv⟩ | ⟨y, hy, hyv⟩)
      · exact Or.inl ⟨y, (ChoiceCaster.mem_emplace acc x y).2 (Or.inl hy), hyv⟩
      · rcases List.mem_cons.1 hy with rfl | hy
        · by_cases hc : ChoiceCaster.count acc y = 0
          · exact Or.inl ⟨y, (ChoiceCaster.mem_emplace acc y y).2 (Or.inr ⟨rfl, hc⟩), hyv⟩
          · have : ∃ z ∈ acc, Value.eq z y = true := by
              by_contra hcon
              refine hc ((ChoiceCaster.count_eq_zero_iff acc y).2 fun z hz => ?_)
              by_contra hz'
              exact hcon ⟨z, hz, by simpa using hz'⟩
            obtain ⟨z, hz, hzy⟩ := this
            exact Or.inl ⟨z, (ChoiceCaster.mem_emplace acc y z).2 (Or.inl hz),
              Value.eq_trans hzy hyv⟩
        · exact Or.inr ⟨y, hy, hyv⟩

theorem ChoiceCaster.count_new (L : List Value) (v : Value) :
    ChoiceCaster.count (ChoiceCaster.new L).choiceList v = 0 ↔ ∀ x ∈ L, Value.eq x v = false := by
  rw [ChoiceCaster.count_eq_zero_iff]
  have h := ChoiceCaster.exists_foldl_emplace v L []
  simp only [List.not_mem_nil, false_and, exists_false, false_or] at h
  constructor
  · intro hall x hx
    by_contra hcon
    obtain ⟨y, hy, hyv⟩ := h.2 ⟨x, hx, by simpa using hcon⟩
    rw [hall y hy] at hyv
    cases hyv
  · intro hall y hy
    by_contra hcon
    obtain ⟨x, hx, hxv⟩ := h.1 ⟨y, hy, by simpa using hcon⟩
    rw [hall x hx] at hxv
    cases hxv

/-- The text the constructor of `ChoiceCaster` writes between the brackets:
the members through `CastToString`, in the order of the list, joined by
`", "`. -/
theorem ChoiceCaster.render_eq :
    ∀ L : List Value, ChoiceCaster.render L = List.intercalate [',', ' '] (L.map CastToString)
  | [] => rfl
  | [v] => by simp [ChoiceCaster.render, List.intercalate]
  | v :: w :: L => by
    have ih := ChoiceCaster.render_eq (w :: L)
    simp only [ChoiceCaster.render, List.map_cons, List.intercalate, List.intersperse,
      List.flatten, List.append_assoc] at ih ⊢
    rw [ih]

/-- C5 (choice closure).  For a choice argument whose caster was built from
the list `L`: a text that converts to a value equal to no member of `L` makes
`Read` throw `ChoiceViolation` and leaves the argument as it was (unset, if it
was unset); the message holds the rendering of `L`, that is the members through
`CastToString` in the order of `L`, joined by `", "`, between `[` and `]`; and
an argument that is set after `Read` holds a value equal to a member of `L`,
if that was so before. -/
theorem C5_choice_closure (a : ChoiceArgument) (L : List Value) (n : Str)
    (hc : a.choiceCaster = { ChoiceCaster.new L with fullName := n }) (str : Str) :
    (∀ v, CastFromString a.T str = .ok v → (∀ x ∈ L, Value.eq x v = false) →
      a.Read str = (a, .thrown (.ChoiceViolation n
        (['['] ++ List.intercalate [',', ' '] (L.map CastToString) ++ [']']) str)) ∧
      (['['] ++ List.intercalate [',', ' '] (L.map CastToString) ++ [']']) <:+:
        (CMDError.ChoiceViolation n
          (['['] ++ List.intercalate [',', ' '] (L.map CastToString) ++ [']']) str).what) ∧
    ((a.setted_ = true → ∃ x ∈ L, Value.eq x a.actualValue_ = true) →
      (a.Read str).1.setted_ = true → ∃ x ∈ L, Value.eq x (a.Read str).1.actualValue_ = true) := by
  have hlist : a.choiceCaster.choiceList = (ChoiceCaster.new L).choiceList := by rw [hc]
  have hname : a.choiceCaster.fullName = n := by rw [hc]
  have hdesc : a.choiceCaster.description
      = ['['] ++ List.intercalate [',', ' '] (L.map CastToString) ++ [']'] := by
    rw [hc, ← ChoiceCaster.render_eq]
    rfl
  refine ⟨fun v hv hnot => ⟨?_, ?_⟩, fun hinv hset => ?_⟩
  · have hcount := (ChoiceCaster.count_new L v).2 hnot
    rw [← hlist] at hcount
    simp only [ChoiceArgument.Read, ChoiceCaster.call, hv, hcount, if_true, hname, hdesc]
  · exact ⟨"CmdLine Error: ".toList ++ "Argument: ".toList ++ n ++ " should be in ".toList,
      ", got ".toList ++ str ++ " indeed".toList, by simp [CMDError.what]⟩
  · cases hcast : CastFromString a.T str with
    | error e =>
      simp only [ChoiceArgument.Read, ChoiceCaster.call, hcast] at hset ⊢
      exact hinv hset
    | ok v =>
      by_cases hcount : ChoiceCaster.count a.choiceCaster.choiceList v = 0
      · simp only [ChoiceArgument.Read, ChoiceCaster.call, hcast, hcount, if_true] at hset ⊢
        exact hinv hset
      · simp only [ChoiceArgument.Read, ChoiceCaster.call, hcast, hcount, if_false]
        rw [hlist, ChoiceCaster.count_new] at hcount
        by_contra hcon
        refine hcount fun x hx => ?_
        by_contra hx'
        exact hcon ⟨x, hx, by simpa using hx'⟩

/-- The argument `--floatArg` of `test.cpp`, with the choices 0.1, 0.01 and
0.001, throws `ChoiceViolation` on the text `0.5` and stays as it was. -/
theorem C5_choice_closure_witness :
    (ChoiceArgument.new (.flt .float) "--floatArg".toList "-f".toList [] false float_0_1
        [float_0_1, float_0_01, float_0_001]).Read "0.5".toList
      = (ChoiceArgument.new (.flt .float) "--floatArg".toList "-f".toList [] false float_0_1
          [float_0_1, float_0_01, float_0_001],
        .thrown (.ChoiceViolation "--floatArg".toList
          (['['] ++ List.intercalate [',', ' ']
            ([float_0_1, float_0_01, float_0_001].map CastToString) ++ [']']) "0.5".toList)) :=
  ((C5_choice_closure
    (ChoiceArgument.new (.flt .float) "--floatArg".toList "-f".toList [] false float_0_1
      [float_0_1, float_0_01, float_0_001])
    [float_0_1, float_0_01, float_0_001] "--floatArg".toList rfl "0.5".toList).1
    (.flt .float (.finite false 8388608 (-24))) (by decide) (by decide)).1

end detail

end cmd

/-! ## The value caster: integers, booleans and text -/

namespace cmd

namespace detail

theorem digitChar_isDigit (k : Nat) (h : k < 10) :
    isDigit (Nat.digitChar k) = true ∧ (Nat.digitChar k).toNat - 48 = k ∧
      isSpace (Nat.digitChar k) = false ∧ Nat.digitChar k ≠ '-' ∧ Nat.digitChar k ≠ '+' := by
  interval_cases k <;> decide

theorem decimalValue_append (l : Str) (c : Char) :
    decimalValue (l ++ [c]) = 10 * decimalValue l + (c.toNat - 48) := by
  simp [decimalValue, List.foldl_append]

/-- The digits that `Nat.toDigits` puts in front of `ds`: there is one at
least, all are decimal digits, and their value is the number. -/
theorem toDigitsCore_spec :
    ∀ (fuel n : Nat) (ds : Str), n < fuel →
      ∃ l : Str, Nat.toDigitsCore 10 fuel n ds = l ++ ds ∧ l ≠ [] ∧
        (∀ c ∈ l, isDigit c = true) ∧ decimalValue l = n
  | 0, _, _, h => by omega
  | fuel + 1, n, ds, h => by
    have hd := digitChar_isDigit (n % 10) (Nat.mod_lt _ (by norm_num))
    by_cases h0 : n / 10 = 0
    · refine ⟨[Nat.digitChar (n % 10)], by simp [Nat.toDigitsCore, h0], by simp, ?_, ?_⟩
      · intro c hc
        rw [List.mem_singleton.1 hc]
        exact hd.1
      · have hn : n % 10 = n := Nat.mod_eq_of_lt (by omega)
        have hv : decimalValue [Nat.digitChar (n % 10)] = (Nat.digitChar (n % 10)).toNat - 48 := by
          simp [decimalValue]
        rw [hv, hd.2.1, hn]
    · obtain ⟨l, hl, -, hdig, hval⟩ := toDigitsCore_spec fuel (n / 10)
        (Nat.digitChar (n % 10) :: ds) (by omega)
      refine ⟨l ++ [Nat.digitChar (n % 10)], by simp [Nat.toDigitsCore, h0, hl], by simp, ?_, ?_⟩
      · intro c hc
        rcases List.mem_append.1 hc with hc | hc
        · exact hdig c hc
        · rw [List.mem_singleton.1 hc]
          exact hd.1
      · rw [decimalValue_append, hval, hd.2.1]
        omega

theorem toDigits_spec (n : Nat) :
    Nat.toDigits 10 n ≠ [] ∧ (∀ c ∈ Nat.toDigits 10 n, isDigit c = true) ∧
      decimalValue (Nat.toDigits 10 n) = n := by
  obtain ⟨l, hl, hne, hdig, hval⟩ := toDigitsCore_spec (n + 1) n [] (by omega)
  rw [List.append_nil] at hl
  rw [Nat.toDigits, hl]
  exact ⟨hne, hdig, hval⟩

theorem isDigit_not_special {c : Char} (h : isDigit c = true) :
    isSpace c = false ∧ c ≠ '-' ∧ c ≠ '+' := by
  simp only [isDigit, Bool.decide_and, Bool.and_eq_true, decide_eq_true_eq] at h
  obtain ⟨h₁, h₂⟩ := h
  have h₁' : 48 ≤ c.toNat := h₁
  refine ⟨?_, ?_, ?_⟩
  · simp only [isSpace, Bool.decide_or, Bool.or_eq_false_iff, decide_eq_false_iff_not]
    refine ⟨?_, ?_, ?_, ?_, ?_, ?_⟩ <;>
      · intro hc
        rw [hc] at h₁'
        revert h₁'
        decide
  · rintro rfl
    revert h₁'
    decide
  · rintro rfl
    revert h₁'
    decide

theorem takeWhile_all {p : Char → Bool} :
    ∀ (l r : Str), (∀ c ∈ l, p c = true) → (r = [] ∨ ∃ c r', r = c :: r' ∧ p c = false) →
      (l ++ r).takeWhile p = l ∧ (l ++ r).dropWhile p = r
  | [], r, _, hr => by
    rcases hr with rfl | ⟨c, r', rfl, hc⟩
    · simp
    · simp [List.takeWhile, List.dropWhile, hc]
  | x :: l, r, hl, hr => by
    have hx : p x = true := hl x (List.mem_cons_self _ _)
    obtain ⟨h₁, h₂⟩ := takeWhile_all l r (fun c hc => hl c (List.mem_cons_of_mem _ hc)) hr
    simp [List.takeWhile, List.dropWhile, hx, h₁, h₂]

theorem takeSign_of_digit {c : Char} (cs : Str) (h : isDigit c = true) :
    takeSign (c :: cs) = (false, c :: cs) := by
  obtain ⟨-, h₁, h₂⟩ := isDigit_not_special h
  unfold takeSign
  split
  · rename_i heq
    cases heq
    exact absurd rfl h₁
  · rename_i heq
    cases heq
    exact absurd rfl h₂
  · rfl

/-- Extraction of an integer from a text made of an optional minus sign and
digits only. -/
theorem extractInteger_digits (signed : Bool) (bits : Nat) (neg : Bool) (ds : Str)
    (hne : ds ≠ []) (hdig : ∀ c ∈ ds, isDigit c = true) :
    extractInteger signed bits ((if neg then ['-'] else []) ++ ds) =
      if (if signed then (if neg then 2 ^ (bits - 1) else 2 ^ (bits - 1) - 1) else 2 ^ bits - 1)
          < decimalValue ds then ⟨none, true⟩
      else if neg then
        ⟨some (if signed then -(decimalValue ds : Int)
          else ((2 ^ bits - decimalValue ds) % 2 ^ bits : Nat)), true⟩
      else ⟨some (decimalValue ds), true⟩ := by
  obtain ⟨c, cs, rfl⟩ := List.exists_cons_of_ne_nil hne
  have hc : isDigit c = true := hdig c (List.mem_cons_self _ _)
  have hsp : isSpace c = false := (isDigit_not_special hc).1
  obtain ⟨htw, hdw⟩ := takeWhile_all (c :: cs) [] hdig (Or.inl rfl)
  rw [List.append_nil] at htw hdw
  cases neg with
  | true =>
    have h₁ : List.dropWhile isSpace ('-' :: c :: cs) = '-' :: c :: cs := by
      simp [List.dropWhile, show isSpace '-' = false by decide]
    show extractInteger signed bits ('-' :: c :: cs) = _
    unfold extractInteger
    simp only [h₁, takeSign, htw, hdw]
    simp
  | false =>
    have h₁ : List.dropWhile isSpace (c :: cs) = c :: cs := by
      simp [List.dropWhile, hsp]
    show extractInteger signed bits (c :: cs) = _
    unfold extractInteger
    simp only [h₁, takeSign_of_digit cs hc, htw, hdw]
    simp

theorem formatInteger_eq (i : Int) :
    formatInteger i = (if decide (i < 0) then ['-'] else []) ++ Nat.toDigits 10 i.natAbs := by
  unfold formatInteger
  by_cases h : i < 0 <;> simp [h]

theorem extractInteger_formatInteger_signed (bits : Nat) (i : Int)
    (hlo : -(2 ^ (bits - 1) : Int) ≤ i) (hhi : i < (2 ^ (bits - 1) : Int)) :
    extractInteger true bits (formatInteger i) = ⟨some i, true⟩ := by
  obtain ⟨hne, hdig, hval⟩ := toDigits_spec i.natAbs
  rw [formatInteger_eq, extractInteger_digits true bits _ _ hne hdig, hval]
  have hP : ((2 ^ (bits - 1) : Nat) : Int) = (2 : Int) ^ (bits - 1) := by push_cast; rfl
  have h1 : (1 : Nat) ≤ 2 ^ (bits - 1) := Nat.one_le_two_pow
  rw [← hP] at hlo hhi
  generalize 2 ^ (bits - 1) = P at hlo hhi h1
  by_cases hneg : i < 0
  · have hcmp : ¬ (P < i.natAbs) := by omega
    simp only [hneg, decide_True, if_true, hcmp, if_false]
    congr 2
    omega
  · have hcmp : ¬ (P - 1 < i.natAbs) := by omega
    simp only [hneg, decide_False, if_true, hcmp, if_false, Bool.false_eq_true]
    congr 2
    omega

theorem extractInteger_formatInteger_unsigned (bits : Nat) (n : Nat) (hhi : n < 2 ^ bits) :
    extractInteger false bits (formatInteger n) = ⟨some n, true⟩ := by
  obtain ⟨hne, hdig, hval⟩ := toDigits_spec n
  have hnat : (n : Int).natAbs = n := Int.natAbs_ofNat n
  have hnn : ¬ ((n : Int) < 0) := by omega
  rw [formatInteger_eq, hnat, extractInteger_digits false bits _ _ hne hdig, hval]
  have hcmp : ¬ (2 ^ bits - 1 < n) := by omega
  simp only [hnn, decide_False, hcmp, if_false, Bool.false_eq_true]

end detail

end cmd

namespace cmd

namespace detail

theorem CastToString_eq_format (v : Value) : CastToString v = v.format := by
  cases v <;> simp [CastToString, LexicalCast, Value.ty, Value.format]

end detail

end cmd

namespace cmd

namespace detail

theorem dropWhile_head (p : Char → Bool) :
    ∀ l : Str, l.dropWhile p = [] ∨ ∃ c r, l.dropWhile p = c :: r ∧ p c = false
  | [] => Or.inl rfl
  | x :: l => by
    by_cases hx : p x = true
    · simpa [List.dropWhile, hx] using dropWhile_head p l
    · exact Or.inr ⟨x, l, by simp [List.dropWhile, hx], by simpa using hx⟩

theorem takeSign_cases (s : Str) :
    ∃ sgn : Str, s = sgn ++ (takeSign s).2 ∧ (sgn = [] ∨ sgn = ['+'] ∨ sgn = ['-']) ∧
      (takeSign s).1 = decide (sgn = ['-']) ∧
      (sgn = [] → ∀ c r, s = c :: r → c ≠ '-' ∧ c ≠ '+') := by
  unfold takeSign
  split
  · exact ⟨['-'], rfl, Or.inr (Or.inr rfl), rfl, fun h => by cases h⟩
  · exact ⟨['+'], rfl, Or.inr (Or.inl rfl), rfl, fun h => by cases h⟩
  · rename_i h₁ h₂
    refine ⟨[], rfl, Or.inl rfl, rfl, fun _ c r hs => ⟨?_, ?_⟩⟩
    · rintro rfl
      exact h₁ r hs
    · rintro rfl
      exact h₂ r hs

theorem takeSign_append (sgn ds : Str) (hsgn : sgn = [] ∨ sgn = ['+'] ∨ sgn = ['-'])
    (hne : ds ≠ []) (hdig : ∀ c ∈ ds, isDigit c = true) (rest : Str) :
    takeSign (sgn ++ ds ++ rest) = (decide (sgn = ['-']), ds ++ rest) := by
  obtain ⟨c, cs, rfl⟩ := List.exists_cons_of_ne_nil hne
  rcases hsgn with rfl | rfl | rfl
  · simpa using takeSign_of_digit (cs ++ rest) (hdig c (List.mem_cons_self _ _))
  · rfl
  · rfl

/-- Extraction of an integer from whitespace, an optional sign, digits, and a
rest that does not start with a digit. -/
theorem extractInteger_shape (signed : Bool) (bits : Nat) (ws sgn ds rest : Str)
    (hws : ∀ c ∈ ws, isSpace c = true) (hsgn : sgn = [] ∨ sgn = ['+'] ∨ sgn = ['-'])
    (hne : ds ≠ []) (hdig : ∀ c ∈ ds, isDigit c = true)
    (hrest : rest = [] ∨ ∃ c r, rest = c :: r ∧ isDigit c = false) :
    extractInteger signed bits (ws ++ sgn ++ ds ++ rest) =
      if (if signed then (if sgn = ['-'] then 2 ^ (bits - 1) else 2 ^ (bits - 1) - 1)
          else 2 ^ bits - 1) < decimalValue ds then ⟨none, rest.isEmpty⟩
      else if sgn = ['-'] then
        ⟨some (if signed then -(decimalValue ds : Int)
          else ((2 ^ bits - decimalValue ds) % 2 ^ bits : Nat)), rest.isEmpty⟩
      else ⟨some (decimalValue ds), rest.isEmpty⟩ := by
  obtain ⟨c, cs, hds⟩ := List.exists_cons_of_ne_nil hne
  have hc : isDigit c = true := hdig c (hds ▸ List.mem_cons_self _ _)
  have hhead : ∃ x r, sgn ++ ds ++ rest = x :: r ∧ isSpace x = false := by
    rcases hsgn with rfl | rfl | rfl
    · exact ⟨c, cs ++ rest, by simp [hds], (isDigit_not_special hc).1⟩
    · exact ⟨'+', ds ++ rest, rfl, by decide⟩
    · exact ⟨'-', ds ++ rest, rfl, by decide⟩
  have hdrop : (ws ++ sgn ++ ds ++ rest).dropWhile isSpace = sgn ++ ds ++ rest := by
    have := (takeWhile_all ws (sgn ++ ds ++ rest) hws (Or.inr hhead)).2
    simpa [List.append_assoc] using this
  obtain ⟨x, r, hx, -⟩ := hhead
  have hnonempty : (sgn ++ ds ++ rest).isEmpty = false := by rw [hx]; rfl
  obtain ⟨htw, hdw⟩ := takeWhile_all ds rest hdig hrest
  have hdsne : ds.isEmpty = false := by rw [hds]; rfl
  unfold extractInteger
  simp only [hdrop, hnonempty, takeSign_append sgn ds hsgn hne hdig rest, htw, hdw, hdsne,
    decide_eq_true_eq]
  simp

/-- A text from which an integer is extracted is made of whitespace, an
optional sign, digits, and a rest that does not start with a digit. -/
theorem extractInteger_some {signed : Bool} {bits : Nat} {s : Str} {v : Int} {eof : Bool}
    (h : extractInteger signed bits s = ⟨some v, eof⟩) :
    ∃ ws sgn ds rest : Str, s = ws ++ sgn ++ ds ++ rest ∧ (∀ c ∈ ws, isSpace c = true) ∧
      (sgn = [] ∨ sgn = ['+'] ∨ sgn = ['-']) ∧ ds ≠ [] ∧ (∀ c ∈ ds, isDigit c = true) ∧
      (rest = [] ∨ ∃ c r, rest = c :: r ∧ isDigit c = false) := by
  obtain ⟨sgn, hs₁, hsgn, -, -⟩ := takeSign_cases (s.dropWhile isSpace)
  refine ⟨s.takeWhile isSpace, sgn, (takeSign (s.dropWhile isSpace)).2.takeWhile isDigit,
    (takeSign (s.dropWhile isSpace)).2.dropWhile isDigit, ?_, ?_, hsgn, ?_, ?_, ?_⟩
  · rw [List.append_assoc, List.append_assoc, List.takeWhile_append_dropWhile, ← hs₁,
      List.takeWhile_append_dropWhile]
  · exact fun c hc => List.mem_takeWhile_imp hc
  · intro hcon
    unfold extractInteger at h
    by_cases he : (s.dropWhile isSpace).isEmpty = true
    · simp [he] at h
    · simp [he, hcon] at h
  · exact fun c hc => List.mem_takeWhile_imp hc
  · exact dropWhile_head isDigit _

theorem CastFromString_bool_eq (s : Str) (h₁ : s ≠ ['t', 'r', 'u', 'e'])
    (h₂ : s ≠ ['f', 'a', 'l', 's', 'e']) :
    CastFromString .bool s =
      match (extractBool s).result with
      | none => .error (.TypeCastFailure s .bool)
      | some ret =>
        if !(extractBool s).eof then .error (.TypeCastFailure s .bool) else .ok (.bool ret) := by
  simp only [CastFromString, LexicalCast, Value.ty, h₁, h₂, or_self, and_false, if_false, extract]
  cases (extractBool s).result <;> simp

theorem extractBool_eq_iff (s : Str) (b : Bool) :
    extractBool s = ⟨some b, true⟩ ↔
      extractInteger true 64 s = ⟨some (if b then 1 else 0), true⟩ := by
  unfold extractBool
  rcases hr : extractInteger true 64 s with ⟨_ | v, eof⟩
  · simp
  · by_cases h0 : v = 0
    · subst h0
      cases b <;> simp
    · by_cases h1 : v = 1
      · subst h1
        cases b <;> simp
      · have : ∀ w : Bool, ¬ v = if w = true then 1 else 0 := by
          intro w
          cases w <;> simp [h0, h1]
        cases b
        · simp only [Extracted.mk.injEq, Option.some.injEq]
          constructor
          · intro h
            split at h <;> simp_all
          · intro h
            exact absurd h.1 (this false)
        · simp only [Extracted.mk.injEq, Option.some.injEq]
          constructor
          · intro h
            split at h <;> simp_all
          · intro h
            exact absurd h.1 (this true)

end detail

end cmd

namespace cmd

namespace detail

theorem extractInteger_bool_iff (s : Str) (b : Bool) :
    extractInteger true 64 s = ⟨some (if b then 1 else 0), true⟩ ↔ IsBoolNumeral s b := by
  constructor
  · intro h
    obtain ⟨ws, sgn, ds, rest, rfl, hws, hsgn, hne, hdig, hrest⟩ := extractInteger_some h
    rw [extractInteger_shape true 64 ws sgn ds rest hws hsgn hne hdig hrest] at h
    by_cases hmax : (if (true : Bool) = true then (if sgn = ['-'] then 2 ^ (64 - 1) else 2 ^ (64 - 1) - 1)
        else 2 ^ 64 - 1) < decimalValue ds
    · rw [if_pos hmax] at h
      cases h
    · rw [if_neg hmax] at h
      by_cases hs : sgn = ['-']
      · rw [if_pos hs] at h
        simp only [if_true, Extracted.mk.injEq, Option.some.injEq, List.isEmpty_iff] at h
        obtain ⟨hv, hr⟩ := h
        subst hr
        refine ⟨ws, sgn, ds, by simp, hws, hsgn, hne, hdig, Or.inl ?_⟩
        cases b
        · simp only [Bool.false_eq_true, if_false] at hv
          exact ⟨by omega, rfl⟩
        · simp only [if_true] at hv
          omega
      · rw [if_neg hs] at h
        simp only [Extracted.mk.injEq, Option.some.injEq, List.isEmpty_iff] at h
        obtain ⟨hv, hr⟩ := h
        subst hr
        refine ⟨ws, sgn, ds, by simp, hws, hsgn, hne, hdig, ?_⟩
        cases b
        · simp only [Bool.false_eq_true, if_false] at hv
          exact Or.inl ⟨by exact_mod_cast hv, rfl⟩
        · simp only [if_true] at hv
          exact Or.inr ⟨by exact_mod_cast hv, hs, rfl⟩
  · rintro ⟨ws, sgn, ds, rfl, hws, hsgn, hne, hdig, hval⟩
    have := extractInteger_shape true 64 ws sgn ds [] hws hsgn hne hdig (Or.inl rfl)
    rw [List.append_nil] at this
    rw [this]
    rcases hval with ⟨hv, rfl⟩ | ⟨hv, hs, rfl⟩
    · rw [hv]
      by_cases hs : sgn = ['-'] <;> simp [hs]
    · rw [hv]
      simp [hs]

/-- C7 (boolean parsing).  `CastFromString<bool>` yields `true` for the text
`true` and `false` for the text `false`; on any other text it succeeds exactly
when the text is a numeral that the stream reads to its end as 0 or 1 (so `1`
yields `true` and `0` yields `false`), and otherwise, as for `True` and for the
empty text, it throws `TypeCastFailure` for that text and `bool`. -/
theorem C7_boolean_parsing :
    CastFromString .bool ['t', 'r', 'u', 'e'] = .ok (.bool true) ∧
    CastFromString .bool ['f', 'a', 'l', 's', 'e'] = .ok (.bool false) ∧
    (∀ (s : Str) (b : Bool), s ≠ ['t', 'r', 'u', 'e'] → s ≠ ['f', 'a', 'l', 's', 'e'] →
      (CastFromString .bool s = .ok (.bool b) ↔ IsBoolNumeral s b)) ∧
    (∀ s : Str, (∃ b, CastFromString .bool s = .ok (.bool b)) ∨
      CastFromString .bool s = .error (.TypeCastFailure s .bool)) ∧
    CastFromString .bool ['1'] = .ok (.bool true) ∧
    CastFromString .bool ['0'] = .ok (.bool false) ∧
    CastFromString .bool ['T', 'r', 'u', 'e'] = .error (.TypeCastFailure ['T', 'r', 'u', 'e'] .bool) ∧
    CastFromString .bool [] = .error (.TypeCastFailure [] .bool) := by
  refine ⟨by decide, by decide, fun s b h₁ h₂ => ?_, fun s => ?_, by decide, by decide, by decide,
    by decide⟩
  · rw [CastFromString_bool_eq s h₁ h₂, ← extractInteger_bool_iff, ← extractBool_eq_iff]
    rcases hr : extractBool s with ⟨_ | ret, eof⟩
    · simp
    · cases eof <;> simp
  · by_cases h₁ : s = ['t', 'r', 'u', 'e']
    · exact Or.inl ⟨true, by rw [h₁]; decide⟩
    · by_cases h₂ : s = ['f', 'a', 'l', 's', 'e']
      · exact Or.inl ⟨false, by rw [h₂]; decide⟩
      · rw [CastFromString_bool_eq s h₁ h₂]
        rcases hr : extractBool s with ⟨_ | ret, eof⟩
        · exact Or.inr rfl
        · cases eof
          · exact Or.inr rfl
          · exact Or.inl ⟨ret, rfl⟩

/-- The text ` +01` is not `true` or `false` and is read as the integer 1, so
it converts to `true`. -/
theorem C7_boolean_parsing_witness :
    CastFromString .bool [' ', '+', '0', '1'] = .ok (.bool true) :=
  (C7_boolean_parsing.2.2.1 [' ', '+', '0', '1'] true (by decide) (by decide)).2
    ⟨[' '], ['+'], ['0', '1'], rfl, by decide, by decide, by decide, by decide, by decide⟩

/-- The text `1` is neither `true` nor `false`, yet `CastFromString<bool>`
succeeds on it and yields `true`; likewise `0` yields `false`. -/
theorem C7_boolean_parsing_counterexample :
    (['1'] : Str) ≠ ['t', 'r', 'u', 'e'] ∧ (['1'] : Str) ≠ ['f', 'a', 'l', 's', 'e'] ∧
    CastFromString .bool ['1'] = .ok (.bool true) ∧
    CastFromString .bool ['0'] = .ok (.bool false) ∧
    CastFromString .bool ['1'] ≠ .error (.TypeCastFailure ['1'] .bool) := by
  decide

end detail

end cmd

/-! ## Names and values of tokens -/

namespace cmd

open detail

namespace Parser

/-- C8 (split of a token).  For a token that holds a `=`, `StringSplit` returns
the pieces between all `=` characters; the name `Parse` resolves is the first
piece, the text before the first `=`, and the value it hands to `Read` is the
second piece, the text between the first `=` and the next `=` or the end of the
token. -/
theorem C8_split (p : Parser) (tok : Str) (h : '=' ∈ tok) :
    StringSplit tok ['='] = some (pieces tok) ∧
    (pieces tok).get? 0 = some (namePart tok) ∧
    (pieces tok).get? 1 = some (valuePart tok) ∧
    Parse.token p tok =
      (if ['-', '-'] <:+: namePart tok then p.ReadWithFullName (namePart tok) (valuePart tok)
      else if '-' ∈ namePart tok then
        match p.shortToFull.find (namePart tok) with
        | none => (p, .thrown (.UnknownArgument (namePart tok)))
        | some full => p.ReadWithFullName full (valuePart tok)
      else (p, .thrown (.MalformedToken tok))) ∧
    (∀ arg, ['-', '-'] <:+: namePart tok → p.fullArguments.find (namePart tok) = some arg →
      arg.Setted = false →
      Parse.token p tok =
        ({ p with fullArguments :=
            p.fullArguments.assign (namePart tok) (arg.Read (valuePart tok)).1 },
          (arg.Read (valuePart tok)).2)) := by
  have hne : tok ≠ [] := by
    rintro rfl
    cases h
  refine ⟨StringSplit_eq tok hne, ?_, ?_, Parse.token_eq p tok h, fun arg hl hfind hs => ?_⟩
  · obtain ⟨ps, hps⟩ := pieces_head tok
    rw [hps]
    rfl
  · rcases Str.split_first '=' tok with h' | ⟨a, b, rfl, ha⟩
    · exact absurd h h'
    · obtain ⟨ps, hps⟩ := pieces_head b
      rw [pieces_append a b ha, hps]
      simp only [valuePart, afterFirst, dropWhile_ne_append '=' a b ha, List.drop_succ_cons,
        List.drop_zero]
      rfl
  · rw [Parse.token_eq p tok h, if_pos hl]
    simp only [ReadWithFullName, hfind, hs]
    simp

/-- For the text argument `--name`, the token `--name=a=b` stores `a`. -/
theorem C8_split_witness :
    Parse.token nameParser "--name=a=b".toList =
      ({ nameParser with fullArguments :=
          (nameParser.fullArguments.assign (namePart "--name=a=b".toList)
            ((Argument.basic (BasicArgument.new .string "--name".toList [] [] false
              (Ty.zero .string))).Read (valuePart "--name=a=b".toList)).1) },
        ((Argument.basic (BasicArgument.new .string "--name".toList [] [] false
          (Ty.zero .string))).Read (valuePart "--name=a=b".toList)).2) :=
  (C8_split nameParser "--name=a=b".toList (by decide)).2.2.2.2 _ (by decide) (by decide)
    (by decide)

/-- For the text argument `--name`, `Parse` of the token `--name=a=b` returns
and `Get` returns `a`, not the whole text `a=b` after the first `=`. -/
theorem C8_split_counterexample :
    (nameParser.Parse ["prog".toList, "--name=a=b".toList]).2 = .returned () ∧
    (nameParser.Parse ["prog".toList, "--name=a=b".toList]).1.Get .string "--name".toList
      = .returned (.string ['a']) ∧
    (nameParser.Parse ["prog".toList, "--name=a=b".toList]).1.Get .string "--name".toList
      ≠ .returned (.string ['a', '=', 'b']) := by
  decide

/-- C9 (prefix check), the code at the failing inputs.  In the registry of
`test.cpp` the token `x-y=1`, whose name starts with no `-`, makes `Parse`
throw `UnknownArgument` and not `MalformedToken`; and in a registry whose
argument has the short name `x-y` the same token is accepted. -/
theorem C9_prefix_check_failing_input :
    (testParser.Parse ["prog".toList, "x-y=1".toList]).2
      = .thrown (.UnknownArgument "x-y".toList) ∧
    (dashParser.Parse ["prog".toList, "x-y=1".toList]).2 = .returned () ∧
    (dashParser.Parse ["prog".toList, "x-y=1".toList]).1.Get (.sint .int) "--count".toList
      = .returned (.sint .int 1) ∧
    ¬ (['-'] <+: namePart "x-y=1".toList) := by
  decide

end Parser

end cmd

/-! ## Short names -/

namespace cmd

open detail

namespace Parser

theorem Parse.token_shortToFull (p : Parser) (tok : Str) :
    (Parse.token p tok).1.shortToFull = p.shortToFull := by
  rcases Parse.token_outcome p tok with h | ⟨e, h⟩
  · have h₂ : Parse.token p tok = ((Parse.token p tok).1, .returned ()) := by
      rw [← h]
    obtain ⟨f, arg, v, -, -, -, -, h₃⟩ := Parse.token_returned h₂
    rw [h₃]
  · rw [h]

theorem Parse.tokens_shortToFull_any :
    ∀ (toks : List Str) (p : Parser), (Parse.tokens p toks).1.shortToFull = p.shortToFull
  | [], _ => rfl
  | tok :: rest, p => by
    rcases Parse.token_outcome p tok with h | ⟨e, h⟩
    · have h₂ : Parse.token p tok = ((Parse.token p tok).1, .returned ()) := by
        rw [← h]
      rw [Parse.tokens_cons_returned h₂, Parse.tokens_shortToFull_any rest,
        Parse.token_shortToFull]
    · rw [Parse.tokens_cons_thrown h]

theorem Parse_shortToFull (p : Parser) (argv : List Str) :
    (p.Parse argv).1.shortToFull = p.shortToFull := by
  match argv with
  | [] => rfl
  | [prog] => rfl
  | prog :: tok :: rest =>
    rcases Parse.tokens_outcome (tok :: rest) { p with progName := prog } with h₁ | ⟨e, h₁⟩
    · have h₂ : Parse.tokens { p with progName := prog } (tok :: rest)
          = ((Parse.tokens { p with progName := prog } (tok :: rest)).1, .returned ()) := by
        rw [← h₁]
      rw [Parse_of_tokens_returned h₂]
      exact Parse.tokens_shortToFull_any (tok :: rest) _
    · have h₂ : Parse.tokens { p with progName := prog } (tok :: rest)
          = ((Parse.tokens { p with progName := prog } (tok :: rest)).1, .thrown e) := by
        rw [← h₁]
      rw [Parse_of_tokens_thrown h₂]
      exact Parse.tokens_shortToFull_any (tok :: rest) _

/-- Tokens that every registry with the short names of `p` reads alike can
stand for one another in the command line. -/
theorem Parse.tokens_congr (t₁ t₂ : Str) (post : List Str) :
    ∀ (pre : List Str) (p : Parser),
      (∀ q : Parser, q.shortToFull = p.shortToFull → Parse.token q t₁ = Parse.token q t₂) →
      Parse.tokens p (pre ++ t₁ :: post) = Parse.tokens p (pre ++ t₂ :: post)
  | [], p, h => by
    simp only [List.nil_append, Parse.tokens, h p rfl]
  | tok :: pre, p, h => by
    rcases Parse.token_outcome p tok with h₁ | ⟨e, h₁⟩
    · have h₂ : Parse.token p tok = ((Parse.token p tok).1, .returned ()) := by
        rw [← h₁]
      rw [List.cons_append, List.cons_append, Parse.tokens_cons_returned h₂,
        Parse.tokens_cons_returned h₂]
      exact Parse.tokens_congr t₁ t₂ post pre _
        (fun q hq => h q (hq.trans (Parse.token_shortToFull p tok)))
    · rw [List.cons_append, List.cons_append, Parse.tokens_cons_thrown h₁,
        Parse.tokens_cons_thrown h₁]

theorem Parse_congr (p : Parser) (prog : Str) (l₁ l₂ : List Str)
    (hlen : l₁.length = l₂.length)
    (h : Parse.tokens { p with progName := prog } l₁ = Parse.tokens { p with progName := prog } l₂) :
    p.Parse (prog :: l₁) = p.Parse (prog :: l₂) := by
  simp only [Parse, List.length_cons, hlen, h]

theorem namePart_append (n v : Str) (h : '=' ∉ n) : namePart (n ++ '=' :: v) = n :=
  takeWhile_ne_append '=' n v h

theorem valuePart_append (n v : Str) (h : '=' ∉ n) :
    valuePart (n ++ '=' :: v) = v.takeWhile (· ≠ '=') := by
  simp only [valuePart, afterFirst, dropWhile_ne_append '=' n v h, List.drop_succ_cons,
    List.drop_zero]

/-- C10 (short names).  In a registry built by calls of `Add`, let an argument
be registered with a full name `f` that starts with `--` and a short name `s`
that starts with `-` and holds no `--`.  Then `Get` by `s` is `Get` by `f`,
before and after any call of `Parse`; and when neither name holds a `=`, the
token `s=v` is read as the token `f=v` is, in every position of the command
line: the same registry and the same outcome result. -/
theorem C10_short_name (p : Parser) (hp : p.Reachable) (f s : Str) (a : Argument)
    (ha : (f, a) ∈ p.fullArguments) (hsn : a.ShortName = s)
    (hf : ['-', '-'] <+: f) (hs₁ : ['-'] <+: s) (hs₂ : ¬ ['-', '-'] <:+: s) :
    (∀ T, p.Get T s = p.Get T f) ∧
    (∀ argv T, (p.Parse argv).1.Get T s = (p.Parse argv).1.Get T f) ∧
    ('=' ∉ f → '=' ∉ s → ∀ (v prog : Str) (pre post : List Str),
      p.Parse (prog :: (pre ++ (s ++ '=' :: v) :: post))
        = p.Parse (prog :: (pre ++ (f ++ '=' :: v) :: post))) := by
  have hwf := hp.wf
  have hsne : s ≠ [] := by
    rintro rfl
    simp at hs₁
  have hfind : p.shortToFull.find s = some f := by
    have := (hwf.entry (f, a) ha).2.2.2
    rw [hsn] at this
    exact this hsne
  have hfl : ['-', '-'] <:+: f := hf.isInfix
  have hsd : '-' ∈ s := by
    obtain ⟨t, ht⟩ := hs₁
    rw [← ht]
    simp
  have hget : ∀ (q : Parser) T, q.shortToFull = p.shortToFull → q.Get T s = q.Get T f := by
    intro q T hq
    have h₁ : ¬ Str.find s ['-', '-'] 0 ≠ none := fun h => hs₂ ((Str.find_ne_none_iff s _).1 h)
    have h₂ : Str.find s ['-'] 0 ≠ none := (Str.find_single_ne_none_iff s '-').2 hsd
    have h₃ : Str.find f ['-', '-'] 0 ≠ none := (Str.find_ne_none_iff f _).2 hfl
    simp only [Get, hq, hfind]
    rw [if_neg h₁, if_pos h₂, if_pos h₃]
  refine ⟨fun T => hget p T rfl, fun argv T => hget _ T (Parse_shortToFull p argv),
    fun hfe hse v prog pre post => ?_⟩
  apply Parse_congr
  · simp
  · apply Parse.tokens_congr
    intro q hq
    have he₁ : '=' ∈ s ++ '=' :: v := by simp
    have he₂ : '=' ∈ f ++ '=' :: v := by simp
    rw [Parse.token_eq q _ he₁, Parse.token_eq q _ he₂, namePart_append s v hse,
      namePart_append f v hfe, valuePart_append s v hse, valuePart_append f v hfe,
      if_neg hs₂, if_pos hsd, if_pos hfl, hq, hfind]

/-- In the registry of `test.cpp`, `-i` stands for `--intArg`: in `Get`, and
as the name of a token. -/
theorem C10_short_name_witness :
    (∀ T, testParser.Get T "-i".toList = testParser.Get T "--intArg".toList) ∧
    testParser.Parse ("prog".toList :: (["--stringArg=a".toList] ++
        ("-i".toList ++ '=' :: ['5']) :: []))
      = testParser.Parse ("prog".toList :: (["--stringArg=a".toList] ++
        ("--intArg".toList ++ '=' :: ['5']) :: [])) :=
  ⟨(C10_short_name testParser testParser_built.reachable "--intArg".toList "-i".toList intArg
      (by decide) (by decide) (by decide) (by decide) (by decide)).1,
    (C10_short_name testParser testParser_built.reachable "--intArg".toList "-i".toList intArg
      (by decide) (by decide) (by decide) (by decide) (by decide)).2.2 (by decide) (by decide)
      ['5'] "prog".toList ["--stringArg=a".toList] []⟩

/-- For an argument registered with the full name `name` and the short name
`-n`, the token `-n=v` is accepted and the token `name=v` is not, and `Get` by
`-n` returns the value while `Get` by `name` throws. -/
theorem C10_short_name_counterexample :
    ['-'] <+: "-n".toList ∧ ¬ (['-', '-'] <+: "-n".toList) ∧
    (bareParser.Parse ["prog".toList, "-n=v".toList]).2 = .returned () ∧
    (bareParser.Parse ["prog".toList, "name=v".toList]).2
      = .thrown (.MalformedToken "name=v".toList) ∧
    (bareParser.Parse ["prog".toList, "-n=v".toList]).1.Get .string "-n".toList
      = .returned (.string ['v']) ∧
    (bareParser.Parse ["prog".toList, "-n=v".toList]).1.Get .string "name".toList
      = .thrown (.UnknownArgument "name".toList) := by
  decide

end Parser

end cmd

/-! ## Retrieval -/

namespace cmd

open detail

namespace Parser

/-- C11 (retrieval).  `Get` throws `UnknownArgument` for a name that is
registered neither as a full name nor as a short name.  For a registered full
name that starts with `--`, and for a registered short name that starts with
`-` and holds no `--`, `Get` with the type of the registration does not throw:
it returns the value stored in the argument registered under the name. -/
theorem C11_get (q : Parser) (name : Str) :
    (∀ T, q.fullArguments.find name = none → q.shortToFull.find name = none →
      q.Get T name = .thrown (.UnknownArgument name)) ∧
    (∀ a, ['-', '-'] <+: name → q.fullArguments.find name = some a →
      q.Get a.base.T name = .returned a.ActualValue) ∧
    (∀ f a, ['-'] <+: name → ¬ ['-', '-'] <:+: name → q.shortToFull.find name = some f →
      q.fullArguments.find f = some a → q.Get a.base.T name = .returned a.ActualValue) := by
  refine ⟨fun T hf hs => ?_, fun a hpre hf => ?_, fun f a hpre hno hs hf => ?_⟩
  · by_cases h₁ : Str.find name ['-', '-'] 0 ≠ none
    · simp only [Get, GetWithFullName, hf]
      rw [if_pos h₁]
    · by_cases h₂ : Str.find name ['-'] 0 ≠ none
      · simp only [Get, hs]
        rw [if_neg h₁, if_pos h₂]
      · simp only [Get]
        rw [if_neg h₁, if_neg h₂]
  · have h₁ : Str.find name ['-', '-'] 0 ≠ none := (Str.find_ne_none_iff name _).2 hpre.isInfix
    simp only [Get, GetWithFullName, hf]
    rw [if_pos h₁]
    simp
  · have h₁ : ¬ Str.find name ['-', '-'] 0 ≠ none :=
      fun h => hno ((Str.find_ne_none_iff name _).1 h)
    have hd : '-' ∈ name := by
      obtain ⟨t, ht⟩ := hpre
      rw [← ht]
      simp
    have h₂ : Str.find name ['-'] 0 ≠ none := (Str.find_single_ne_none_iff name '-').2 hd
    simp only [Get, GetWithFullName, hs, hf]
    rw [if_neg h₁, if_pos h₂]
    simp

/-- After the first scenario of `test.cpp`, `Get` by the short name `-i`
returns the value stored in `--intArg`. -/
theorem C11_get_witness :
    (testParser.Parse argvAll).1.Get (.sint .int) "-i".toList = .returned (.sint .int 5) :=
  (C11_get (testParser.Parse argvAll).1 "-i".toList).2.2 "--intArg".toList
    (intArg.store (.sint .int 5)) (by decide) (by decide) (by decide) (by decide)

/-- The name `name` is registered as a full name, and the name `n` as a short
name, yet `Get` throws `UnknownArgument` for them. -/
theorem C11_get_counterexample :
    bareParser.fullArguments.find "name".toList ≠ none ∧
    bareParser.Get .string "name".toList = .thrown (.UnknownArgument "name".toList) ∧
    shortParser.shortToFull.find "n".toList = some "--name".toList ∧
    shortParser.Get .string "n".toList = .thrown (.UnknownArgument "n".toList) := by
  decide

end Parser

end cmd

/-! ## Defaults -/

namespace cmd

open detail

namespace Parser

/-- `Get` by a full name that starts with `--` returns the value stored under
that name. -/
theorem Get_of_find (q : Parser) (name : Str) (a : Argument) (hpre : ['-', '-'] <+: name)
    (hf : q.fullArguments.find name = some a) :
    q.Get a.base.T name = .returned a.ActualValue := by
  have h₁ : Str.find name ['-', '-'] 0 ≠ none := (Str.find_ne_none_iff name _).2 hpre.isInfix
  simp only [Get, GetWithFullName, hf]
  rw [if_pos h₁]
  simp

/-- A call of `Parse` does not return when an argument that is not set and has
no default is named by no token. -/
theorem Parse_ne_returned_of_unset {p : Parser} {argv : List Str} {f : Str} {a : Argument}
    (hf : p.fullArguments.find f = some a) (hs : a.Setted = false)
    (hd : a.base.hasDefault_ = false) (hn : ∀ tok ∈ argv.tail, ¬ p.Names tok f) :
    (p.Parse argv).2 ≠ .returned () := by
  intro hret
  have h : p.Parse argv = ((p.Parse argv).1, .returned ()) := by
    rw [← hret]
  obtain ⟨prog, toks, rfl, ht, hc⟩ := Parse_returned h
  have hfind := Parse.tokens_of_not_named toks _ _ ht f
    (fun t ht' hnt => hn t ht' ((Names_congr rfl t f).1 hnt))
  have hmem := Map.mem_of_find f a _ (hfind.trans hf)
  rcases Parse.check_returned _ hc _ hmem with h' | h'
  · rw [hs] at h'
    cases h'
  · rw [hd] at h'
    cases h'

/-- The argument that a successful `Add` registers is found under its full
name. -/
theorem Add_returned_find {p : Parser} {T : Ty} {f s d : Str} {r : Bool} {dv : Value}
    {l : List Value} (h : (p.Add T f s d r dv l).2 = .returned ()) :
    (p.Add T f s d r dv l).1.fullArguments.find f =
      some (if l.length = 0 then .basic (BasicArgument.new T f s d r dv)
        else .choice (ChoiceArgument.new T f s d r dv l)) := by
  rw [Add_eq] at h ⊢
  by_cases h₁ : p.fullArguments.find f ≠ none
  · rw [if_pos h₁] at h
    cases h
  · rw [if_neg h₁] at h ⊢
    by_cases h₂ : s ≠ [] ∧ p.shortToFull.find s ≠ none
    · rw [if_pos h₂] at h
      cases h
    · rw [if_neg h₂]
      show (p.fullArguments ++ [(f, _)]).find f = _
      rw [Map.find_append_of_none _ _ _ (by simpa using h₁)]
      simp [Map.find]

/-- C12 (default detection).  The argument that a successful `Add` registers
has a default exactly when the default value passed to `Add` converts to
`true`: a text that is not empty, the boolean `true`, an integer or a
floating-point number other than zero.  `Get` by a full name starting with `--`
then returns that default, right after `Add` and after a returning `Parse` in
which no token names the argument.  With a default value that converts to
`false`, such as the integer 0 or the boolean `false`, the argument has no
default, and `Parse` does not return when no token names it. -/
theorem C12_default_detection (p : Parser) (T : Ty) (f s d : Str) (r : Bool) (dv : Value)
    (l : List Value) (h : (p.Add T f s d r dv l).2 = .returned ()) :
    (∃ a, (p.Add T f s d r dv l).1.fullArguments.find f = some a ∧ a.base.T = T ∧
      a.base.hasDefault_ = dv.toBool ∧
      a.ActualValue = (if dv.toBool then dv else T.zero) ∧
      (['-', '-'] <+: f →
        (p.Add T f s d r dv l).1.Get T f = .returned (if dv.toBool then dv else T.zero))) ∧
    (∀ argv p', dv.toBool = true → ['-', '-'] <+: f →
      (p.Add T f s d r dv l).1.Parse argv = (p', .returned ()) →
      (∀ tok ∈ argv.tail, ¬ (p.Add T f s d r dv l).1.Names tok f) →
      p'.Get T f = .returned dv) ∧
    (∀ argv, dv.toBool = false →
      (∀ tok ∈ argv.tail, ¬ (p.Add T f s d r dv l).1.Names tok f) →
      ((p.Add T f s d r dv l).1.Parse argv).2 ≠ .returned ()) ∧
    ((∀ t : Str, Value.toBool (.string t) = true ↔ t ≠ []) ∧
      (∀ b : Bool, Value.toBool (.bool b) = true ↔ b = true) ∧
      (∀ k i, Value.toBool (.sint k i) = true ↔ i ≠ 0) ∧
      (∀ k n, Value.toBool (.uint k n) = true ↔ n ≠ 0) ∧
      (∀ k neg m e, Value.toBool (.flt k (.finite neg m e)) = true ↔ m ≠ 0)) := by
  have hfind := Add_returned_find h
  obtain ⟨a, ha⟩ : ∃ a : Argument, a = if l.length = 0 then
      .basic (BasicArgument.new T f s d r dv)
      else .choice (ChoiceArgument.new T f s d r dv l) := ⟨_, rfl⟩
  rw [← ha] at hfind
  obtain ⟨-, -, hp₃, hp₄, -, hp₆, hp₇⟩ := newArgument_props T f s d r dv l a ha
  have hzero : dv.toBool = false → a.ActualValue = T.zero := by
    intro hdv
    by_cases hl : l.length = 0
    · rw [if_pos hl] at ha
      subst ha
      simp [Argument.ActualValue, Argument.base, BasicArgument.new, hdv]
    · rw [if_neg hl] at ha
      subst ha
      simp [Argument.ActualValue, Argument.base, ChoiceArgument.new, BasicArgument.new, hdv]
  have hval : a.ActualValue = (if dv.toBool then dv else T.zero) := by
    by_cases hdv : dv.toBool = true
    · rw [if_pos hdv]
      exact hp₇ (hp₆.trans hdv)
    · rw [if_neg hdv]
      exact hzero (by simpa using hdv)
  have hget : ∀ (q : Parser) (b : Argument), ['-', '-'] <+: f → q.fullArguments.find f = some b →
      b.base.T = T → q.Get T f = .returned b.ActualValue := by
    intro q b hpre hb hT
    have := (Get_of_find q f b hpre hb)
    rw [hT] at this
    exact this
  refine ⟨⟨a, hfind, hp₄, hp₆, hval, fun hpre => ?_⟩, fun argv p' hdv hpre hret hn => ?_,
    fun argv hdv hn => ?_, ?_⟩
  · rw [hget _ a hpre hfind hp₄, hval]
  · obtain ⟨prog, toks, rfl, ht, -⟩ := Parse_returned hret
    have hfin := Parse.tokens_of_not_named toks _ p' ht f
      (fun t ht' hnt => hn t ht' ((Names_congr rfl t f).1 hnt))
    rw [hget p' a hpre (hfin.trans hfind) hp₄, hval, if_pos hdv]
  · exact Parse_ne_returned_of_unset hfind hp₃ (hp₆.trans hdv) hn
  · refine ⟨fun t => ?_, fun b => ?_, fun k i => ?_, fun k n => ?_, fun k neg m e => ?_⟩
    · simp [Value.toBool, List.length_pos]
    · simp [Value.toBool]
    · simp [Value.toBool]
    · simp [Value.toBool]
    · simp [Value.toBool, Flt.toBool]

/-- An `int` argument added with the default 1 has a default, and `Get`
returns 1 right after `Add`. -/
theorem C12_default_detection_witness :
    ∃ a, (Parser.new.Add (.sint .int) "--n".toList [] [] false (.sint .int 1)
        []).1.fullArguments.find "--n".toList = some a ∧
      a.base.T = .sint .int ∧
      a.base.hasDefault_ = (Value.sint .int 1).toBool ∧
      a.ActualValue = (if (Value.sint .int 1).toBool then .sint .int 1 else (Ty.sint .int).zero) ∧
      (['-', '-'] <+: "--n".toList →
        (Parser.new.Add (.sint .int) "--n".toList [] [] false (.sint .int 1) []).1.Get
          (.sint .int) "--n".toList
          = .returned (if (Value.sint .int 1).toBool then .sint .int 1 else (Ty.sint .int).zero)) :=
  (C12_default_detection Parser.new (.sint .int) "--n".toList [] [] false (.sint .int 1) []
    (by decide)).1

/-- An `int` argument added with the explicit default 0 and a `bool` argument
added with the explicit default `false` have no default: `Parse` throws
`MissingDefaultError` when no token sets them. -/
theorem C12_default_detection_counterexample :
    (zeroParser.fullArguments.find "--zero".toList).map (fun a => a.base.defaultValue_)
      = some (.sint .int 0) ∧
    (zeroParser.fullArguments.find "--zero".toList).map (fun a => a.base.hasDefault_)
      = some false ∧
    (zeroParser.fullArguments.find "--flag".toList).map (fun a => a.base.defaultValue_)
      = some (.bool false) ∧
    (zeroParser.fullArguments.find "--flag".toList).map (fun a => a.base.hasDefault_)
      = some false ∧
    (zeroParser.Parse ["prog".toList, "--name=a".toList]).2
      = .thrown (.MissingDefaultError "--zero".toList) ∧
    (zeroParser.Parse ["prog".toList, "--name=a".toList, "--zero=3".toList]).2
      = .thrown (.MissingDefaultError "--flag".toList) := by
  decide

end Parser

end cmd

/-! ## Errors of `Parse` -/

namespace cmd

open detail

namespace Parser

/-- C13 (missing separator).  When the tokens before a token `t` were accepted
and `t` holds no `=`, `Parse` throws `MalformedToken` for `t` and leaves the
registry as the tokens before `t` made it, whatever tokens follow. -/
theorem C13_missing_separator (p p₁ : Parser) (prog : Str) (pre post : List Str) (t : Str)
    (hacc : Parse.tokens { p with progName := prog } pre = (p₁, .returned ()))
    (ht : '=' ∉ t) :
    p.Parse (prog :: (pre ++ t :: post)) = (p₁, .thrown (.MalformedToken t)) := by
  have hall : Parse.tokens { p with progName := prog } (pre ++ t :: post)
      = (p₁, .thrown (.MalformedToken t)) := by
    rw [Parse.tokens_append pre _ p₁ _ hacc,
      Parse.tokens_cons_thrown (Parse.token_of_not_mem p₁ t ht)]
  cases pre with
  | nil => exact Parse_of_tokens_thrown hall
  | cons x xs => exact Parse_of_tokens_thrown hall

/-- In the registry of `test.cpp`, the token `foo` after `--stringArg=a` makes
`Parse` throw `MalformedToken`, and the token `-i=5` after it is not read. -/
theorem C13_missing_separator_witness :
    testParser.Parse ("prog".toList :: (["--stringArg=a".toList] ++
        "foo".toList :: ["-i=5".toList]))
      = ((Parse.tokens { testParser with progName := "prog".toList }
          ["--stringArg=a".toList]).1, .thrown (.MalformedToken "foo".toList)) :=
  C13_missing_separator testParser _ "prog".toList ["--stringArg=a".toList] ["-i=5".toList]
    "foo".toList (Prod.ext rfl (by decide)) (by decide)

theorem LexicalCast_string_error {T : Ty} {s : Str} {e : CMDError}
    (h : LexicalCast T (.string s) = .error e) : e = .TypeCastFailure s T := by
  unfold LexicalCast at h
  by_cases h₁ : T = Value.ty (.string s)
  · simp [h₁] at h
  · rw [if_neg h₁] at h
    by_cases h₂ : T = Ty.string
    · simp [h₂] at h
    · rw [if_neg h₂] at h
      simp only at h
      by_cases h₃ : T = Ty.bool ∧ (s = ['t', 'r', 'u', 'e'] ∨ s = ['f', 'a', 'l', 's', 'e'])
      · rw [if_pos h₃] at h
        cases hr : (extractBoolAlpha s).result with
        | none =>
          rw [hr] at h
          simp only [Except.error.injEq] at h
          rw [← h, h₃.1]
        | some b =>
          rw [hr] at h
          cases h
      · rw [if_neg h₃] at h
        cases hr : (extract T s).result with
        | none =>
          rw [hr] at h
          simp only [Except.error.injEq] at h
          exact h.symm
        | some v =>
          rw [hr] at h
          by_cases he : (!(extract T s).eof) = true
          · simp only [he, if_true, Except.error.injEq] at h
            exact h.symm
          · simp only [he, if_false] at h
            cases h

/-- An error of the conversion in `Read` is a `TypeCastFailure` or a
`ChoiceViolation`. -/
theorem Argument.convert_error {a : Argument} {str : Str} {e : CMDError}
    (h : a.convert str = .error e) :
    e = .TypeCastFailure str a.base.T ∨ ∃ n d, e = .ChoiceViolation n d str := by
  cases a with
  | basic b => exact Or.inl (LexicalCast_string_error h)
  | choice c =>
    simp only [Argument.convert, ChoiceCaster.call] at h
    cases hc : CastFromString c.T str with
    | error e' =>
      rw [hc] at h
      simp only [Except.error.injEq] at h
      subst h
      exact Or.inl (LexicalCast_string_error hc)
    | ok w =>
      rw [hc] at h
      by_cases hcount : ChoiceCaster.count c.choiceCaster.choiceList w = 0
      · simp only [hcount, if_true, Except.error.injEq] at h
        exact Or.inr ⟨_, _, h.symm⟩
      · simp [hcount] at h

theorem ReadWithFullName_thrown {p p' : Parser} {f val : Str} {e : CMDError}
    (h : p.ReadWithFullName f val = (p', .thrown e)) (n : Str) :
    e ≠ .MissingRequiredArgument n := by
  rw [ReadWithFullName_eq] at h
  cases hfind : p.fullArguments.find f with
  | none =>
    simp only [hfind, Prod.mk.injEq, Outcome.thrown.injEq] at h
    rw [← h.2]
    exact fun hc => by cases hc
  | some arg =>
    simp only [hfind] at h
    by_cases hs : arg.Setted = true
    · rw [if_pos hs] at h
      simp only [Prod.mk.injEq, Outcome.thrown.injEq] at h
      rw [← h.2]
      exact fun hc => by cases hc
    · rw [if_neg hs] at h
      cases hc : arg.convert val with
      | ok v =>
        rw [hc] at h
        simp at h
      | error e' =>
        rw [hc] at h
        simp only [Prod.mk.injEq, Outcome.thrown.injEq] at h
        rw [← h.2]
        rcases Argument.convert_error hc with rfl | ⟨n', d', rfl⟩
        · exact fun hc => by cases hc
        · exact fun hc => by cases hc

theorem Parse.token_thrown {p p' : Parser} {tok : Str} {e : CMDError}
    (h : Parse.token p tok = (p', .thrown e)) (n : Str) : e ≠ .MissingRequiredArgument n := by
  by_cases hn : ∃ f, p.Names tok f
  · obtain ⟨f, hf⟩ := hn
    rw [Parse.token_of_names hf] at h
    exact ReadWithFullName_thrown h n
  · rcases Parse.token_of_not_names (fun f hf => hn ⟨f, hf⟩) with h' | h' <;>
      · rw [h'] at h
        simp only [Prod.mk.injEq, Outcome.thrown.injEq] at h
        rw [← h.2]
        exact fun hc => by cases hc

theorem Parse.tokens_thrown :
    ∀ (toks : List Str) (p p' : Parser) (e : CMDError),
      Parse.tokens p toks = (p', .thrown e) → ∀ n, e ≠ .MissingRequiredArgument n
  | [], p, p', e, h, _ => by simp [Parse.tokens] at h
  | tok :: rest, p, p', e, h, n => by
    rcases Parse.token_outcome p tok with h₁ | ⟨e₁, h₁⟩
    · have h₂ : Parse.token p tok = ((Parse.token p tok).1, .returned ()) := by
        rw [← h₁]
      rw [Parse.tokens_cons_returned h₂] at h
      exact Parse.tokens_thrown rest _ p' e h n
    · rw [Parse.tokens_cons_thrown h₁] at h
      simp only [Prod.mk.injEq, Outcome.thrown.injEq] at h
      rw [← h.2]
      exact Parse.token_thrown h₁ n

theorem Parse.check_thrown :
    ∀ (m : Map Argument) (e : CMDError), Parse.check m = .thrown e →
      ∃ it ∈ m, e = .MissingDefaultError it.2.FullName
  | [], e, h => by simp [Parse.check] at h
  | it :: rest, e, h => by
    by_cases hg : it.2.base.setted_ = true ∨ it.2.base.hasDefault_ = true ∨
        ((!it.2.base.required_) = true ∧ it.2.base.hasDefault_ = true)
    · simp only [Parse.check, Argument.IsGood, BasicArgument.IsGood, hg, if_true] at h
      obtain ⟨it', hit', he⟩ := Parse.check_thrown rest e h
      exact ⟨it', List.mem_cons_of_mem _ hit', he⟩
    · simp only [Parse.check, Argument.IsGood, BasicArgument.IsGood, hg, if_false,
        Outcome.thrown.injEq] at h
      exact ⟨it, List.mem_cons_self _ _, h.symm⟩

/-- C14 (`IsGood`).  `IsGood` returns `true` for an argument that is set or has
a default, whether required or not, and throws `MissingDefaultError` with the
argument's full name otherwise; it never returns `false`.  So `Parse` never
throws `MissingRequiredArgument`. -/
theorem C14_isGood (a : Argument) (p : Parser) (argv : List Str) (n : Str) :
    ((a.Setted = true ∨ a.base.hasDefault_ = true) → a.IsGood = .returned true) ∧
    (a.Setted = false → a.base.hasDefault_ = false →
      a.IsGood = .thrown (.MissingDefaultError a.FullName)) ∧
    a.IsGood ≠ .returned false ∧
    (p.Parse argv).2 ≠ .thrown (.MissingRequiredArgument n) := by
  refine ⟨fun h => ?_, fun hs hd => ?_, ?_, ?_⟩
  · have : a.base.setted_ = true ∨ a.base.hasDefault_ = true ∨
        ((!a.base.required_) = true ∧ a.base.hasDefault_ = true) := by
      rcases h with h | h
      · exact Or.inl h
      · exact Or.inr (Or.inl h)
    simp only [Argument.IsGood, BasicArgument.IsGood, this, if_true]
  · have hs' : a.base.setted_ = false := hs
    simp [Argument.IsGood, BasicArgument.IsGood, hs', hd, Argument.FullName]
  · simp only [Argument.IsGood, BasicArgument.IsGood]
    split <;> simp
  · match argv with
    | [] => simp [Parse]
    | [prog] => simp [Parse]
    | prog :: tok :: rest =>
      rcases Parse.tokens_outcome (tok :: rest) { p with progName := prog } with h₁ | ⟨e, h₁⟩
      · have h₂ : Parse.tokens { p with progName := prog } (tok :: rest)
            = ((Parse.tokens { p with progName := prog } (tok :: rest)).1, .returned ()) := by
          rw [← h₁]
        rw [Parse_of_tokens_returned h₂]
        intro hc
        obtain ⟨it, -, he⟩ := Parse.check_thrown _ _ hc
        cases he
      · have h₂ : Parse.tokens { p with progName := prog } (tok :: rest)
            = ((Parse.tokens { p with progName := prog } (tok :: rest)).1, .thrown e) := by
          rw [← h₁]
        rw [Parse_of_tokens_thrown h₂]
        intro hc
        simp only [Outcome.thrown.injEq] at hc
        exact Parse.tokens_thrown _ _ _ _ h₂ n hc

/-- The required argument `--stringArg` of `test.cpp`, not set and without a
default, makes `IsGood` throw `MissingDefaultError`. -/
theorem C14_isGood_witness :
    (Argument.basic (BasicArgument.new .string "--stringArg".toList "-s".toList
        "this is a string argument".toList true (Ty.zero .string))).IsGood
      = .thrown (.MissingDefaultError "--stringArg".toList) :=
  (C14_isGood (.basic (BasicArgument.new .string "--stringArg".toList "-s".toList
    "this is a string argument".toList true (Ty.zero .string))) testParser argvAll []).2.1
    (by decide) (by decide)

end Parser

end cmd

/-! ## State after a failure -/

namespace cmd

open detail

namespace Parser

/-- C15 (atomicity).  When the conversion in `Read` fails, for a basic and for
a choice argument, `Read` throws the error of the conversion, a
`TypeCastFailure` or a `ChoiceViolation`, and the argument is what it was
before the call.  When, in a registry built by `Add`, `Parse` fails at a token
`t` after the tokens before it were accepted, it leaves the registry as those
tokens made it: the arguments that are set are exactly the ones that a token
before `t` names. -/
theorem C15_atomicity (p p₁ p₂ : Parser) (hp : p.Reachable) (prog : Str) (pre post : List Str)
    (t : Str) (e : CMDError)
    (hacc : Parse.tokens { p with progName := prog } pre = (p₁, .returned ()))
    (hfail : Parse.token p₁ t = (p₂, .thrown e)) :
    (∀ (a : BasicArgument) (str : Str) (e' : CMDError),
      CastFromString a.T str = .error e' →
        a.Read str = (a, .thrown e') ∧ e' = .TypeCastFailure str a.T) ∧
    (∀ (a : ChoiceArgument) (str : Str) (e' : CMDError),
      a.choiceCaster.call a.T str = .error e' →
        a.Read str = (a, .thrown e') ∧
          (e' = .TypeCastFailure str a.T ∨ ∃ n d, e' = .ChoiceViolation n d str)) ∧
    p.Parse (prog :: (pre ++ t :: post)) = (p₁, .thrown e) ∧
    (∀ f a, p₁.fullArguments.find f = some a →
      (a.Setted = true ↔ ∃ tok ∈ pre, p.Names tok f)) := by
  refine ⟨fun a str e' h => ?_, fun a str e' h => ?_, ?_, fun f a hf => ?_⟩
  · refine ⟨?_, LexicalCast_string_error h⟩
    simp only [BasicArgument.Read, StringCaster.call, h]
  · refine ⟨?_, ?_⟩
    · simp only [ChoiceArgument.Read, h]
    · exact Argument.convert_error (a := .choice a) h
  · have hp₂ : p₂ = p₁ := by
      rcases Parse.token_outcome p₁ t with h | ⟨e₁, h⟩
      · rw [hfail] at h
        cases h
      · rw [hfail] at h
        exact (Prod.mk.inj h).1
    rw [hp₂] at hfail
    have hall : Parse.tokens { p with progName := prog } (pre ++ t :: post)
        = (p₁, .thrown e) := by
      rw [Parse.tokens_append pre _ p₁ _ hacc, Parse.tokens_cons_thrown hfail]
    cases pre with
    | nil => exact Parse_of_tokens_thrown hall
    | cons x xs => exact Parse_of_tokens_thrown hall
  · have hwf := hp.wf
    constructor
    · intro hs
      by_contra hcon
      have hfin := Parse.tokens_of_not_named pre _ p₁ hacc f
        (fun tok htok hn => hcon ⟨tok, htok, (Names_congr rfl tok f).1 hn⟩)
      rw [hf] at hfin
      have hmem := Map.mem_of_find f a p.fullArguments hfin.symm
      have := (hwf.entry (f, a) hmem).2.1
      rw [hs] at this
      cases this
    · rintro ⟨tok, htok, hn⟩
      obtain ⟨a₀, v, -, -, -, hfin⟩ := Parse.tokens_of_named pre _ p₁ hacc f tok htok
        ((Names_congr rfl tok f).2 hn)
      rw [hf] at hfin
      cases hfin
      exact Argument.store_setted a₀ v

/-- In the registry of `test.cpp`, `Parse` of `--stringArg=a` and `-i=x`
throws the `TypeCastFailure` of the second token and leaves the registry as
the first token made it. -/
theorem C15_atomicity_witness :
    testParser.Parse ("prog".toList :: (["--stringArg=a".toList] ++ "-i=x".toList :: []))
      = ((Parse.tokens { testParser with progName := "prog".toList }
          ["--stringArg=a".toList]).1, .thrown (.TypeCastFailure ['x'] (.sint .int))) :=
  (C15_atomicity testParser _ _ testParser_built.reachable "prog".toList
    ["--stringArg=a".toList] [] "-i=x".toList (.TypeCastFailure ['x'] (.sint .int))
    (Prod.ext rfl (by decide)) (Prod.ext rfl (by decide))).2.2.1

end Parser

end cmd

/-! ## Integers -/

namespace cmd

namespace detail

theorem CastFromString_int_eq (signed : Bool) (k : IntKind) (s : Str) :
    CastFromString (intTy signed k) s =
      match (extractInteger signed k.bits s).result with
      | none => .error (.TypeCastFailure s (intTy signed k))
      | some i =>
        if !(extractInteger signed k.bits s).eof then
          .error (.TypeCastFailure s (intTy signed k))
        else .ok (intValue signed k i) := by
  cases signed
  · simp only [CastFromString, LexicalCast, intTy, intValue, Value.ty, extract]
    cases hr : (extractInteger false k.bits s).result <;> simp [hr]
  · simp only [CastFromString, LexicalCast, intTy, intValue, Value.ty, extract]
    cases hr : (extractInteger true k.bits s).result <;> simp [hr]

end detail

end cmd

/-! ## The required flag -/

namespace cmd

open detail

namespace Parser

theorem Argument.forget_setted (a : Argument) : a.forget.Setted = a.Setted := by
  cases a <;> rfl

theorem Argument.forget_value (a : Argument) : a.forget.ActualValue = a.ActualValue := by
  cases a <;> rfl

theorem Argument.forget_T (a : Argument) : a.forget.base.T = a.base.T := by
  cases a <;> rfl

theorem Argument.forget_convert (a : Argument) (str : Str) :
    a.forget.convert str = a.convert str := by
  cases a <;> rfl

theorem Argument.forget_store (a : Argument) (v : Value) :
    (a.store v).forget = a.forget.store v := by
  cases a <;> rfl

theorem Argument.forget_isGood (a : Argument) : a.forget.IsGood = a.IsGood := by
  cases a with
  | basic b =>
    simp only [Argument.forget, Argument.IsGood, Argument.base, BasicArgument.IsGood]
    cases b.setted_ <;> cases b.hasDefault_ <;> cases b.required_ <;> rfl
  | choice c =>
    simp only [Argument.forget, Argument.IsGood, Argument.base, BasicArgument.IsGood]
    cases c.setted_ <;> cases c.hasDefault_ <;> cases c.required_ <;> rfl

theorem Map.find_forget (k : Str) :
    ∀ m : Map Argument, Map.find (m.map (fun it => (it.1, it.2.forget))) k
      = (Map.find m k).map Argument.forget
  | [] => rfl
  | (k', v) :: m => by
    by_cases hk : k' = k
    · simp [Map.find, hk]
    · simp only [List.map_cons, Map.find, hk, if_false]
      exact Map.find_forget k m

theorem Map.assign_forget (k : Str) (x : Argument) :
    ∀ m : Map Argument, Map.assign (m.map (fun it => (it.1, it.2.forget))) k x.forget
      = (Map.assign m k x).map (fun it => (it.1, it.2.forget))
  | [] => rfl
  | (k', v) :: m => by
    by_cases hk : k' = k
    · simp [Map.assign, hk]
    · simp only [List.map_cons, Map.assign, hk, if_false, List.cons.injEq, true_and]
      exact Map.assign_forget k x m

theorem forget_ReadWithFullName (p : Parser) (f val : Str) :
    p.forget.ReadWithFullName f val =
      ((p.ReadWithFullName f val).1.forget, (p.ReadWithFullName f val).2) := by
  have hff : p.forget.fullArguments.find f = (p.fullArguments.find f).map Argument.forget :=
    Map.find_forget f p.fullArguments
  cases hfind : p.fullArguments.find f with
  | none =>
    rw [hfind] at hff
    have h₁ : p.ReadWithFullName f val = (p, .thrown (.UnknownArgument f)) := by
      rw [ReadWithFullName_eq, hfind]
    have h₂ : p.forget.ReadWithFullName f val = (p.forget, .thrown (.UnknownArgument f)) := by
      rw [ReadWithFullName_eq, hff]
      rfl
    rw [h₁, h₂]
  | some arg =>
    rw [hfind] at hff
    by_cases hs : arg.Setted = true
    · have h₁ : p.ReadWithFullName f val = (p, .thrown (.DuplicateAssignment f)) := by
        rw [ReadWithFullName_eq, hfind]
        simp [hs]
      have h₂ : p.forget.ReadWithFullName f val
          = (p.forget, .thrown (.DuplicateAssignment f)) := by
        rw [ReadWithFullName_eq, hff]
        simp [Argument.forget_setted, hs]
      rw [h₁, h₂]
    · cases hc : arg.convert val with
      | error e =>
        have h₁ : p.ReadWithFullName f val = (p, .thrown e) := by
          rw [ReadWithFullName_eq, hfind]
          simp [hs, hc]
        have h₂ : p.forget.ReadWithFullName f val = (p.forget, .thrown e) := by
          rw [ReadWithFullName_eq, hff]
          simp [Argument.forget_setted, Argument.forget_convert, hs, hc]
        rw [h₁, h₂]
      | ok v =>
        have h₁ : p.ReadWithFullName f val
            = ({ p with fullArguments := p.fullArguments.assign f (arg.store v) },
              .returned ()) := by
          rw [ReadWithFullName_eq, hfind]
          simp [hs, hc]
        have h₂ : p.forget.ReadWithFullName f val
            = ({ p.forget with fullArguments :=
                  p.forget.fullArguments.assign f (arg.forget.store v) }, .returned ()) := by
          rw [ReadWithFullName_eq, hff]
          simp [Argument.forget_setted, Argument.forget_convert, hs, hc]
        rw [h₁, h₂]
        simp only [forget, ← Argument.forget_store, Map.assign_forget]

theorem forget_token (p : Parser) (tok : Str) :
    Parse.token p.forget tok = ((Parse.token p tok).1.forget, (Parse.token p tok).2) := by
  by_cases he : '=' ∈ tok
  · rw [Parse.token_eq _ tok he, Parse.token_eq _ tok he]
    by_cases h₁ : ['-', '-'] <:+: namePart tok
    · rw [if_pos h₁, if_pos h₁]
      exact forget_ReadWithFullName p _ _
    · rw [if_neg h₁, if_neg h₁]
      by_cases h₂ : '-' ∈ namePart tok
      · rw [if_pos h₂, if_pos h₂]
        show (match p.shortToFull.find (namePart tok) with
          | none => _
          | some full => _) = _
        cases p.shortToFull.find (namePart tok) with
        | none => rfl
        | some full => exact forget_ReadWithFullName p _ _
      · rw [if_neg h₂, if_neg h₂]
  · rw [Parse.token_of_not_mem _ tok he, Parse.token_of_not_mem _ tok he]

theorem forget_tokens :
    ∀ (toks : List Str) (p : Parser),
      Parse.tokens p.forget toks = ((Parse.tokens p toks).1.forget, (Parse.tokens p toks).2)
  | [], _ => rfl
  | tok :: rest, p => by
    rcases Parse.token_outcome p tok with h₁ | ⟨e, h₁⟩
    · have h₂ : Parse.token p tok = ((Parse.token p tok).1, .returned ()) := by
        rw [← h₁]
      have h₃ : Parse.token p.forget tok = ((Parse.token p tok).1.forget, .returned ()) := by
        rw [forget_token, h₁]
      rw [Parse.tokens_cons_returned h₂, Parse.tokens_cons_returned h₃]
      exact forget_tokens rest _
    · have h₃ : Parse.token p.forget tok = (p.forget, .thrown e) := by
        rw [forget_token, h₁]
      rw [Parse.tokens_cons_thrown h₁, Parse.tokens_cons_thrown h₃]

theorem forget_check :
    ∀ m : Map Argument, Parse.check (m.map (fun it => (it.1, it.2.forget))) = Parse.check m
  | [] => rfl
  | it :: rest => by
    simp only [List.map_cons, Parse.check, Argument.forget_isGood, forget_check rest]

theorem forget_Parse (p : Parser) (prog tok : Str) (rest : List Str) :
    p.forget.Parse (prog :: tok :: rest) =
      ((p.Parse (prog :: tok :: rest)).1.forget, (p.Parse (prog :: tok :: rest)).2) := by
  have hf := forget_tokens (tok :: rest) { p with progName := prog }
  rcases Parse.tokens_outcome (tok :: rest) { p with progName := prog } with h₁ | ⟨e, h₁⟩
  · have h₂ : Parse.tokens { p with progName := prog } (tok :: rest)
        = ((Parse.tokens { p with progName := prog } (tok :: rest)).1, .returned ()) := by
      rw [← h₁]
    have h₃ : Parse.tokens { p.forget with progName := prog } (tok :: rest)
        = ((Parse.tokens { p with progName := prog } (tok :: rest)).1.forget, .returned ()) := by
      rw [← h₁]
      exact hf
    rw [Parse_of_tokens_returned h₂, Parse_of_tokens_returned h₃]
    simp only [forget, forget_check]
  · have h₂ : Parse.tokens { p with progName := prog } (tok :: rest)
        = ((Parse.tokens { p with progName := prog } (tok :: rest)).1, .thrown e) := by
      rw [← h₁]
    have h₃ : Parse.tokens { p.forget with progName := prog } (tok :: rest)
        = ((Parse.tokens { p with progName := prog } (tok :: rest)).1.forget, .thrown e) := by
      rw [← h₁]
      exact hf
    rw [Parse_of_tokens_thrown h₂, Parse_of_tokens_thrown h₃]

theorem forget_Get (p : Parser) (T : Ty) (name : Str) : p.forget.Get T name = p.Get T name := by
  have hfull : ∀ f, p.forget.GetWithFullName T f = p.GetWithFullName T f := by
    intro f
    simp only [GetWithFullName, forget, Map.find_forget]
    cases p.fullArguments.find f with
    | none => rfl
    | some a => simp only [Option.map_some', Argument.forget_T, Argument.forget_value]
  simp only [Get, hfull]
  rfl

theorem Argument.forget_forget (a : Argument) : a.forget.forget = a.forget := by
  cases a <;> rfl

theorem forget_idem (p : Parser) : p.forget.forget = p.forget := by
  simp only [forget, List.map_map]
  congr 1
  apply List.map_congr_left
  intro it _
  simp [Argument.forget_forget]

theorem newArgument_forget (T : Ty) (f s d : Str) (r : Bool) (dv : Value) (l : List Value) :
    (if l.length = 0 then Argument.basic (BasicArgument.new T f s d r dv)
      else Argument.choice (ChoiceArgument.new T f s d r dv l)).forget
    = (if l.length = 0 then Argument.basic (BasicArgument.new T f s d false dv)
      else Argument.choice (ChoiceArgument.new T f s d false dv l)).forget := by
  by_cases hl : l.length = 0
  · rw [if_pos hl, if_pos hl]
    by_cases hdv : dv.toBool = true <;> simp [Argument.forget, BasicArgument.new, hdv]
  · rw [if_neg hl, if_neg hl]
    by_cases hdv : dv.toBool = true <;>
      simp [Argument.forget, ChoiceArgument.new, BasicArgument.new, hdv]

theorem forget_Add (p : Parser) (T : Ty) (f s d : Str) (r : Bool) (dv : Value)
    (l : List Value) :
    (p.Add T f s d r dv l).1.forget = (p.forget.Add T f s d false dv l).1.forget := by
  have hff : p.forget.fullArguments.find f = (p.fullArguments.find f).map Argument.forget :=
    Map.find_forget f p.fullArguments
  have hsf : p.forget.shortToFull = p.shortToFull := rfl
  rw [Add_eq, Add_eq, hsf]
  cases hfind : p.fullArguments.find f with
  | some a =>
    rw [hfind] at hff
    have h₁ : (some a : Option Argument) ≠ none := by simp
    have h₂ : p.forget.fullArguments.find f ≠ none := by simp [hff]
    rw [if_pos h₁, if_pos h₂]
    exact (forget_idem p).symm
  | none =>
    rw [hfind] at hff
    have h₁ : ¬ ((none : Option Argument) ≠ none) := by simp
    have h₂ : ¬ (p.forget.fullArguments.find f ≠ none) := by simp [hff]
    rw [if_neg h₁, if_neg h₂]
    by_cases hs : s ≠ [] ∧ p.shortToFull.find s ≠ none
    · rw [if_pos hs, if_pos hs]
      exact (forget_idem p).symm
    · rw [if_neg hs, if_neg hs]
      have := newArgument_forget T f s d r dv l
      simp only [forget, List.map_append, List.map_map, List.map_cons, List.map_nil, this]
      congr 2
      apply List.map_congr_left
      intro it _
      simp [Argument.forget_forget]

theorem SameButRequired.forget_eq {p q : Parser} (h : p.SameButRequired q) :
    p.forget = q.forget := by
  induction h with
  | new => rfl
  | add p q T f s d r₁ r₂ dv l _ ih =>
    rw [forget_Add p, forget_Add q, ih]

/-- C17 (the required flag).  For two registries built by the same calls of
`Add` but for the required flags, and a command line with a token: `Parse`
has the same outcome on both, leaves registries that differ in nothing but the
required flags (and the usage text that prints them), and every `Get` returns
the same on both; without a token both calls end the process with status 1.
`IsGood` returns `true` for an argument with a default, required or not, so
such an argument may be left out of the command line. -/
theorem C17_required_flag (p q : Parser) (h : p.SameButRequired q) (argv : List Str) :
    (2 ≤ argv.length →
      (p.Parse argv).2 = (q.Parse argv).2 ∧
      (p.Parse argv).1.forget = (q.Parse argv).1.forget ∧
      ∀ T name, (p.Parse argv).1.Get T name = (q.Parse argv).1.Get T name) ∧
    (argv.length = 1 →
      ∃ o₁ o₂, (p.Parse argv).2 = .exited 1 o₁ ∧ (q.Parse argv).2 = .exited 1 o₂) ∧
    (∀ a : Argument, a.base.hasDefault_ = true → a.IsGood = .returned true) := by
  have hfor := h.forget_eq
  refine ⟨fun hlen => ?_, fun hlen => ?_, fun a ha => ?_⟩
  · match argv, hlen with
    | prog :: tok :: rest, _ =>
      have hp := forget_Parse p prog tok rest
      have hq := forget_Parse q prog tok rest
      rw [hfor] at hp
      have heq := hp.symm.trans hq
      have h₁ := (Prod.mk.inj heq).1
      have h₂ := (Prod.mk.inj heq).2
      refine ⟨h₂, h₁, fun T name => ?_⟩
      rw [← forget_Get (p.Parse (prog :: tok :: rest)).1, h₁, forget_Get]
  · match argv, hlen with
    | [prog], _ => exact ⟨_, _, rfl, rfl⟩
  · have : a.base.setted_ = true ∨ a.base.hasDefault_ = true ∨
        ((!a.base.required_) = true ∧ a.base.hasDefault_ = true) := Or.inr (Or.inl ha)
    simp only [Argument.IsGood, BasicArgument.IsGood, this, if_true]

theorem testParser_flipped : testParser.SameButRequired testParserFlipped := by
  unfold testParser testParserFlipped
  exact SameButRequired.add _ _ _ _ _ _ _ _ _ _ (SameButRequired.add _ _ _ _ _ _ _ _ _ _
    (SameButRequired.add _ _ _ _ _ _ _ _ _ _
      (SameButRequired.add _ _ _ _ _ _ _ _ _ _ SameButRequired.new)))

/-- The registry of `test.cpp` and the one with the required flags turned
around give the same outcome on the command line that leaves out the required
`--intArg`, which has a default. -/
theorem C17_required_flag_witness :
    (testParser.Parse ["prog".toList, "--stringArg=a".toList]).2
      = (testParserFlipped.Parse ["prog".toList, "--stringArg=a".toList]).2 :=
  ((C17_required_flag testParser testParserFlipped testParser_flipped
    ["prog".toList, "--stringArg=a".toList]).1 (by decide)).1

end Parser

end cmd

/-! ## Defaults of choice arguments, order of tokens, bounds of the split -/

namespace cmd

open detail

namespace Parser

/-- C18 (default of a choice argument).  There are a registry with a choice
argument, whose default 5 is none of its choices 1, 2 and 3, and a command line
that does not name the argument, such that `Parse` returns and `Get` returns
the default, a value that equals no member of the list of choices. -/
theorem C18_choice_default :
    ∃ (p : Parser) (argv : List Str) (f s : Str) (T : Ty) (L : List Value) (v : Value),
      p.fullArguments.find f = some (.choice (ChoiceArgument.new T f s [] false v L)) ∧
      L ≠ [] ∧
      (∀ tok ∈ argv.tail, ¬ p.Names tok f) ∧
      (p.Parse argv).2 = .returned () ∧
      (p.Parse argv).1.Get T f = .returned v ∧
      (∀ x ∈ L, Value.eq x v = false) ∧
      ChoiceCaster.count (ChoiceCaster.new L).choiceList v = 0 :=
  ⟨levelParser, ["prog".toList, "--name=a".toList], "--level".toList, "-l".toList, .sint .int,
    [.sint .int 1, .sint .int 2, .sint .int 3], .sint .int 5,
    by decide, by decide, by decide, by decide, by decide, by decide, by decide⟩

theorem Map.assign_comm {β : Type} {g g' : Str} (hne : g ≠ g') (x y : β) :
    ∀ m : Map β, (m.assign g x).assign g' y = (m.assign g' y).assign g x
  | [] => rfl
  | (k, v) :: m => by
    by_cases h₁ : k = g
    · have h₂ : ¬ k = g' := fun h => hne (h₁.symm.trans h)
      simp [Map.assign, h₁, h₂, hne]
    · by_cases h₂ : k = g'
      · simp [Map.assign, h₁, h₂, Ne.symm hne]
      · simp [Map.assign, h₁, h₂, Map.assign_comm hne x y m]

/-- Two tokens that are accepted one after the other are accepted in the other
order, with the same registry as result. -/
theorem Parse.token_swap {p p₁ p₂ : Parser} {a b : Str}
    (ha : Parse.token p a = (p₁, .returned ())) (hb : Parse.token p₁ b = (p₂, .returned ())) :
    ∃ q, Parse.token p b = (q, .returned ()) ∧ Parse.token q a = (p₂, .returned ()) := by
  obtain ⟨g, arg, v, hng, hfg, hsg, hcg, rfl⟩ := Parse.token_returned ha
  obtain ⟨g', arg', v', hng', hfg', hsg', hcg', rfl⟩ := Parse.token_returned hb
  have hng'' : p.Names b g' := (Names_congr rfl b g').1 hng'
  have hne : g ≠ g' := by
    rintro rfl
    rw [Map.find_assign, if_pos rfl, hfg] at hfg'
    simp only [Option.map_some', Option.some.injEq] at hfg'
    rw [← hfg', Argument.store_setted] at hsg'
    cases hsg'
  have hfg'₀ : p.fullArguments.find g' = some arg' := by
    rw [Map.find_assign, if_neg (Ne.symm hne)] at hfg'
    exact hfg'
  refine ⟨{ p with fullArguments := p.fullArguments.assign g' (arg'.store v') }, ?_, ?_⟩
  · rw [Parse.token_of_names hng'', ReadWithFullName_eq, hfg'₀]
    simp [hsg', hcg']
  · have hng₂ : ({ p with fullArguments := p.fullArguments.assign g' (arg'.store v') }
        : Parser).Names a g := (Names_congr rfl a g).2 hng
    rw [Parse.token_of_names hng₂, ReadWithFullName_eq]
    simp only [Map.find_assign, if_neg hne, hfg, hsg, hcg]
    simp [Map.assign_comm hne]

theorem Parse.tokens_perm {l₁ l₂ : List Str} (hperm : l₁.Perm l₂) :
    ∀ p p' : Parser, Parse.tokens p l₁ = (p', .returned ()) →
      Parse.tokens p l₂ = (p', .returned ()) := by
  induction hperm with
  | nil => exact fun _ _ h => h
  | cons x _ ih =>
    intro p p' h
    obtain ⟨p₁, h₁, h₂⟩ := Parse.tokens_cons_inv h
    rw [Parse.tokens_cons_returned h₁]
    exact ih p₁ p' h₂
  | swap x y l =>
    intro p p' h
    obtain ⟨p₁, h₁, h₂⟩ := Parse.tokens_cons_inv h
    obtain ⟨p₂, h₃, h₄⟩ := Parse.tokens_cons_inv h₂
    obtain ⟨q, h₅, h₆⟩ := Parse.token_swap h₁ h₃
    rw [Parse.tokens_cons_returned h₅, Parse.tokens_cons_returned h₆]
    exact h₄
  | trans _ _ ih₁ ih₂ => exact fun p p' h => ih₂ p p' (ih₁ p p' h)

/-- C19 (order of tokens).  When `Parse` returns on a command line, it returns
on the command line with the tokens in any other order, and leaves the same
registry: every argument with the same set flag and the same value. -/
theorem C19_token_order (p p' : Parser) (prog : Str) (toks toks' : List Str)
    (h : p.Parse (prog :: toks) = (p', .returned ())) (hperm : toks.Perm toks') :
    p.Parse (prog :: toks') = (p', .returned ()) := by
  obtain ⟨prog₀, toks₀, heq, ht, hc⟩ := Parse_returned h
  cases heq
  have ht' := Parse.tokens_perm hperm _ _ ht
  match toks', hperm, ht' with
  | [], hperm, _ =>
    have : toks = [] := List.Perm.eq_nil hperm
    subst this
    simp [Parse] at h
  | tok :: rest, _, ht' =>
    rw [Parse_of_tokens_returned ht', hc]

/-- In the registry of `test.cpp`, the tokens `-i=5` and `--stringArg=a` give
what `--stringArg=a` and `-i=5` give. -/
theorem C19_token_order_witness :
    testParser.Parse ("prog".toList :: ["-i=5".toList, "--stringArg=a".toList])
      = ((testParser.Parse ("prog".toList :: ["--stringArg=a".toList, "-i=5".toList])).1,
        .returned ()) :=
  C19_token_order testParser _ "prog".toList ["--stringArg=a".toList, "-i=5".toList]
    ["-i=5".toList, "--stringArg=a".toList] (Prod.ext rfl (by decide))
    (List.Perm.swap _ _ _)

end Parser

namespace detail

/-- C20 (bounds of the split).  For a text that holds a `=`, `StringSplit`
with the pattern `=` terminates and returns one piece more than there are `=`
in the text, hence two pieces at least: the elements 0 and 1 exist, and the
loop body of `Parse` neither runs out of bounds nor fails to terminate. -/
theorem C20_safe_indexing (s : Str) (h : '=' ∈ s) :
    ∃ ps, StringSplit s ['='] = some ps ∧ ps.length = s.count '=' + 1 ∧ 2 ≤ ps.length ∧
      (∃ name value, ps.get? 0 = some name ∧ ps.get? 1 = some value) ∧
      ∀ p : Parser, (Parser.Parse.token p s).2 ≠ .undefined ∧
        (Parser.Parse.token p s).2 ≠ .diverged := by
  have hne : s ≠ [] := by
    rintro rfl
    cases h
  have hcount : 1 ≤ s.count '=' := List.count_pos_iff.2 h
  have hlen := pieces_length s
  refine ⟨pieces s, StringSplit_eq s hne, hlen, by omega, ?_, fun p => ?_⟩
  · match hp : pieces s, hlen with
    | a :: b :: _, _ => exact ⟨a, b, rfl, rfl⟩
    | [_], hlen => simp at hlen; omega
    | [], hlen => simp at hlen
  · rcases Parser.Parse.token_outcome p s with h₁ | ⟨e, h₁⟩
    · rw [h₁]
      exact ⟨fun hc => (by cases hc), fun hc => (by cases hc)⟩
    · rw [h₁]
      exact ⟨fun hc => (by cases hc), fun hc => (by cases hc)⟩

/-- The texts `=`, `--a=` and `=v` are split into two pieces. -/
theorem C20_safe_indexing_witness :
    (∃ ps, StringSplit ['='] ['='] = some ps ∧ ps.length = ['='].count '=' + 1 ∧
      2 ≤ ps.length ∧
      (∃ name value, ps.get? 0 = some name ∧ ps.get? 1 = some value) ∧
      ∀ p : Parser, (Parser.Parse.token p ['=']).2 ≠ .undefined ∧
        (Parser.Parse.token p ['=']).2 ≠ .diverged) ∧
    StringSplit "--a=".toList ['='] = some ["--a".toList, []] ∧
    StringSplit "=v".toList ['='] = some [[], ['v']] :=
  ⟨C20_safe_indexing ['='] (by decide), by decide, by decide⟩

end detail

end cmd

/-! ## Two tokens for one argument -/

namespace cmd

open detail

namespace Parser

/-- A token with a separator that carries the full name or the short name of
a registered argument is resolved to that argument, when the full name starts
with `--` and the short name, if there is one, starts with `-` and holds no
`--`. -/
theorem names_of_namedBy {p : Parser} (hwf : p.WF) {f : Str} {a : Argument}
    (ha : (f, a) ∈ p.fullArguments) (hf : ['-', '-'] <+: f)
    (hs : a.ShortName = [] ∨ (['-'] <+: a.ShortName ∧ ¬ ['-', '-'] <:+: a.ShortName))
    {tok : Str} (he : '=' ∈ tok) (hn : a.NamedBy tok) : p.Names tok f := by
  obtain ⟨hfull, -, -, hshort⟩ := hwf.entry (f, a) ha
  rcases hn with hn | ⟨hne, hn⟩
  · refine ⟨he, Or.inl ⟨?_, hn.trans hfull⟩⟩
    rw [hn, hfull]
    exact hf.isInfix
  · rcases hs with hs | ⟨hs₁, hs₂⟩
    · exact absurd hs hne
    · refine ⟨he, Or.inr ⟨?_, ?_, ?_⟩⟩
      · rw [hn]
        exact hs₂
      · rw [hn]
        obtain ⟨t, ht⟩ := hs₁
        rw [← ht]
        simp
      · rw [hn]
        exact hshort hne

/-- C4 (no double assignment).  In a registry built by calls of `Add`, let an
argument be registered with a full name `f` that starts with `--` and a short
name that is empty or starts with `-` and holds no `--`.  When two tokens carry
the full name or the short name of the argument in front of their first `=`,
in any combination, the second one `t₂` holds a `=`, and the tokens before `t₂`
were accepted, `Parse` throws `DuplicateAssignment` for `f` at `t₂`: the
registry is left as the tokens before `t₂` made it, with the value converted
from the first token `t₁` stored in the argument. -/
theorem C4_no_double_assignment (p p₁ : Parser) (hp : p.Reachable) (prog : Str)
    (pre post : List Str) (t₁ t₂ f : Str) (a : Argument)
    (ha : (f, a) ∈ p.fullArguments) (hf : ['-', '-'] <+: f)
    (hs : a.ShortName = [] ∨ (['-'] <+: a.ShortName ∧ ¬ ['-', '-'] <:+: a.ShortName))
    (h₁ : t₁ ∈ pre) (hn₁ : a.NamedBy t₁) (hn₂ : a.NamedBy t₂) (he : '=' ∈ t₂)
    (hacc : Parse.tokens { p with progName := prog } pre = (p₁, .returned ())) :
    p.Parse (prog :: (pre ++ t₂ :: post)) = (p₁, .thrown (.DuplicateAssignment f)) ∧
      ∃ v, a.convert (valuePart t₁) = .ok v ∧
        p₁.fullArguments.find f = some (a.store v) ∧ (a.store v).ActualValue = v := by
  have hwf := hp.wf
  obtain ⟨g, hg, -⟩ := Parse.tokens_all_named pre _ p₁ hacc t₁ h₁
  have he₁ : '=' ∈ t₁ := hg.1
  have hN₁ : p.Names t₁ f := names_of_namedBy hwf ha hf hs he₁ hn₁
  have hN₂ : p.Names t₂ f := names_of_namedBy hwf ha hf hs he hn₂
  obtain ⟨hparse, a', v, ha', hc, hfin⟩ :=
    Parse_duplicate_of_names p p₁ prog pre post t₁ t₂ f h₁ hN₁ hN₂ hacc
  have haa : a' = a := by
    have := hwf.found (f, a) ha
    rw [ha'] at this
    exact (Option.some.inj this)
  subst haa
  exact ⟨hparse, v, hc, hfin, Argument.store_value a' v⟩

/-- In the registry of `test.cpp`, the tokens `--stringArg=a` and `-s=b` carry
the full and the short name of one argument: `Parse` throws
`DuplicateAssignment` at the second, and the argument keeps the text `a`. -/
theorem C4_no_double_assignment_witness :
    testParser.Parse ("prog".toList :: (["--stringArg=a".toList] ++ "-s=b".toList :: []))
      = ((Parse.tokens { testParser with progName := "prog".toList } ["--stringArg=a".toList]).1,
          .thrown (.DuplicateAssignment "--stringArg".toList)) ∧
      ∃ v, (Argument.basic (BasicArgument.new .string "--stringArg".toList "-s".toList
          "this is a string argument".toList true (Ty.zero .string))).convert
            (valuePart "--stringArg=a".toList) = .ok v ∧
        (Parse.tokens { testParser with progName := "prog".toList }
          ["--stringArg=a".toList]).1.fullArguments.find "--stringArg".toList
          = some ((Argument.basic (BasicArgument.new .string "--stringArg".toList "-s".toList
              "this is a string argument".toList true (Ty.zero .string))).store v) ∧
        ((Argument.basic (BasicArgument.new .string "--stringArg".toList "-s".toList
            "this is a string argument".toList true (Ty.zero .string))).store v).ActualValue
          = v :=
  C4_no_double_assignment testParser _ testParser_built.reachable "prog".toList
    ["--stringArg=a".toList] [] "--stringArg=a".toList "-s=b".toList "--stringArg".toList
    (.basic (BasicArgument.new .string "--stringArg".toList "-s".toList
      "this is a string argument".toList true (Ty.zero .string)))
    (by decide) (by decide) (by decide) (by decide) (by decide) (by decide) (by decide)
    (Prod.ext rfl (by decide))

/-- Two registries where the second token for an argument does not end in
`DuplicateAssignment`.  After `Add<std::string>("name", "-n")` the tokens
`-n=a` and `name=b` carry the short and the full name of the one argument, the
first is accepted, and `Parse` throws `MalformedToken` at the second.  After
`Add<std::string>("--name")` the token `--name=a` is accepted and the text
`--name`, the full name without a separator, makes `Parse` throw
`MalformedToken` as well. -/
theorem C4_no_double_assignment_counterexample :
    (bareParser.fullArguments.map (fun it => it.1) = ["name".toList] ∧
      (∀ it ∈ bareParser.fullArguments,
        it.2.NamedBy "-n=a".toList ∧ it.2.NamedBy "name=b".toList) ∧
      (Parse.tokens { bareParser with progName := "prog".toList } ["-n=a".toList]).2
        = .returned () ∧
      (bareParser.Parse ["prog".toList, "-n=a".toList, "name=b".toList]).2
        = .thrown (.MalformedToken "name=b".toList)) ∧
    (nameParser.fullArguments.map (fun it => it.1) = ["--name".toList] ∧
      (∀ it ∈ nameParser.fullArguments,
        it.2.NamedBy "--name=a".toList ∧ it.2.NamedBy "--name".toList) ∧
      (Parse.tokens { nameParser with progName := "prog".toList } ["--name=a".toList]).2
        = .returned () ∧
      (nameParser.Parse ["prog".toList, "--name=a".toList, "--name".toList]).2
        = .thrown (.MalformedToken "--name".toList)) := by
  decide

end Parser

end cmd

/-! ## Integers and the character types -/

namespace cmd

namespace detail

/-- For the character types `CastFromString` throws on every text: the stream
reads one character and does not reach the end of the text, or there is no
character to read. -/
theorem extractChar_cases (c : CharKind) (s : Str) :
    extractChar c s = ⟨none, true⟩ ∨ ∃ v, extractChar c s = ⟨some v, false⟩ := by
  unfold extractChar
  split
  · exact Or.inl rfl
  · exact Or.inr ⟨_, rfl⟩

theorem CastFromString_chr (c : CharKind) (s : Str) :
    CastFromString (.chr c) s = .error (.TypeCastFailure s (.chr c)) := by
  simp only [CastFromString, LexicalCast, Value.ty, extract]
  rcases extractChar_cases c s with h | ⟨v, h⟩ <;> simp [h]

end detail

end cmd

namespace cmd

namespace detail

/-- C16 (integers).  For a signed or unsigned integer type of 16 bits or more
(`short`, `int`, `long`, `long long`): a text made of an optional sign and
digits followed by further characters that are not all digits (followed by
digits only it would be a longer numeral), and the empty text, make
`CastFromString` throw `TypeCastFailure`; a text that is exactly an optional
sign and digits, denoting an integer in the range of the type, converts to that
integer.  For the integer types of 8 bits (`char`, `signed char`,
`unsigned char`) every text makes `CastFromString` throw `TypeCastFailure`, a
numeral in range as well. -/
theorem C16_integer_leftover (signed : Bool) (k : IntKind) (sgn ds : Str)
    (hsgn : sgn = [] ∨ sgn = ['+'] ∨ sgn = ['-']) (hne : ds ≠ [])
    (hdig : ∀ c ∈ ds, isDigit c = true) :
    (∀ rest : Str, rest ≠ [] → ¬ (∀ c ∈ rest, isDigit c = true) →
      CastFromString (intTy signed k) (sgn ++ ds ++ rest)
        = .error (.TypeCastFailure (sgn ++ ds ++ rest) (intTy signed k))) ∧
    CastFromString (intTy signed k) [] = .error (.TypeCastFailure [] (intTy signed k)) ∧
    ((if signed then -(2 ^ (k.bits - 1) : Int) else 0) ≤ numeralValue sgn ds →
      numeralValue sgn ds < (if signed then (2 ^ (k.bits - 1) : Int) else 2 ^ k.bits) →
      CastFromString (intTy signed k) (sgn ++ ds)
        = .ok (intValue signed k (numeralValue sgn ds))) ∧
    (∀ (c : CharKind) (s : Str),
      CastFromString (.chr c) s = .error (.TypeCastFailure s (.chr c))) := by
  refine ⟨fun rest _ hrest => ?_, ?_, fun hlo hhi => ?_, CastFromString_chr⟩
  · have hsplit : rest = rest.takeWhile isDigit ++ rest.dropWhile isDigit :=
      (List.takeWhile_append_dropWhile isDigit rest).symm
    have hdrop : ∃ c r, rest.dropWhile isDigit = c :: r ∧ isDigit c = false := by
      rcases dropWhile_head isDigit rest with h | h
      · exfalso
        apply hrest
        intro c hc
        rw [hsplit, h, List.append_nil] at hc
        exact List.mem_takeWhile_imp hc
      · exact h
    have hshape := extractInteger_shape signed k.bits [] sgn (ds ++ rest.takeWhile isDigit)
      (rest.dropWhile isDigit) (fun c hc => by cases hc) hsgn (by simp [hne])
      (fun c hc => by
        rcases List.mem_append.1 hc with hc | hc
        · exact hdig c hc
        · exact List.mem_takeWhile_imp hc)
      (Or.inr hdrop)
    have heq : [] ++ sgn ++ (ds ++ rest.takeWhile isDigit) ++ rest.dropWhile isDigit
        = sgn ++ ds ++ rest := by
      conv_rhs => rw [hsplit]
      simp [List.append_assoc]
    rw [heq] at hshape
    obtain ⟨c, r, hcr, -⟩ := hdrop
    have heof : (extractInteger signed k.bits (sgn ++ ds ++ rest)).eof = false := by
      rw [hshape, hcr]
      split_ifs <;> rfl
    rw [CastFromString_int_eq, heof]
    cases (extractInteger signed k.bits (sgn ++ ds ++ rest)).result <;> rfl
  · rw [CastFromString_int_eq]
    simp [extractInteger]
  · have hshape := extractInteger_shape signed k.bits [] sgn ds []
      (fun c hc => by cases hc) hsgn hne hdig (Or.inl rfl)
    simp only [List.nil_append, List.append_nil] at hshape
    rw [CastFromString_int_eq, hshape]
    have hP : ((2 ^ (k.bits - 1) : Nat) : Int) = (2 : Int) ^ (k.bits - 1) := by push_cast; rfl
    have hQ : ((2 ^ k.bits : Nat) : Int) = (2 : Int) ^ k.bits := by push_cast; rfl
    have h1 : (1 : Nat) ≤ 2 ^ (k.bits - 1) := Nat.one_le_two_pow
    have h2 : (1 : Nat) ≤ 2 ^ k.bits := Nat.one_le_two_pow
    rw [← hP, ← hQ] at hhi
    rw [← hP] at hlo
    unfold numeralValue at hlo hhi ⊢
    generalize 2 ^ (k.bits - 1) = P at hlo hhi h1 ⊢
    generalize 2 ^ k.bits = Q at hhi h2 ⊢
    generalize decimalValue ds = n at hlo hhi ⊢
    cases signed
    · by_cases hs : sgn = ['-']
      · simp only [hs, if_true, Bool.false_eq_true, if_false] at hlo hhi ⊢
        have hn : n = 0 := by omega
        subst hn
        have hcmp : ¬ (Q - 1 < 0) := by omega
        simp [hcmp, intValue]
      · simp only [hs, if_false, Bool.false_eq_true] at hlo hhi ⊢
        have hcmp : ¬ (Q - 1 < n) := by omega
        simp [hcmp, intValue]
    · by_cases hs : sgn = ['-']
      · simp only [hs, if_true] at hlo hhi ⊢
        have hcmp : ¬ (P < n) := by omega
        simp [hcmp, intValue]
      · simp only [hs, if_false, if_true] at hlo hhi ⊢
        have hcmp : ¬ (P - 1 < n) := by omega
        simp [hcmp, intValue]

/-- For `int`: the texts `12abc`, `12 ` and `1.5` make `CastFromString` throw
`TypeCastFailure`, and the text `-12` converts to -12.  For `signed char` the
text `12` makes it throw. -/
theorem C16_integer_leftover_witness :
    CastFromString (.sint .int) "12abc".toList
      = .error (.TypeCastFailure "12abc".toList (.sint .int)) ∧
    CastFromString (.sint .int) "12 ".toList
      = .error (.TypeCastFailure "12 ".toList (.sint .int)) ∧
    CastFromString (.sint .int) "1.5".toList
      = .error (.TypeCastFailure "1.5".toList (.sint .int)) ∧
    CastFromString (.sint .int) "-12".toList = .ok (.sint .int (-12)) ∧
    CastFromString (.chr .schar) "12".toList
      = .error (.TypeCastFailure "12".toList (.chr .schar)) :=
  ⟨(C16_integer_leftover true .int [] ['1', '2'] (by decide) (by decide) (by decide)).1
      ['a', 'b', 'c'] (by decide) (by decide),
    (C16_integer_leftover true .int [] ['1', '2'] (by decide) (by decide) (by decide)).1
      [' '] (by decide) (by decide),
    (C16_integer_leftover true .int [] ['1'] (by decide) (by decide) (by decide)).1
      ['.', '5'] (by decide) (by decide),
    (C16_integer_leftover true .int ['-'] ['1', '2'] (by decide) (by decide) (by decide)).2.2.1
      (by decide) (by decide),
    (C16_integer_leftover true .int [] ['1', '2'] (by decide) (by decide) (by decide)).2.2.2
      .schar "12".toList⟩

/-- The text `5` is a decimal numeral in the range of `signed char`,
`unsigned char` and `char`, the integer types of 8 bits; `CastFromString`
throws `TypeCastFailure` for it, where the `int` 5 is returned for `int`.  The
stream reads the one character `5`, whose code is 53, and has not reached the
end of the text then. -/
theorem C16_integer_leftover_counterexample :
    (∀ c ∈ ['5'], isDigit c = true) ∧ numeralValue [] ['5'] = 5 ∧
    Value.inRange (.chr .schar 5) = true ∧ Value.inRange (.chr .uchar 5) = true ∧
    Value.inRange (.chr .char 5) = true ∧
    extract (.chr .schar) ['5'] = ⟨some (.chr .schar 53), false⟩ ∧
    CastFromString (.chr .schar) ['5'] = .error (.TypeCastFailure ['5'] (.chr .schar)) ∧
    CastFromString (.chr .uchar) ['5'] = .error (.TypeCastFailure ['5'] (.chr .uchar)) ∧
    CastFromString (.chr .char) ['5'] = .error (.TypeCastFailure ['5'] (.chr .char)) ∧
    CastFromString (.sint .int) ['5'] = .ok (.sint .int 5) := by
  decide

end detail

end cmd

/-! ## The value caster: floating point -/

namespace cmd

namespace detail

theorem scanFloat_digit (c : Char) (cs : Str) (mant dec sci sgn : Bool) (acc : Str)
    (hc : isDigit c = true) :
    scanFloat (c :: cs) mant dec sci sgn acc = scanFloat cs true dec sci false (c :: acc) := by
  obtain ⟨-, h₁, h₂⟩ := isDigit_not_special hc
  simp [scanFloat, hc, h₁, h₂]

theorem scanFloat_digits :
    ∀ (ds rest : Str) (dec sci : Bool) (acc : Str), (∀ c ∈ ds, isDigit c = true) →
      scanFloat (ds ++ rest) true dec sci false acc
        = scanFloat rest true dec sci false (ds.reverse ++ acc)
  | [], _, _, _, _, _ => rfl
  | c :: ds, rest, dec, sci, acc, h => by
    rw [List.cons_append, scanFloat_digit c _ _ _ _ _ _ (h c (List.mem_cons_self _ _)),
      scanFloat_digits ds rest dec sci _ (fun x hx => h x (List.mem_cons_of_mem _ hx))]
    simp

theorem scanFloat_exponent (ex : Str) (x : Int) (h : IsExponentPart ex x) (dec : Bool)
    (acc : Str) :
    scanFloat ex true dec false false acc = (acc.reverse ++ ex, []) := by
  rcases h with ⟨rfl, -⟩ | ⟨s, eds, rfl, hs, hne, hdig, -⟩
  · simp [scanFloat]
  · have h₁ : scanFloat ('e' :: s :: eds) true dec false false acc
        = scanFloat (s :: eds) true dec true true ('e' :: acc) := by
      simp [scanFloat, show isDigit 'e' = false by decide]
    have h₂ : scanFloat (s :: eds) true dec true true ('e' :: acc)
        = scanFloat eds true dec true false (s :: 'e' :: acc) := by
      rcases hs with rfl | rfl <;> simp [scanFloat]
    have h₃ := scanFloat_digits eds [] dec true (s :: 'e' :: acc) hdig
    rw [List.append_nil] at h₃
    rw [h₁, h₂, h₃]
    simp [scanFloat]

end detail

end cmd

namespace cmd

namespace detail

theorem takeSign_sign (s : Char) (eds : Str) (hs : s = '+' ∨ s = '-') :
    takeSign (s :: eds) = (decide (s = '-'), eds) := by
  rcases hs with rfl | rfl <;> rfl

/-- The conversion of a numeral text: digits, a fraction written by
`withFraction`, and an exponent part. -/
theorem convertField_numeral (k : FloatKind) (neg : Bool) (ip fp ex : Str) (x : Int)
    (hip : ip ≠ []) (hipd : ∀ c ∈ ip, isDigit c = true) (hfpd : ∀ c ∈ fp, isDigit c = true)
    (hex : IsExponentPart ex x) :
    convertField k neg (Flt.withFraction ip fp ++ ex) =
      if decimalValue (ip ++ fp) = 0 then some (.finite neg 0 0)
      else Flt.ofDecimal k neg (decimalValue (ip ++ fp)) (x - fp.length) := by
  rcases hex with ⟨rfl, rfl⟩ | ⟨s, eds, rfl, hs, hne, hdig, rfl⟩
  · cases fp with
    | nil =>
      obtain ⟨h₁, h₂⟩ := takeWhile_all ip [] hipd (Or.inl rfl)
      simp only [List.append_nil] at h₁ h₂
      have hT : Flt.withFraction ip [] ++ [] = ip := by simp [Flt.withFraction]
      rw [hT]
      unfold convertField
      simp only [h₁, h₂]
      simp [Flt.ofDecimal, hip]
    | cons c fp' =>
      have hT : Flt.withFraction ip (c :: fp') ++ [] = ip ++ ('.' :: (c :: fp')) := by
        simp [Flt.withFraction]
      obtain ⟨h₁, h₂⟩ := takeWhile_all ip ('.' :: (c :: fp')) hipd
        (Or.inr ⟨'.', _, rfl, by decide⟩)
      obtain ⟨h₄, h₅⟩ := takeWhile_all (c :: fp') [] hfpd (Or.inl rfl)
      simp only [List.append_nil] at h₄ h₅
      rw [hT]
      unfold convertField
      simp only [h₁, h₂, h₄, h₅]
      simp [Flt.ofDecimal, hip]
  · have hall : eds.all isDigit = true := List.all_eq_true.2 hdig
    have hemp : eds.isEmpty = false := by
      cases eds with
      | nil => exact absurd rfl hne
      | cons _ _ => rfl
    have hts := takeSign_sign s eds hs
    cases fp with
    | nil =>
      obtain ⟨h₁, h₂⟩ := takeWhile_all ip ('e' :: s :: eds) hipd
        (Or.inr ⟨'e', _, rfl, by decide⟩)
      have hT : Flt.withFraction ip [] ++ 'e' :: s :: eds = ip ++ 'e' :: s :: eds := by
        simp [Flt.withFraction]
      have h₄ : List.takeWhile isDigit ('e' :: s :: eds) = [] := by
        simp [List.takeWhile, show isDigit 'e' = false by decide]
      have h₅ : List.dropWhile isDigit ('e' :: s :: eds) = 'e' :: s :: eds := by
        simp [List.dropWhile, show isDigit 'e' = false by decide]
      rw [hT]
      unfold convertField
      simp only [h₁, h₂]
      simp [Flt.ofDecimal, hip, h₄, h₅, hts, hall, hemp, hdig]
    | cons c fp' =>
      have hT : Flt.withFraction ip (c :: fp') ++ 'e' :: s :: eds
          = ip ++ ('.' :: ((c :: fp') ++ 'e' :: s :: eds)) := by
        simp [Flt.withFraction]
      obtain ⟨h₁, h₂⟩ := takeWhile_all ip ('.' :: ((c :: fp') ++ 'e' :: s :: eds)) hipd
        (Or.inr ⟨'.', _, rfl, by decide⟩)
      obtain ⟨h₄, h₅⟩ := takeWhile_all (c :: fp') ('e' :: s :: eds) hfpd
        (Or.inr ⟨'e', _, rfl, by decide⟩)
      rw [hT]
      unfold convertField
      simp only [h₁, h₂, h₄, h₅, hts, hall, hemp]
      simp [Flt.ofDecimal, hip]

end detail

end cmd

namespace cmd

namespace detail

/-- The text after the integer digits of a numeral: the fraction written by
`withFraction` and the exponent part. -/
theorem withFraction_append (ip fp ex : Str) :
    Flt.withFraction ip fp ++ ex = ip ++ ((if fp = [] then [] else '.' :: fp) ++ ex) := by
  cases fp <;> simp [Flt.withFraction]

theorem scanFloat_tail (fp ex : Str) (x : Int) (hfpd : ∀ c ∈ fp, isDigit c = true)
    (hex : IsExponentPart ex x) (acc : Str) :
    scanFloat ((if fp = [] then [] else '.' :: fp) ++ ex) true false false false acc
      = (acc.reverse ++ ((if fp = [] then [] else '.' :: fp) ++ ex), []) := by
  cases fp with
  | nil => simpa using scanFloat_exponent ex x hex false acc
  | cons c fp' =>
    have h₁ : scanFloat ('.' :: ((c :: fp') ++ ex)) true false false false acc
        = scanFloat ((c :: fp') ++ ex) true true false false ('.' :: acc) := by
      simp [scanFloat, show isDigit '.' = false by decide]
    have h₂ := scanFloat_digits (c :: fp') ex true false ('.' :: acc) hfpd
    have h₃ := scanFloat_exponent ex x hex true ((c :: fp').reverse ++ '.' :: acc)
    simp only [if_neg (List.cons_ne_nil c fp'), List.cons_append] at h₁ ⊢
    rw [h₁]
    rw [List.cons_append] at h₂
    rw [h₂, h₃]
    simp

theorem tail_head (fp ex : Str) (x : Int) (hex : IsExponentPart ex x) :
    (if fp = [] then [] else '.' :: fp) ++ ex = [] ∨
      ∃ c r, (if fp = [] then [] else '.' :: fp) ++ ex = c :: r ∧ isDigit c = false ∧
        c ≠ '0' := by
  cases fp with
  | nil =>
    rcases hex with ⟨rfl, -⟩ | ⟨s, eds, rfl, -⟩
    · exact Or.inl rfl
    · exact Or.inr ⟨'e', _, rfl, by decide, by decide⟩
  | cons c fp' => exact Or.inr ⟨'.', _, rfl, by decide, by decide⟩

/-- Extraction of a floating-point number from a numeral text: an optional
minus sign, digits that are a single zero or do not start with a zero, a
fraction and an exponent part.  The whole text is the field that is
converted, and the end of the text is reached. -/
theorem extractFloat_numeral (k : FloatKind) (neg : Bool) (ip fp ex : Str) (x : Int)
    (hip : ip ≠ []) (hipd : ∀ c ∈ ip, isDigit c = true) (hfpd : ∀ c ∈ fp, isDigit c = true)
    (hex : IsExponentPart ex x) (hlead : ip = ['0'] ∨ ∀ c r, ip = c :: r → c ≠ '0') :
    extractFloat k ((if neg then ['-'] else []) ++ (Flt.withFraction ip fp ++ ex)) =
      ⟨convertField k neg (Flt.withFraction ip fp ++ ex), true⟩ := by
  rw [withFraction_append]
  have htail := scanFloat_tail fp ex x hfpd hex
  have hhead := tail_head fp ex x hex
  generalize (if fp = [] then [] else '.' :: fp) ++ ex = tail at htail hhead ⊢
  obtain ⟨c₀, r₀, rfl⟩ := List.exists_cons_of_ne_nil hip
  have hc₀ : isDigit c₀ = true := hipd c₀ (List.mem_cons_self _ _)
  have hsp : isSpace c₀ = false := (isDigit_not_special hc₀).1
  have hdrop : List.dropWhile isSpace ((if neg then ['-'] else []) ++ (c₀ :: r₀ ++ tail))
      = (if neg then ['-'] else []) ++ (c₀ :: r₀ ++ tail) := by
    cases neg
    · simp [List.dropWhile, hsp]
    · simp [List.dropWhile, show isSpace '-' = false by decide]
  have hsign : takeSign ((if neg then ['-'] else []) ++ (c₀ :: r₀ ++ tail))
      = (neg, c₀ :: r₀ ++ tail) := by
    cases neg
    · simpa using takeSign_of_digit (r₀ ++ tail) hc₀
    · rfl
  have hnonempty : ((if neg then ['-'] else []) ++ (c₀ :: r₀ ++ tail)).isEmpty = false := by
    cases neg <;> rfl
  have hscan : scanFloat ((c₀ :: r₀ ++ tail).dropWhile (· = '0'))
      (!((c₀ :: r₀ ++ tail).takeWhile (· = '0')).isEmpty) false false false
      (if ((c₀ :: r₀ ++ tail).takeWhile (· = '0')).isEmpty then [] else ['0'])
      = (c₀ :: r₀ ++ tail, []) := by
    rcases hlead with h | h
    · cases h
      have htw : (('0' : Char) :: ([] ++ tail)).takeWhile (· = '0') = ['0'] ∧
          (('0' : Char) :: ([] ++ tail)).dropWhile (· = '0') = tail := by
        rcases hhead with rfl | ⟨c, r, rfl, -, hc⟩
        · simp
        · simp [List.takeWhile, List.dropWhile, hc]
      simp only [List.cons_append, htw.1, htw.2]
      simpa using htail ['0']
    · have hc : c₀ ≠ '0' := h c₀ r₀ rfl
      have htw : (c₀ :: r₀ ++ tail).takeWhile (· = '0') = [] ∧
          (c₀ :: r₀ ++ tail).dropWhile (· = '0') = c₀ :: r₀ ++ tail := by
        simp [List.takeWhile, List.dropWhile, hc]
      rw [htw.1, htw.2]
      have h₁ := scanFloat_digit c₀ (r₀ ++ tail) false false false false [] hc₀
      have h₂ := scanFloat_digits r₀ tail false false [c₀]
        (fun c hc => hipd c (List.mem_cons_of_mem _ hc))
      simp only [List.cons_append, List.isEmpty_nil, Bool.not_true, if_true]
      rw [h₁, h₂, htail]
      simp
  unfold extractFloat
  simp only [hdrop, hsign, hnonempty, hscan]
  simp

end detail

end cmd

namespace cmd

namespace detail

theorem decimalValue_zero_cons (a : Str) : decimalValue ('0' :: a) = decimalValue a := by
  simp [decimalValue]

theorem decimalValue_replicate_append (a : Str) :
    ∀ j : Nat, decimalValue (List.replicate j '0' ++ a) = decimalValue a
  | 0 => rfl
  | j + 1 => by
    rw [List.replicate_succ, List.cons_append, decimalValue_zero_cons,
      decimalValue_replicate_append a j]

theorem decimalValue_append_replicate (a : Str) :
    ∀ z : Nat, decimalValue (a ++ List.replicate z '0') = decimalValue a * 10 ^ z
  | 0 => by simp
  | z + 1 => by
    rw [List.replicate_succ', ← List.append_assoc, decimalValue_append,
      decimalValue_append_replicate a z, pow_succ]
    simp
    ring

/-- Removal of trailing zeros takes a number of zeros off the end. -/
theorem stripZeros_spec (ds : Str) :
    ∃ z : Nat, ds = Flt.stripZeros ds ++ List.replicate z '0' := by
  refine ⟨(ds.reverse.takeWhile (· = '0')).length, ?_⟩
  have h₁ : ds.reverse.takeWhile (· = '0') ++ ds.reverse.dropWhile (· = '0') = ds.reverse :=
    List.takeWhile_append_dropWhile _ _
  have h₂ : ds.reverse.takeWhile (· = '0')
      = List.replicate (ds.reverse.takeWhile (· = '0')).length '0' := by
    rw [List.eq_replicate_iff]
    refine ⟨rfl, fun c hc => ?_⟩
    simpa using List.mem_takeWhile_imp hc
  have h₃ : ds = (ds.reverse.dropWhile (· = '0')).reverse
      ++ (ds.reverse.takeWhile (· = '0')).reverse := by
    rw [← List.reverse_append, h₁, List.reverse_reverse]
  conv_lhs => rw [h₃]
  unfold Flt.stripZeros
  congr 1
  conv_lhs => rw [h₂]
  simp

theorem stripZeros_mem (ds : Str) (c : Char) (h : c ∈ Flt.stripZeros ds) : c ∈ ds := by
  unfold Flt.stripZeros at h
  rw [List.mem_reverse] at h
  exact List.mem_reverse.1 ((List.dropWhile_sublist _).subset h)

/-- The exponent suffix denotes the exponent it was made of. -/
theorem exponentSuffix_spec (x : Int) : IsExponentPart (Flt.exponentSuffix x) x := by
  obtain ⟨hne, hdig, hval⟩ := toDigits_spec x.natAbs
  refine Or.inr ⟨if x < 0 then '-' else '+',
    if (Nat.toDigits 10 x.natAbs).length < 2 then '0' :: Nat.toDigits 10 x.natAbs
      else Nat.toDigits 10 x.natAbs, rfl, ?_, ?_, ?_, ?_⟩
  · by_cases h : x < 0 <;> simp [h]
  · split_ifs <;> simp [hne]
  · intro c hc
    split_ifs at hc
    · rcases List.mem_cons.1 hc with rfl | hc
      · decide
      · exact hdig c hc
    · exact hdig c hc
  · have hv : decimalValue (if (Nat.toDigits 10 x.natAbs).length < 2
        then '0' :: Nat.toDigits 10 x.natAbs else Nat.toDigits 10 x.natAbs) = x.natAbs := by
      split_ifs
      · rw [decimalValue_zero_cons, hval]
      · exact hval
    rw [hv]
    by_cases h : x < 0
    · simp only [h, if_true]
      omega
    · have h' : ¬ (('+' : Char) = '-') := by decide
      simp only [h, if_false, h']
      omega

/-- The digits of a positive number: the first is not a zero, and the number
of digits is the one that the size of the number gives. -/
theorem toDigitsCore_lead :
    ∀ (fuel n : Nat) (ds : Str), n < fuel → 0 < n →
      ∃ (c : Char) (l : Str), Nat.toDigitsCore 10 fuel n ds = c :: l ++ ds ∧ c ≠ '0' ∧
        10 ^ l.length ≤ n ∧ n < 10 ^ (l.length + 1)
  | 0, _, _, h, _ => by omega
  | fuel + 1, n, ds, h, hpos => by
    by_cases h0 : n / 10 = 0
    · have hn : n % 10 = n := Nat.mod_eq_of_lt (by omega)
      have hlt : n < 10 := by omega
      refine ⟨Nat.digitChar n, [], by simp [Nat.toDigitsCore, h0, hn], ?_, by simpa using hpos,
        by simpa using hlt⟩
      interval_cases n <;> decide
    · obtain ⟨c, l, hl, hc, hlo, hhi⟩ := toDigitsCore_lead fuel (n / 10)
        (Nat.digitChar (n % 10) :: ds) (by omega) (by omega)
      refine ⟨c, l ++ [Nat.digitChar (n % 10)], by simp [Nat.toDigitsCore, h0, hl], hc, ?_, ?_⟩
      · rw [List.length_append, List.length_singleton, pow_succ]
        omega
      · rw [List.length_append, List.length_singleton, pow_succ]
        rw [pow_succ] at hhi ⊢
        omega

/-- The digits of a number of six digits. -/
theorem toDigits_six (D : Nat) (hlo : 100000 ≤ D) (hhi : D < 1000000) :
    ∃ (c : Char) (l : Str), Nat.toDigits 10 D = c :: l ∧ l.length = 5 ∧ c ≠ '0' ∧
      (∀ x ∈ c :: l, isDigit x = true) ∧ decimalValue (c :: l) = D := by
  obtain ⟨c, l, hl, hc, h₁, h₂⟩ := toDigitsCore_lead (D + 1) D [] (by omega) (by omega)
  obtain ⟨-, hdig, hval⟩ := toDigits_spec D
  rw [List.append_nil] at hl
  have hd : Nat.toDigits 10 D = c :: l := hl
  rw [hd] at hdig hval
  refine ⟨c, l, hd, ?_, hc, hdig, hval⟩
  have h₃ : l.length < 6 := by
    by_contra hge
    have : 10 ^ 6 ≤ 10 ^ l.length := Nat.pow_le_pow_right (by norm_num) (by omega)
    omega
  have h₄ : 5 < l.length + 1 := by
    by_contra hge
    have : 10 ^ (l.length + 1) ≤ 10 ^ 5 := Nat.pow_le_pow_right (by norm_num) (by omega)
    omega
  omega

end detail

end cmd

/-! ## Rounding to the nearest floating-point datum -/

namespace cmd

namespace detail

theorem Flt.log2Fuel_spec :
    ∀ (fuel n : Nat), 0 < n → n < 2 ^ fuel →
      2 ^ Flt.log2Fuel fuel n ≤ n ∧ n < 2 ^ (Flt.log2Fuel fuel n + 1)
  | 0, n, h₁, h₂ => by
    simp at h₂
    omega
  | fuel + 1, n, h₁, h₂ => by
    by_cases h : n < 2
    · simp only [Flt.log2Fuel, h, if_true]
      constructor <;> simp <;> omega
    · simp only [Flt.log2Fuel, h, if_false]
      have h₃ : n / 2 < 2 ^ fuel := by
        rw [pow_succ] at h₂
        omega
      obtain ⟨ih₁, ih₂⟩ := Flt.log2Fuel_spec fuel (n / 2) (by omega) h₃
      rw [pow_succ, pow_succ]
      rw [pow_succ] at ih₂
      constructor <;> omega

/-- The binary logarithm rounded down. -/
theorem Flt.log2_spec (n : Nat) (h : 0 < n) :
    2 ^ Flt.log2 n ≤ n ∧ n < 2 ^ (Flt.log2 n + 1) :=
  Flt.log2Fuel_spec n n h (Nat.lt_two_pow n)

/-- The comparison of a fraction with a power of the base, written as the
code writes it with natural numbers. -/
theorem Flt.scaled_le_iff (b : Nat) (hb : 0 < b) (n d : Nat) (hd : 0 < d) (f : Int) :
    d * b ^ f.toNat ≤ n * b ^ (-f).toNat ↔ (b : ℚ) ^ f ≤ (n : ℚ) / d := by
  have hb' : (0 : ℚ) < b := by exact_mod_cast hb
  have hd' : (0 : ℚ) < d := by exact_mod_cast hd
  have hf : f = (f.toNat : Int) - ((-f).toNat : Int) := by omega
  have hz : (b : ℚ) ^ f = (b : ℚ) ^ f.toNat / (b : ℚ) ^ (-f).toNat := by
    conv_lhs => rw [hf]
    rw [zpow_sub₀ hb'.ne', zpow_natCast, zpow_natCast]
  rw [hz, div_le_div_iff₀ (pow_pos hb' _) hd']
  constructor
  · intro h
    have : ((d * b ^ f.toNat : Nat) : ℚ) ≤ ((n * b ^ (-f).toNat : Nat) : ℚ) := by
      exact_mod_cast h
    push_cast at this
    linarith
  · intro h
    have : ((d * b ^ f.toNat : Nat) : ℚ) ≤ ((n * b ^ (-f).toNat : Nat) : ℚ) := by
      push_cast
      linarith
    exact_mod_cast this

theorem Flt.roundDiv_scale (c a b : Nat) (hc : 0 < c) :
    Flt.roundDiv (c * a) (c * b) = Flt.roundDiv a b := by
  unfold Flt.roundDiv
  simp only [Nat.mul_div_mul_left _ _ hc, Nat.mul_mod_mul_left]
  have h₁ : 2 * (c * (a % b)) < c * b ↔ 2 * (a % b) < b := by
    rw [← Nat.mul_assoc, Nat.mul_comm 2 c, Nat.mul_assoc]
    exact Nat.mul_lt_mul_left hc
  have h₂ : c * b < 2 * (c * (a % b)) ↔ b < 2 * (a % b) := by
    rw [← Nat.mul_assoc, Nat.mul_comm 2 c, Nat.mul_assoc]
    exact Nat.mul_lt_mul_left hc
  simp only [h₁, h₂]

/-- The binary exponent that `Flt.round` computes is the integer part of the
binary logarithm of the fraction. -/
theorem Flt.floorLog2_spec (n d : Nat) (hn : 0 < n) (hd : 0 < d) :
    (2 : ℚ) ^ Flt.floorLog2 n d ≤ (n : ℚ) / d ∧ (n : ℚ) / d < (2 : ℚ) ^ (Flt.floorLog2 n d + 1) := by
  obtain ⟨ha₁, ha₂⟩ := Flt.log2_spec n hn
  obtain ⟨hb₁, hb₂⟩ := Flt.log2_spec d hd
  have hd' : (0 : ℚ) < d := by exact_mod_cast hd
  have h2 : (2 : ℚ) ≠ 0 := by norm_num
  have ha₁' : (2 : ℚ) ^ (Flt.log2 n : Int) ≤ n := by
    rw [zpow_natCast]
    exact_mod_cast ha₁
  have ha₂' : (n : ℚ) < (2 : ℚ) ^ ((Flt.log2 n : Int) + 1) := by
    rw [zpow_add_one₀ h2, zpow_natCast, ← pow_succ]
    exact_mod_cast ha₂
  have hb₁' : (2 : ℚ) ^ (Flt.log2 d : Int) ≤ d := by
    rw [zpow_natCast]
    exact_mod_cast hb₁
  have hb₂' : (d : ℚ) < (2 : ℚ) ^ ((Flt.log2 d : Int) + 1) := by
    rw [zpow_add_one₀ h2, zpow_natCast, ← pow_succ]
    exact_mod_cast hb₂
  unfold Flt.floorLog2
  generalize (Flt.log2 n : Int) = a at ha₁' ha₂' ⊢
  generalize (Flt.log2 d : Int) = b at hb₁' hb₂' ⊢
  have hpos : ∀ e : Int, (0 : ℚ) < (2 : ℚ) ^ e := fun e => zpow_pos (by norm_num) e
  have hup : (n : ℚ) / d < (2 : ℚ) ^ (a - b + 1) := by
    rw [div_lt_iff₀ hd']
    have h₁ : (2 : ℚ) ^ (a - b + 1) * (2 : ℚ) ^ b = (2 : ℚ) ^ (a + 1) := by
      rw [← zpow_add₀ h2]
      congr 1
      omega
    have h₂ : (2 : ℚ) ^ (a - b + 1) * (2 : ℚ) ^ b ≤ (2 : ℚ) ^ (a - b + 1) * d :=
      mul_le_mul_of_nonneg_left hb₁' (hpos _).le
    linarith
  have hlo : (2 : ℚ) ^ (a - b - 1) < (n : ℚ) / d := by
    rw [lt_div_iff₀ hd']
    have h₁ : (2 : ℚ) ^ (a - b - 1) * (2 : ℚ) ^ (b + 1) = (2 : ℚ) ^ a := by
      rw [← zpow_add₀ h2]
      congr 1
      omega
    have h₂ : (2 : ℚ) ^ (a - b - 1) * d < (2 : ℚ) ^ (a - b - 1) * (2 : ℚ) ^ (b + 1) :=
      mul_lt_mul_of_pos_left hb₂' (hpos _)
    linarith
  have hiff := Flt.scaled_le_iff 2 (by norm_num) n d hd (a - b)
  simp only [Nat.cast_ofNat] at hiff
  by_cases hc : d * 2 ^ (a - b).toNat ≤ n * 2 ^ (-(a - b)).toNat
  · rw [if_pos hc]
    exact ⟨hiff.1 hc, hup⟩
  · rw [if_neg hc]
    refine ⟨hlo.le, ?_⟩
    have : (a - b - 1 + 1 : Int) = a - b := by omega
    rw [this]
    exact lt_of_not_le (fun h => hc (hiff.2 h))

/-- The integer part of the binary logarithm is determined by the value of
the fraction. -/
theorem Flt.floorLog2_unique (q : ℚ) (f g : Int) (hf₁ : (2 : ℚ) ^ f ≤ q)
    (hf₂ : q < (2 : ℚ) ^ (f + 1)) (hg₁ : (2 : ℚ) ^ g ≤ q) (hg₂ : q < (2 : ℚ) ^ (g + 1)) :
    f = g := by
  have h₁ : (2 : ℚ) ^ f < (2 : ℚ) ^ (g + 1) := lt_of_le_of_lt hf₁ hg₂
  have h₂ : (2 : ℚ) ^ g < (2 : ℚ) ^ (f + 1) := lt_of_le_of_lt hg₁ hf₂
  have h₃ := (zpow_lt_zpow_iff_right₀ (by norm_num : (1 : ℚ) < 2)).1 h₁
  have h₄ := (zpow_lt_zpow_iff_right₀ (by norm_num : (1 : ℚ) < 2)).1 h₂
  omega

theorem Flt.floorLog2_scale (c n d : Nat) (hc : 0 < c) (hn : 0 < n) (hd : 0 < d) :
    Flt.floorLog2 (c * n) (c * d) = Flt.floorLog2 n d := by
  obtain ⟨h₁, h₂⟩ := Flt.floorLog2_spec (c * n) (c * d) (Nat.mul_pos hc hn) (Nat.mul_pos hc hd)
  obtain ⟨h₃, h₄⟩ := Flt.floorLog2_spec n d hn hd
  have hc' : (c : ℚ) ≠ 0 := by exact_mod_cast hc.ne'
  have hq : ((c * n : Nat) : ℚ) / ((c * d : Nat) : ℚ) = (n : ℚ) / d := by
    push_cast
    rw [mul_div_mul_left _ _ hc']
  rw [hq] at h₁ h₂
  exact Flt.floorLog2_unique _ _ _ h₁ h₂ h₃ h₄

theorem Flt.round_eq (k : FloatKind) (neg : Bool) (n d : Nat) :
    Flt.round k neg n d =
      if k.emax - ((k.prec : Int) - 1) <
          (if Flt.roundDiv
                (n * 2 ^ (-(max (Flt.floorLog2 n d - ((k.prec : Int) - 1))
                  (1 - k.emax - ((k.prec : Int) - 1)))).toNat)
                (d * 2 ^ (max (Flt.floorLog2 n d - ((k.prec : Int) - 1))
                  (1 - k.emax - ((k.prec : Int) - 1))).toNat) = 2 ^ k.prec
            then max (Flt.floorLog2 n d - ((k.prec : Int) - 1))
              (1 - k.emax - ((k.prec : Int) - 1)) + 1
            else max (Flt.floorLog2 n d - ((k.prec : Int) - 1))
              (1 - k.emax - ((k.prec : Int) - 1)))
      then none
      else some (.finite neg
        (if Flt.roundDiv
              (n * 2 ^ (-(max (Flt.floorLog2 n d - ((k.prec : Int) - 1))
                (1 - k.emax - ((k.prec : Int) - 1)))).toNat)
              (d * 2 ^ (max (Flt.floorLog2 n d - ((k.prec : Int) - 1))
                (1 - k.emax - ((k.prec : Int) - 1))).toNat) = 2 ^ k.prec
          then 2 ^ (k.prec - 1)
          else Flt.roundDiv
            (n * 2 ^ (-(max (Flt.floorLog2 n d - ((k.prec : Int) - 1))
              (1 - k.emax - ((k.prec : Int) - 1)))).toNat)
            (d * 2 ^ (max (Flt.floorLog2 n d - ((k.prec : Int) - 1))
              (1 - k.emax - ((k.prec : Int) - 1))).toNat))
        (if Flt.roundDiv
              (n * 2 ^ (-(max (Flt.floorLog2 n d - ((k.prec : Int) - 1))
                (1 - k.emax - ((k.prec : Int) - 1)))).toNat)
              (d * 2 ^ (max (Flt.floorLog2 n d - ((k.prec : Int) - 1))
                (1 - k.emax - ((k.prec : Int) - 1))).toNat) = 2 ^ k.prec
          then max (Flt.floorLog2 n d - ((k.prec : Int) - 1))
            (1 - k.emax - ((k.prec : Int) - 1)) + 1
          else max (Flt.floorLog2 n d - ((k.prec : Int) - 1))
            (1 - k.emax - ((k.prec : Int) - 1)))) := rfl

/-- The nearest datum depends on the value of the fraction only: a common
factor of numerator and denominator does not change it. -/
theorem Flt.round_scale (k : FloatKind) (neg : Bool) (c n d : Nat) (hc : 0 < c) (hn : 0 < n)
    (hd : 0 < d) : Flt.round k neg (c * n) (c * d) = Flt.round k neg n d := by
  rw [Flt.round_eq, Flt.round_eq, Flt.floorLog2_scale c n d hc hn hd]
  simp only [Nat.mul_assoc, Flt.roundDiv_scale _ _ _ hc]

/-- Two fractions of the same value have the same nearest datum. -/
theorem Flt.round_congr (k : FloatKind) (neg : Bool) (n d n' d' : Nat) (hn : 0 < n)
    (hd : 0 < d) (hn' : 0 < n') (hd' : 0 < d') (h : n * d' = n' * d) :
    Flt.round k neg n d = Flt.round k neg n' d' := by
  rw [← Flt.round_scale k neg d' n d hd' hn hd, ← Flt.round_scale k neg d n' d' hd hn' hd']
  congr 1
  · rw [Nat.mul_comm d' n, h, Nat.mul_comm]
  · exact Nat.mul_comm _ _

/-- Zeros at the end of the digits of a decimal go into its exponent. -/
theorem Flt.ofDecimal_scale (k : FloatKind) (neg : Bool) (w z : Nat) (x : Int) (hw : 0 < w) :
    Flt.ofDecimal k neg (w * 10 ^ z) x = Flt.ofDecimal k neg w (x + z) := by
  unfold Flt.ofDecimal
  apply Flt.round_congr
  · positivity
  · positivity
  · positivity
  · positivity
  · have he : z + x.toNat + (-(x + z)).toNat = (x + z).toNat + (-x).toNat := by omega
    calc w * 10 ^ z * 10 ^ x.toNat * 10 ^ (-(x + (z : Int))).toNat
        = w * 10 ^ (z + x.toNat + (-(x + (z : Int))).toNat) := by
          rw [pow_add, pow_add]
          ring
      _ = w * 10 ^ ((x + (z : Int)).toNat + (-x).toNat) := by rw [he]
      _ = w * 10 ^ (x + (z : Int)).toNat * 10 ^ (-x).toNat := by
          rw [pow_add]
          ring

end detail

end cmd

/-! ## Six significant digits -/

namespace cmd

namespace detail

theorem Flt.log10Up_spec :
    ∀ (fuel n d : Nat), 0 < d → d ≤ n → n < d * 2 ^ fuel →
      d * 10 ^ Flt.log10Up fuel n d ≤ n ∧ n < d * 10 ^ (Flt.log10Up fuel n d + 1)
  | 0, n, d, _, h₁, h₂ => by
    simp at h₂
    omega
  | fuel + 1, n, d, hd, h₁, h₂ => by
    by_cases h : 10 * d ≤ n
    · simp only [Flt.log10Up, h, if_true]
      have h₃ : n < 10 * d * 2 ^ fuel := by
        rw [pow_succ] at h₂
        have : d * (2 ^ fuel * 2) = 2 * (d * 2 ^ fuel) := by ring
        have : 10 * d * 2 ^ fuel = 10 * (d * 2 ^ fuel) := by ring
        omega
      obtain ⟨ih₁, ih₂⟩ := Flt.log10Up_spec fuel n (10 * d) (by omega) h h₃
      have e₁ : d * 10 ^ (Flt.log10Up fuel n (10 * d) + 1)
          = 10 * d * 10 ^ Flt.log10Up fuel n (10 * d) := by
        rw [pow_succ]
        ring
      have e₂ : d * 10 ^ (Flt.log10Up fuel n (10 * d) + 1 + 1)
          = 10 * d * 10 ^ (Flt.log10Up fuel n (10 * d) + 1) := by
        rw [pow_succ _ (Flt.log10Up fuel n (10 * d) + 1)]
        ring
      rw [e₁, e₂]
      exact ⟨ih₁, ih₂⟩
    · simp only [Flt.log10Up, h, if_false]
      constructor <;> simp <;> omega

theorem Flt.log10Down_zero (fuel n d : Nat) (h : ¬ n < d) : Flt.log10Down fuel n d = 0 := by
  cases fuel <;> simp [Flt.log10Down, h]

theorem Flt.log10Down_spec :
    ∀ (fuel n d : Nat), 0 < n → n < d → d ≤ n * 2 ^ fuel →
      1 ≤ Flt.log10Down fuel n d ∧ n * 10 ^ (Flt.log10Down fuel n d - 1) < d ∧
        d ≤ n * 10 ^ Flt.log10Down fuel n d
  | 0, n, d, _, h₁, h₂ => by
    simp at h₂
    omega
  | fuel + 1, n, d, hn, h₁, h₂ => by
    simp only [Flt.log10Down, h₁, if_true]
    by_cases h : 10 * n < d
    · have h₃ : d ≤ 10 * n * 2 ^ fuel := by
        rw [pow_succ] at h₂
        have : n * (2 ^ fuel * 2) = 2 * (n * 2 ^ fuel) := by ring
        have : 10 * n * 2 ^ fuel = 10 * (n * 2 ^ fuel) := by ring
        omega
      obtain ⟨ih₀, ih₁, ih₂⟩ := Flt.log10Down_spec fuel (10 * n) d (by omega) h h₃
      obtain ⟨r, hr⟩ : ∃ r, Flt.log10Down fuel (10 * n) d = r + 1 := ⟨_, (Nat.sub_add_cancel ih₀).symm⟩
      rw [hr] at ih₁ ih₂ ⊢
      simp only [Nat.add_sub_cancel] at ih₁ ⊢
      have e₁ : n * 10 ^ (r + 1) = 10 * n * 10 ^ r := by
        rw [pow_succ]
        ring
      have e₂ : n * 10 ^ (r + 1 + 1) = 10 * n * 10 ^ (r + 1) := by
        rw [pow_succ _ (r + 1)]
        ring
      rw [e₁, e₂]
      exact ⟨by omega, ih₁, ih₂⟩
    · rw [Flt.log10Down_zero fuel (10 * n) d h]
      simp
      omega

/-- The decimal exponent of a positive fraction. -/
theorem Flt.decimalExponent_spec (n d : Nat) (hn : 0 < n) (hd : 0 < d) :
    (10 : ℚ) ^ Flt.decimalExponent n d ≤ (n : ℚ) / d ∧
      (n : ℚ) / d < (10 : ℚ) ^ (Flt.decimalExponent n d + 1) := by
  have hd' : (0 : ℚ) < d := by exact_mod_cast hd
  have h10 : (10 : ℚ) ≠ 0 := by norm_num
  unfold Flt.decimalExponent
  by_cases h : d ≤ n
  · rw [if_pos h]
    have hfuel : n < d * 2 ^ (Flt.log2 n + 1) := by
      have := (Flt.log2_spec n hn).2
      calc n < 2 ^ (Flt.log2 n + 1) := this
        _ = 1 * 2 ^ (Flt.log2 n + 1) := (Nat.one_mul _).symm
        _ ≤ d * 2 ^ (Flt.log2 n + 1) := Nat.mul_le_mul_right _ hd
    obtain ⟨h₁, h₂⟩ := Flt.log10Up_spec (Flt.log2 n + 1) n d hd h hfuel
    generalize Flt.log10Up (Flt.log2 n + 1) n d = r at h₁ h₂
    constructor
    · rw [zpow_natCast, le_div_iff₀ hd']
      have : ((d * 10 ^ r : Nat) : ℚ) ≤ (n : ℚ) := by exact_mod_cast h₁
      push_cast at this
      linarith
    · rw [show ((r : Int) + 1) = ((r + 1 : Nat) : Int) by push_cast; rfl, zpow_natCast,
        div_lt_iff₀ hd']
      have : (n : ℚ) < ((d * 10 ^ (r + 1) : Nat) : ℚ) := by exact_mod_cast h₂
      push_cast at this
      linarith
  · rw [if_neg h]
    have hfuel : d ≤ n * 2 ^ (Flt.log2 d + 1) := by
      have := (Flt.log2_spec d hd).2
      calc d ≤ 2 ^ (Flt.log2 d + 1) := this.le
        _ = 1 * 2 ^ (Flt.log2 d + 1) := (Nat.one_mul _).symm
        _ ≤ n * 2 ^ (Flt.log2 d + 1) := Nat.mul_le_mul_right _ hn
    obtain ⟨h₀, h₁, h₂⟩ := Flt.log10Down_spec (Flt.log2 d + 1) n d hn (by omega) hfuel
    generalize Flt.log10Down (Flt.log2 d + 1) n d = r at h₀ h₁ h₂
    obtain ⟨r', rfl⟩ : ∃ r', r = r' + 1 := ⟨_, (Nat.sub_add_cancel h₀).symm⟩
    simp only [Nat.add_sub_cancel] at h₁
    have hp : ∀ j : Nat, (0 : ℚ) < (10 : ℚ) ^ j := fun j => pow_pos (by norm_num) j
    constructor
    · rw [zpow_neg, zpow_natCast, le_div_iff₀ hd', inv_mul_le_iff₀ (hp _)]
      have : (d : ℚ) ≤ ((n * 10 ^ (r' + 1) : Nat) : ℚ) := by exact_mod_cast h₂
      push_cast at this
      linarith
    · have he : (-((r' + 1 : Nat) : Int) + 1) = -(r' : Int) := by
        push_cast
        ring
      rw [he, zpow_neg, zpow_natCast, div_lt_iff₀ hd', lt_inv_mul_iff₀ (hp _)]
      have : ((n * 10 ^ r' : Nat) : ℚ) < (d : ℚ) := by exact_mod_cast h₁
      push_cast at this
      linarith

theorem Flt.roundDiv_bounds (a b L U : Nat) (hb : 0 < b) (hL : L * b ≤ a) (hU : a < U * b) :
    L ≤ Flt.roundDiv a b ∧ Flt.roundDiv a b ≤ U := by
  have h₁ : L ≤ a / b := (Nat.le_div_iff_mul_le hb).2 hL
  have h₂ : a / b < U := (Nat.div_lt_iff_lt_mul hb).2 hU
  unfold Flt.roundDiv
  simp only
  split_ifs <;> constructor <;> omega

/-- The six digits of a positive fraction make a number of six digits. -/
theorem Flt.sixDigits_range (n d : Nat) (hn : 0 < n) (hd : 0 < d) :
    100000 ≤ (Flt.sixDigits n d).1 ∧ (Flt.sixDigits n d).1 < 1000000 := by
  obtain ⟨h₁, h₂⟩ := Flt.decimalExponent_spec n d hn hd
  have hd' : (0 : ℚ) < d := by exact_mod_cast hd
  have h10 : (10 : ℚ) ≠ 0 := by norm_num
  have hb : 0 < d * 10 ^ (Flt.decimalExponent n d - 5).toNat := by positivity
  have hL : 100000 * (d * 10 ^ (Flt.decimalExponent n d - 5).toNat)
      ≤ n * 10 ^ (-(Flt.decimalExponent n d - 5)).toNat := by
    have := (Flt.scaled_le_iff 10 (by norm_num) n (100000 * d) (by omega)
      (Flt.decimalExponent n d - 5)).2 (by
        push_cast
        rw [le_div_iff₀ (by positivity)]
        have e : (10 : ℚ) ^ (Flt.decimalExponent n d - 5) * (100000 * d)
            = (10 : ℚ) ^ Flt.decimalExponent n d * d := by
          rw [zpow_sub₀ h10]
          norm_num
          field_simp
          ring
        rw [e]
        exact (le_div_iff₀ hd').1 h₁)
    calc 100000 * (d * 10 ^ (Flt.decimalExponent n d - 5).toNat)
        = 100000 * d * 10 ^ (Flt.decimalExponent n d - 5).toNat := by ring
      _ ≤ _ := this
  have hU : n * 10 ^ (-(Flt.decimalExponent n d - 5)).toNat
      < 1000000 * (d * 10 ^ (Flt.decimalExponent n d - 5).toNat) := by
    by_contra hcon
    have hle : 1000000 * d * 10 ^ (Flt.decimalExponent n d - 5).toNat
        ≤ n * 10 ^ (-(Flt.decimalExponent n d - 5)).toNat := by
      have := Nat.le_of_not_lt hcon
      calc 1000000 * d * 10 ^ (Flt.decimalExponent n d - 5).toNat
          = 1000000 * (d * 10 ^ (Flt.decimalExponent n d - 5).toNat) := by ring
        _ ≤ _ := this
    have := (Flt.scaled_le_iff 10 (by norm_num) n (1000000 * d) (by omega)
      (Flt.decimalExponent n d - 5)).1 hle
    push_cast at this
    rw [le_div_iff₀ (by positivity)] at this
    have e : (10 : ℚ) ^ (Flt.decimalExponent n d - 5) * (1000000 * d)
        = (10 : ℚ) ^ (Flt.decimalExponent n d + 1) * d := by
      rw [zpow_sub₀ h10, zpow_add_one₀ h10]
      norm_num
      field_simp
      ring
    rw [e] at this
    have := (le_div_iff₀ hd').2 this
    linarith
  obtain ⟨hlo, hhi⟩ := Flt.roundDiv_bounds _ _ 100000 1000000 hb hL hU
  unfold Flt.sixDigits Flt.scaledRound
  simp only
  split_ifs with h
  · simp
  · simp only
    constructor
    · exact hlo
    · exact lt_of_le_of_ne hhi h

end detail

end cmd

/-! ## Reading back what was written of a floating-point datum -/

namespace cmd

namespace detail

/-- Extraction from a numeral that `withFraction` wrote after trailing zeros
of the fraction were removed: the result is the datum nearest to the decimal
that the digits and the exponent denote. -/
theorem extractFloat_written (k : FloatKind) (neg : Bool) (ip full ex : Str) (x y : Int)
    (D : Nat) (hD : 0 < D) (hip : ip ≠ []) (hipd : ∀ c ∈ ip, isDigit c = true)
    (hfull : ∀ c ∈ full, isDigit c = true) (hex : IsExponentPart ex x)
    (hlead : ip = ['0'] ∨ ∀ c r, ip = c :: r → c ≠ '0')
    (hval : decimalValue (ip ++ full) = D) (hy : y = x - full.length) :
    extractFloat k ((if neg then ['-'] else []) ++
        (Flt.withFraction ip (Flt.stripZeros full) ++ ex))
      = ⟨Flt.ofDecimal k neg D y, true⟩ := by
  obtain ⟨z, hz⟩ := stripZeros_spec full
  have hfpd : ∀ c ∈ Flt.stripZeros full, isDigit c = true :=
    fun c hc => hfull c (stripZeros_mem full c hc)
  have hlen : full.length = (Flt.stripZeros full).length + z := by
    conv_lhs => rw [hz]
    simp
  have hw : decimalValue (ip ++ Flt.stripZeros full) * 10 ^ z = D := by
    rw [← decimalValue_append_replicate, List.append_assoc, ← hz, hval]
  have hwpos : 0 < decimalValue (ip ++ Flt.stripZeros full) := by
    rcases Nat.eq_zero_or_pos (decimalValue (ip ++ Flt.stripZeros full)) with h | h
    · rw [h, Nat.zero_mul] at hw
      omega
    · exact h
  rw [extractFloat_numeral k neg ip _ ex x hip hipd hfpd hex hlead,
    convertField_numeral k neg ip _ ex x hip hipd hfpd hex, if_neg hwpos.ne', ← hw,
    Flt.ofDecimal_scale k neg _ z y hwpos]
  congr 2
  omega

theorem Flt.formatPositive_eq (n d : Nat) :
    Flt.formatPositive n d =
      if (Flt.sixDigits n d).2 < -4 ∨ 6 ≤ (Flt.sixDigits n d).2 then
        Flt.withFraction ((Nat.toDigits 10 (Flt.sixDigits n d).1).take 1)
            (Flt.stripZeros ((Nat.toDigits 10 (Flt.sixDigits n d).1).drop 1))
          ++ Flt.exponentSuffix (Flt.sixDigits n d).2
      else if 0 ≤ (Flt.sixDigits n d).2 then
        Flt.withFraction
          ((Nat.toDigits 10 (Flt.sixDigits n d).1).take ((Flt.sixDigits n d).2.toNat + 1))
          (Flt.stripZeros
            ((Nat.toDigits 10 (Flt.sixDigits n d).1).drop ((Flt.sixDigits n d).2.toNat + 1)))
      else
        Flt.withFraction ['0']
          (Flt.stripZeros (List.replicate ((-(Flt.sixDigits n d).2).toNat - 1) '0'
            ++ Nat.toDigits 10 (Flt.sixDigits n d).1)) := by
  unfold Flt.formatPositive Flt.sixDigits
  by_cases h : Flt.scaledRound n d (Flt.decimalExponent n d - 5) = 1000000 <;>
    simp only [h, if_true, if_false]

/-- What the `%g` conversion writes of six digits and their exponent is read
back as the datum nearest to the decimal they denote. -/
theorem extractFloat_sixDigits (k : FloatKind) (neg : Bool) (D : Nat) (X : Int)
    (hlo : 100000 ≤ D) (hhi : D < 1000000) :
    extractFloat k ((if neg then ['-'] else []) ++
      (if X < -4 ∨ 6 ≤ X then
        Flt.withFraction ((Nat.toDigits 10 D).take 1) (Flt.stripZeros ((Nat.toDigits 10 D).drop 1))
          ++ Flt.exponentSuffix X
      else if 0 ≤ X then
        Flt.withFraction ((Nat.toDigits 10 D).take (X.toNat + 1))
          (Flt.stripZeros ((Nat.toDigits 10 D).drop (X.toNat + 1)))
      else
        Flt.withFraction ['0']
          (Flt.stripZeros (List.replicate ((-X).toNat - 1) '0' ++ Nat.toDigits 10 D))))
      = ⟨Flt.ofDecimal k neg D (X - 5), true⟩ := by
  obtain ⟨c, l, hds, hlen, hc, hdig, hval⟩ := toDigits_six D hlo hhi
  have hD : 0 < D := by omega
  have hcd : isDigit c = true := hdig c (List.mem_cons_self _ _)
  have hld : ∀ y ∈ l, isDigit y = true := fun y hy => hdig y (List.mem_cons_of_mem _ hy)
  rw [hds]
  by_cases h₁ : X < -4 ∨ 6 ≤ X
  · rw [if_pos h₁]
    refine extractFloat_written k neg [c] l _ X (X - 5) D hD (by simp) ?_ hld
      (exponentSuffix_spec X) (Or.inr ?_) hval (by omega)
    · intro y hy
      rw [List.mem_singleton.1 hy]
      exact hcd
    · intro c' r h
      cases h
      exact hc
  · rw [if_neg h₁]
    by_cases h₂ : 0 ≤ X
    · rw [if_pos h₂, List.take_succ_cons, List.drop_succ_cons,
        ← List.append_nil (Flt.withFraction _ _)]
      have hlen' : (l.drop X.toNat).length = 5 - X.toNat := by simp [hlen]
      refine extractFloat_written k neg (c :: l.take X.toNat) (l.drop X.toNat) [] 0 (X - 5) D hD
        (by simp) ?_ (fun y hy => hld y (List.mem_of_mem_drop hy)) (Or.inl ⟨rfl, rfl⟩)
        (Or.inr ?_) ?_ (by omega)
      · intro y hy
        rcases List.mem_cons.1 hy with rfl | hy
        · exact hcd
        · exact hld y (List.mem_of_mem_take hy)
      · intro c' r h
        cases h
        exact hc
      · rw [List.cons_append, List.take_append_drop]
        exact hval
    · rw [if_neg h₂, ← List.append_nil (Flt.withFraction _ _)]
      refine extractFloat_written k neg ['0']
        (List.replicate ((-X).toNat - 1) '0' ++ c :: l) [] 0 (X - 5) D hD
        (by simp) (by decide) ?_ (Or.inl ⟨rfl, rfl⟩) (Or.inl rfl) ?_ ?_
      · intro y hy
        rcases List.mem_append.1 hy with hy | hy
        · rw [(List.mem_replicate.1 hy).2]
          decide
        · exact hdig y hy
      · rw [List.singleton_append, decimalValue_zero_cons, decimalValue_replicate_append]
        exact hval
      · simp only [List.length_append, List.length_replicate, List.length_cons, hlen]
        omega

end detail

end cmd

namespace cmd

namespace detail

/-- What `Flt.format` writes of a finite datum is read back, to the end of the
text, as the datum nearest to its six significant decimal digits. -/
theorem extractFloat_format (k : FloatKind) (neg : Bool) (m : Nat) (e : Int) :
    extractFloat k (Flt.format (.finite neg m e)) = ⟨Flt.reread k (.finite neg m e), true⟩ := by
  by_cases hm : m = 0
  · subst hm
    have h₁ := extractFloat_numeral k neg ['0'] [] [] 0 (by simp) (by decide) (by simp)
      (Or.inl ⟨rfl, rfl⟩) (Or.inl rfl)
    have h₂ := convertField_numeral k neg ['0'] [] [] 0 (by simp) (by decide) (by simp)
      (Or.inl ⟨rfl, rfl⟩)
    rw [h₂] at h₁
    simpa [Flt.format, Flt.reread, Flt.withFraction, decimalValue] using h₁
  · have hn : 0 < m * 2 ^ e.toNat := by
      have : 0 < m := Nat.pos_of_ne_zero hm
      positivity
    have hd : 0 < 2 ^ (-e).toNat := by positivity
    obtain ⟨hlo, hhi⟩ := Flt.sixDigits_range _ _ hn hd
    simp only [Flt.format, Flt.reread, if_neg hm]
    rw [Flt.formatPositive_eq]
    exact extractFloat_sixDigits k neg _ _ hlo hhi

theorem CastFromString_flt_eq (k : FloatKind) (s : Str) :
    CastFromString (.flt k) s =
      match (extractFloat k s).result with
      | none => .error (.TypeCastFailure s (.flt k))
      | some y =>
        if !(extractFloat k s).eof then .error (.TypeCastFailure s (.flt k))
        else .ok (.flt k y) := by
  simp only [CastFromString, LexicalCast, Value.ty, extract]
  cases hr : (extractFloat k s).result <;> simp [hr]

/-- The round trip of a floating-point datum through `CastToString` and
`CastFromString`. -/
theorem CastFromString_CastToString_flt (k : FloatKind) (x : Flt) :
    CastFromString (.flt k) (CastToString (.flt k x)) =
      match Flt.reread k x with
      | some y => .ok (.flt k y)
      | none => .error (.TypeCastFailure (CastToString (.flt k x)) (.flt k)) := by
  rw [CastToString_eq_format, CastFromString_flt_eq]
  cases x with
  | finite neg m e =>
    simp only [Value.format, extractFloat_format]
    cases Flt.reread k (.finite neg m e) <;> simp
  | inf neg => cases k <;> cases neg <;> rfl
  | nan neg => cases k <;> cases neg <;> rfl

end detail

end cmd

namespace cmd

namespace detail

theorem Flt.roundDiv_near (a b : Nat) (hb : 0 < b) :
    2 * (Flt.roundDiv a b * b) ≤ 2 * a + b ∧ 2 * a ≤ 2 * (Flt.roundDiv a b * b) + b := by
  have hQ : a / b * b + a % b = a := Nat.div_add_mod' a b
  have hlt : a % b < b := Nat.mod_lt a hb
  unfold Flt.roundDiv
  simp only
  generalize a / b = q at hQ ⊢
  generalize a % b = r at hQ hlt ⊢
  split_ifs <;> (try rw [Nat.add_mul, Nat.one_mul]) <;> generalize q * b = Q at hQ ⊢ <;>
    constructor <;> omega

/-- The six digits are the fraction rounded to six significant decimal digits:
the decimal `D * 10^(X - 5)` is half a unit of its last digit away from the
fraction at most. -/
theorem Flt.sixDigits_near (n d : Nat) (hd : 0 < d) :
    |(n : ℚ) / d - ((Flt.sixDigits n d).1 : ℚ) * (10 : ℚ) ^ ((Flt.sixDigits n d).2 - 5)|
      ≤ (10 : ℚ) ^ ((Flt.sixDigits n d).2 - 5) / 2 := by
  have hd' : (0 : ℚ) < d := by exact_mod_cast hd
  have h10 : (10 : ℚ) ≠ 0 := by norm_num
  have hp : ∀ e : Int, (0 : ℚ) < (10 : ℚ) ^ e := fun e => zpow_pos (by norm_num) e
  generalize hf : Flt.decimalExponent n d - 5 = f
  have hb : 0 < d * 10 ^ f.toNat := by positivity
  obtain ⟨h₁, h₂⟩ := Flt.roundDiv_near (n * 10 ^ (-f).toNat) (d * 10 ^ f.toNat) hb
  have hR : Flt.scaledRound n d f = Flt.roundDiv (n * 10 ^ (-f).toNat) (d * 10 ^ f.toNat) := rfl
  rw [← hR] at h₁ h₂
  generalize hRdef : Flt.scaledRound n d f = R at h₁ h₂
  have hb' : (0 : ℚ) < (d : ℚ) * (10 : ℚ) ^ f.toNat := by positivity
  have h₁' : 2 * ((R : ℚ) * ((d : ℚ) * (10 : ℚ) ^ f.toNat))
      ≤ 2 * ((n : ℚ) * (10 : ℚ) ^ (-f).toNat) + (d : ℚ) * (10 : ℚ) ^ f.toNat := by
    exact_mod_cast h₁
  have h₂' : 2 * ((n : ℚ) * (10 : ℚ) ^ (-f).toNat)
      ≤ 2 * ((R : ℚ) * ((d : ℚ) * (10 : ℚ) ^ f.toNat)) + (d : ℚ) * (10 : ℚ) ^ f.toNat := by
    exact_mod_cast h₂
  have hfz : f = (f.toNat : Int) - ((-f).toNat : Int) := by omega
  have hz : (10 : ℚ) ^ f = (10 : ℚ) ^ f.toNat / (10 : ℚ) ^ (-f).toNat := by
    conv_lhs => rw [hfz]
    rw [zpow_sub₀ h10, zpow_natCast, zpow_natCast]
  have hA : (0 : ℚ) < (10 : ℚ) ^ f.toNat := by positivity
  have hB : (0 : ℚ) < (10 : ℚ) ^ (-f).toNat := by positivity
  have key : |(n : ℚ) / d - (R : ℚ) * (10 : ℚ) ^ f| ≤ (10 : ℚ) ^ f / 2 := by
    rw [hz, abs_le]
    generalize (10 : ℚ) ^ f.toNat = A at h₁' h₂' hA hb'
    generalize (10 : ℚ) ^ (-f).toNat = B at h₁' h₂' hB
    have e₁ : (n : ℚ) / d - (R : ℚ) * (A / B) = ((n : ℚ) * B - R * (d * A)) / (d * B) := by
      field_simp
      ring
    have e₂ : A / B / 2 = (d * A / 2) / (d * B) := by
      field_simp
      ring
    have hdB : (0 : ℚ) < d * B := by positivity
    rw [e₁, e₂]
    constructor
    · rw [neg_le, ← neg_div, div_le_div_iff_of_pos_right hdB]
      linarith
    · rw [div_le_div_iff_of_pos_right hdB]
      linarith
  have hX : Flt.decimalExponent n d = f + 5 := by omega
  have hsix : Flt.sixDigits n d = if R = 1000000 then (100000, f + 5 + 1) else (R, f + 5) := by
    have e₀ : f + 5 - 5 = f := by omega
    unfold Flt.sixDigits
    simp only [hX, e₀, hRdef]
  rw [hsix]
  by_cases hc : R = 1000000
  · simp only [hc, if_true]
    have e₁ : (f + 5 + 1 - 5 : Int) = f + 1 := by omega
    rw [e₁, zpow_add_one₀ h10]
    rw [hc] at key
    have e₂ : ((100000 : Nat) : ℚ) * ((10 : ℚ) ^ f * 10) = ((1000000 : Nat) : ℚ) * (10 : ℚ) ^ f := by
      push_cast
      ring
    rw [e₂]
    have := hp f
    linarith
  · simp only [hc, if_false]
    have e₁ : (f + 5 - 5 : Int) = f := by omega
    rw [e₁]
    exact key

end detail

end cmd

/-! ## The round trip of the value caster -/

namespace cmd

namespace detail

/-- C6 (round trip of the value caster).  For a boolean, a signed or unsigned
integer of 16 bits or more, or a text, every value in the range of its type is
returned by `CastFromString` from the text `CastToString` makes of it.  For a
floating-point type, `CastFromString` of the text `CastToString` makes of `x`
returns `Flt.reread`: the datum nearest to the six significant decimal digits
of `x`, which are `x` rounded to half a unit of the sixth digit, and an error
for an infinity and a not-a-number; so the round trip returns a datum equal to
`x` exactly when `x` is equal to the datum nearest to its own six digits, as
the floats 0.1, 0.01, 0.001 and the double 0.1 are.  For the integer types of
8 bits (`char`, `signed char`, `unsigned char`) `CastFromString` throws on the
text `CastToString` makes of any value. -/
theorem C6_round_trip :
    (∀ v : Value, v.inRange = true → (∀ k x, v ≠ .flt k x) → (∀ k c, v ≠ .chr k c) →
      CastFromString v.ty (CastToString v) = .ok v) ∧
    (∀ (k : FloatKind) (x : Flt),
      CastFromString (.flt k) (CastToString (.flt k x)) =
        match Flt.reread k x with
        | some y => .ok (.flt k y)
        | none => .error (.TypeCastFailure (CastToString (.flt k x)) (.flt k))) ∧
    (∀ (k : FloatKind) (x : Flt),
      (∃ y, CastFromString (.flt k) (CastToString (.flt k x)) = .ok (.flt k y) ∧
          Flt.eq y x = true) ↔
        ∃ y, Flt.reread k x = some y ∧ Flt.eq y x = true) ∧
    (∀ n d : Nat, 0 < n → 0 < d →
      100000 ≤ (Flt.sixDigits n d).1 ∧ (Flt.sixDigits n d).1 < 1000000 ∧
      |(n : ℚ) / d - ((Flt.sixDigits n d).1 : ℚ) * (10 : ℚ) ^ ((Flt.sixDigits n d).2 - 5)|
        ≤ (10 : ℚ) ^ ((Flt.sixDigits n d).2 - 5) / 2) ∧
    (∀ v ∈ [float_0_1, float_0_01, float_0_001, double_0_1],
      v.inRange = true ∧ CastFromString v.ty (CastToString v) = .ok v) ∧
    (∀ (k : CharKind) (c : Int),
      CastFromString (.chr k) (CastToString (.chr k c))
        = .error (.TypeCastFailure (CastToString (.chr k c)) (.chr k))) := by
  refine ⟨fun v hin hty hch => ?_, CastFromString_CastToString_flt, fun k x => ?_,
    fun n d hn hd => ⟨(Flt.sixDigits_range n d hn hd).1, (Flt.sixDigits_range n d hn hd).2,
      Flt.sixDigits_near n d hd⟩, by decide, fun k c => CastFromString_chr k _⟩
  · rw [CastToString_eq_format]
    cases v with
    | bool b => cases b <;> decide
    | sint k i =>
      simp only [Value.inRange, Bool.decide_and, Bool.and_eq_true, decide_eq_true_eq] at hin
      have h := extractInteger_formatInteger_signed k.bits i hin.1 hin.2
      simp [CastFromString, LexicalCast, Value.ty, Value.format, extract, h]
    | uint k n =>
      simp only [Value.inRange, decide_eq_true_eq] at hin
      have h := extractInteger_formatInteger_unsigned k.bits n hin
      simp [CastFromString, LexicalCast, Value.ty, Value.format, extract, h]
    | flt k x => exact absurd rfl (hty k x)
    | string s => simp [CastFromString, LexicalCast, Value.ty, Value.format]
    | chr k c => exact absurd rfl (hch k c)
  · rw [CastFromString_CastToString_flt]
    cases Flt.reread k x with
    | none => simp
    | some z => simp

/-- The `int` -5 is written as `-5` and read back as -5; the six digits of
1234567 are 123457, with the exponent 6. -/
theorem C6_round_trip_witness :
    CastFromString (.sint .int) (CastToString (.sint .int (-5))) = .ok (.sint .int (-5)) ∧
    (100000 ≤ (Flt.sixDigits 1234567 1).1 ∧ (Flt.sixDigits 1234567 1).1 < 1000000 ∧
      |((1234567 : Nat) : ℚ) / ((1 : Nat) : ℚ)
          - ((Flt.sixDigits 1234567 1).1 : ℚ) * (10 : ℚ) ^ ((Flt.sixDigits 1234567 1).2 - 5)|
        ≤ (10 : ℚ) ^ ((Flt.sixDigits 1234567 1).2 - 5) / 2) ∧
    Flt.sixDigits 1234567 1 = (123457, 6) :=
  ⟨C6_round_trip.1 (.sint .int (-5)) (by decide) (fun _ _ h => by cases h)
      (fun _ _ h => by cases h),
    C6_round_trip.2.2.2.1 1234567 1 (by decide) (by decide), by decide⟩

/-- Values in the range of their types that do not come back.  The float
1234567 is written as `1.23457e+06`, which is read as 1234570, a different
float; so is the double 1234567.  The `signed char` 65 is written as the one
character `A`, for which `CastFromString` throws. -/
theorem C6_round_trip_counterexample :
    (Value.inRange (.flt .float (.finite false 1234567 0)) = true ∧
      CastToString (.flt .float (.finite false 1234567 0)) = "1.23457e+06".toList ∧
      CastFromString (.flt .float) (CastToString (.flt .float (.finite false 1234567 0)))
        = .ok (.flt .float (.finite false 9876560 (-3))) ∧
      Value.eq (.flt .float (.finite false 9876560 (-3))) (.flt .float (.finite false 1234567 0))
        = false ∧
      CastFromString (.flt .float) (CastToString (.flt .float (.finite false 1234567 0)))
        ≠ .ok (.flt .float (.finite false 1234567 0))) ∧
    (Value.inRange (.flt .double (.finite false 1234567 0)) = true ∧
      CastToString (.flt .double (.finite false 1234567 0)) = "1.23457e+06".toList ∧
      CastFromString (.flt .double) (CastToString (.flt .double (.finite false 1234567 0)))
        = .ok (.flt .double (.finite false 5302437774622720 (-32))) ∧
      Value.eq (.flt .double (.finite false 5302437774622720 (-32)))
        (.flt .double (.finite false 1234567 0)) = false) ∧
    (Value.inRange (.chr .schar 65) = true ∧ CastToString (.chr .schar 65) = ['A'] ∧
      CastFromString (.chr .schar) (CastToString (.chr .schar 65))
        = .error (.TypeCastFailure ['A'] (.chr .schar))) := by
  decide

end detail

end cmd
